import Mathlib

/-!
Verification development for the multi-objective selection and archive core of
`deap/tools.py` (NSGA-II / SPEA-II selection, hall-of-fame and Pareto-front
archives).  The Python code is shallowly embedded: mutable arrays become
`List`s threaded through folds, `float` objective values become exact
rationals `ℚ`, `float("inf")` becomes `⊤ : WithTop ℚ`, and the random source
is an explicit parameter.
-/

namespace DeapTools

/-- Weighted objective values of a fitness (the `wvalues` the comparisons see). -/
abbrev Fitvals := List ℚ

/-- Modelled from the spec: the dominance predicate of the `Fitness` class
(`deap/base.py`, which is not under `src/`; only its callers in
`src/deap/tools.py` are).  `isDominated a b` holds iff `a` is dominated by
`b`: every weighted objective of `b` is greater or equal to the corresponding
one of `a`, and at least one is strictly greater.  Objectives are compared
pairwise; `zip` truncates to the common arity and every claim below assumes a
population of equal arity. -/
def isDominated (a b : Fitvals) : Bool :=
  ((a.zip b).all fun p => decide (p.1 ≤ p.2)) &&
    ((a.zip b).any fun p => decide (p.1 < p.2))

theorem isDominated_irrefl (a : Fitvals) : isDominated a a = false := by
  simp only [isDominated, Bool.and_eq_false_iff]
  right
  simp only [List.any_eq_false, decide_eq_true_eq]
  intro p hp
  induction a with
  | nil => simp at hp
  | cons x t ih =>
    simp only [List.zip_cons_cons, List.mem_cons] at hp
    rcases hp with h | h
    · subst h; exact lt_irrefl _
    · exact ih h

theorem isDominated_asymm {a b : Fitvals} (h : isDominated a b = true) :
    isDominated b a = false := by
  simp only [isDominated, Bool.and_eq_true, List.all_eq_true, List.any_eq_true,
    decide_eq_true_eq] at h
  obtain ⟨hall, p, hp, hlt⟩ := h
  simp only [isDominated, Bool.and_eq_false_iff]
  right
  simp only [List.any_eq_false, decide_eq_true_eq]
  intro q hq
  have hswap : q.swap ∈ a.zip b := by
    have hm : q.swap ∈ List.map Prod.swap (b.zip a) := List.mem_map_of_mem _ hq
    rwa [List.zip_swap] at hm
  have := hall _ hswap
  simp only [Prod.fst_swap, Prod.snd_swap] at this
  exact not_lt.mpr this

/-- Index-wise characterisation of the dominance test, for equal arities. -/
theorem isDominated_iff {a b : Fitvals} (h : a.length = b.length) :
    isDominated a b = true ↔
      (∀ i, i < a.length → a.getD i 0 ≤ b.getD i 0) ∧
        ∃ i, i < a.length ∧ a.getD i 0 < b.getD i 0 := by
  have hz : (a.zip b).length = a.length := by simp [List.length_zip, h]
  simp only [isDominated, Bool.and_eq_true, List.all_eq_true, List.any_eq_true,
    decide_eq_true_eq]
  constructor
  · rintro ⟨hall, p, hp, hlt⟩
    obtain ⟨i, hi, hip⟩ := List.mem_iff_getElem.mp hp
    constructor
    · intro j hj
      have hjz : j < (a.zip b).length := by omega
      have hmem : (a.zip b)[j] ∈ a.zip b := List.getElem_mem _
      have := hall _ hmem
      rw [List.getElem_zip] at this
      rwa [List.getD_eq_getElem?_getD, List.getD_eq_getElem?_getD,
        List.getElem?_eq_getElem hj, List.getElem?_eq_getElem (by omega : j < b.length)]
    · refine ⟨i, by omega, ?_⟩
      rw [List.getElem_zip] at hip
      rw [List.getD_eq_getElem?_getD, List.getD_eq_getElem?_getD,
        List.getElem?_eq_getElem (by omega : i < a.length),
        List.getElem?_eq_getElem (by omega : i < b.length)]
      have : p.1 = a[i] ∧ p.2 = b[i] := by
        constructor <;> rw [← hip]
      simp only [Option.getD_some]
      rw [← this.1, ← this.2]; exact hlt
  · rintro ⟨hall, i, hi, hlt⟩
    constructor
    · intro p hp
      obtain ⟨j, hj, hjp⟩ := List.mem_iff_getElem.mp hp
      rw [List.getElem_zip] at hjp
      have hja : j < a.length := by omega
      have := hall j hja
      rw [List.getD_eq_getElem?_getD, List.getD_eq_getElem?_getD,
        List.getElem?_eq_getElem hja, List.getElem?_eq_getElem (by omega : j < b.length)] at this
      simp only [Option.getD_some] at this
      subst hjp
      exact this
    · have hiz : i < (a.zip b).length := by omega
      refine ⟨(a.zip b)[i], List.getElem_mem _, ?_⟩
      rw [List.getElem_zip]
      rw [List.getD_eq_getElem?_getD, List.getD_eq_getElem?_getD,
        List.getElem?_eq_getElem hi, List.getElem?_eq_getElem (by omega : i < b.length)] at hlt
      simpa using hlt

theorem isDominated_trans {a b c : Fitvals}
    (hab : a.length = b.length) (hbc : b.length = c.length)
    (h₁ : isDominated a b = true) (h₂ : isDominated b c = true) :
    isDominated a c = true := by
  rw [isDominated_iff hab] at h₁
  rw [isDominated_iff hbc] at h₂
  rw [isDominated_iff (hab.trans hbc)]
  obtain ⟨hall₁, i, hi, hlt₁⟩ := h₁
  obtain ⟨hall₂, -⟩ := h₂
  refine ⟨fun j hj => le_trans (hall₁ j hj) (hall₂ j (by omega)), i, hi, ?_⟩
  exact lt_of_lt_of_le hlt₁ (hall₂ i (by omega))

/-! ### Crowding distance (`sortCrowdingDist`, tools.py lines 1017-1039) -/

/-- `[(x, i) for i, x in enumerate(seq)]`. -/
def withIdx {α : Type} (l : List α) : List (α × ℕ) :=
  l.enum.map fun p => (p.2, p.1)

/-- One iteration of the objective loop of `sortCrowdingDist`: sort the
`crowding` list by objective `d` (Python's stable in-place `list.sort`),
give the two extremes an infinite distance and add the neighbour gap to every
interior individual whose distance is still finite. -/
def crowdStepDim {α : Type} (fit : α → List ℚ) (d : ℕ)
    (st : List (WithTop ℚ) × List (α × ℕ)) : List (WithTop ℚ) × List (α × ℕ) :=
  let crowding := st.2.mergeSort fun x y => decide ((fit x.1).getD d 0 ≤ (fit y.1).getD d 0)
  match crowding with
  | [] => (st.1, [])
  | c0 :: rest =>
    let crowding := c0 :: rest
    let dists := (st.1.set c0.2 ⊤).set (crowding.getLastD c0).2 ⊤
    let dists := (List.range' 1 (crowding.length - 2)).foldl
      (fun ds j =>
        let cj := crowding.getD j c0
        if ds.getD cj.2 0 < ⊤ then
          ds.set cj.2 (ds.getD cj.2 0 +
            ((((fit (crowding.getD (j + 1) c0).1).getD d 0 -
                (fit (crowding.getD (j - 1) c0).1).getD d 0 : ℚ)) : WithTop ℚ))
        else ds)
      dists
    (dists, crowding)

/-- The `(distances, crowding)` state of `sortCrowdingDist` after processing
the first `dims` objective dimensions. -/
def crowdingState {α : Type} (fit : α → List ℚ) (individuals : List α) (dims : ℕ) :
    List (WithTop ℚ) × List (α × ℕ) :=
  (List.range dims).foldl (fun st d => crowdStepDim fit d st)
    (List.replicate individuals.length ((0 : ℚ) : WithTop ℚ), withIdx individuals)

/-- `len(individuals[0].fitness.values)` (0 for an empty front, where the
source returns before reading it). -/
def numberObjectives {α : Type} (fit : α → List ℚ) (individuals : List α) : ℕ :=
  match individuals with
  | [] => 0
  | i0 :: _ => (fit i0).length

/-- `sortCrowdingDist(individuals, n)`: crowding-distance computation followed
by a stable descending sort on the distances; returns the first `n`
individuals of that order (the source returns a generator; we return the
materialised list). -/
def sortCrowdingDist {α : Type} (fit : α → List ℚ) (individuals : List α) (n : ℕ) :
    List α :=
  match individuals with
  | [] => []
  | i0 :: _ =>
    let dists := (crowdingState fit individuals (numberObjectives fit individuals)).1
    let sorted_dist := (withIdx dists).mergeSort fun x y => decide (y.1 ≤ x.1)
    (sorted_dist.take n).map fun p => individuals.getD p.2 i0

/-- C9: for every target count `n`, an empty front yields an empty result
rather than an error. -/
theorem sortCrowdingDist_nil {α : Type} (fit : α → List ℚ) (n : ℕ) :
    sortCrowdingDist fit ([] : List α) n = [] := rfl

/-! ### Lemmas about the crowding computation (claim C8) -/

theorem foldl_preserve {β γ : Type*} {P : β → Prop} (f : β → γ → β)
    (l : List γ) (b : β) (hf : ∀ b x, x ∈ l → P b → P (f b x)) (hb : P b) :
    P (l.foldl f b) := by
  induction l generalizing b with
  | nil => exact hb
  | cons x t ih =>
    exact ih (f b x) (fun b y hy => hf b y (List.mem_cons_of_mem _ hy))
      (hf b x (List.mem_cons_self _ _) hb)

theorem lt_length_of_getD_top {l : List (WithTop ℚ)} {p : ℕ}
    (hp : l.getD p 0 = ⊤) : p < l.length := by
  by_contra h
  rw [List.getD_eq_getElem?_getD, List.getElem?_eq_none (by omega)] at hp
  simp at hp

theorem getD_set_self_top {l : List (WithTop ℚ)} {p : ℕ} (hp : p < l.length) :
    (l.set p ⊤).getD p 0 = ⊤ := by
  rw [List.getD_eq_getElem?_getD, List.getElem?_set_self hp]
  rfl

theorem getD_set_ne {l : List (WithTop ℚ)} {i p : ℕ} (h : i ≠ p) (x : WithTop ℚ) :
    (l.set i x).getD p 0 = l.getD p 0 := by
  rw [List.getD_eq_getElem?_getD, List.getElem?_set_ne h, ← List.getD_eq_getElem?_getD]

theorem getD_set_top_preserve {l : List (WithTop ℚ)} {p : ℕ}
    (hp : l.getD p 0 = ⊤) (i : ℕ) : (l.set i ⊤).getD p 0 = ⊤ := by
  rcases eq_or_ne i p with rfl | h
  · exact getD_set_self_top (lt_length_of_getD_top hp)
  · rw [getD_set_ne h]; exact hp

/-- The interior-gap fold of `crowdStepDim` never touches a cell that already
holds `⊤` (the source guards every addition with `distances[...] < inf`). -/
theorem crowdStep_fold_top_preserve {α : Type} (fit : α → List ℚ) (d : ℕ)
    (crowding : List (α × ℕ)) (c0 : α × ℕ) (idxs : List ℕ)
    {p : ℕ} {ds : List (WithTop ℚ)} (hds : ds.getD p 0 = ⊤) :
    (idxs.foldl
      (fun ds j =>
        let cj := crowding.getD j c0
        if ds.getD cj.2 0 < ⊤ then
          ds.set cj.2 (ds.getD cj.2 0 +
            ((((fit (crowding.getD (j + 1) c0).1).getD d 0 -
                (fit (crowding.getD (j - 1) c0).1).getD d 0 : ℚ)) : WithTop ℚ))
        else ds)
      ds).getD p 0 = ⊤ := by
  refine foldl_preserve (P := fun ds => List.getD ds p 0 = ⊤) _ idxs ds ?_ hds
  intro ds j _ hp
  simp only
  split
  · next hlt =>
    rcases eq_or_ne (crowding.getD j c0).2 p with he | he
    · rw [he, hp] at hlt
      exact absurd hlt (lt_irrefl _)
    · rw [getD_set_ne he]; exact hp
  · exact hp

theorem crowdStepDim_top_preserve {α : Type} (fit : α → List ℚ) (d : ℕ)
    (st : List (WithTop ℚ) × List (α × ℕ)) {p : ℕ}
    (hp : st.1.getD p 0 = ⊤) :
    (crowdStepDim fit d st).1.getD p 0 = ⊤ := by
  unfold crowdStepDim
  cases hms : st.2.mergeSort fun x y => decide ((fit x.1).getD d 0 ≤ (fit y.1).getD d 0) with
  | nil => simpa using hp
  | cons c0 rest =>
    simp only
    exact crowdStep_fold_top_preserve fit d _ c0 _
      (getD_set_top_preserve (getD_set_top_preserve hp c0.2) _)

theorem crowdingState_succ {α : Type} (fit : α → List ℚ) (individuals : List α)
    (t : ℕ) :
    crowdingState fit individuals (t + 1) =
      crowdStepDim fit t (crowdingState fit individuals t) := by
  unfold crowdingState
  rw [List.range_succ, List.foldl_append, List.foldl_cons, List.foldl_nil]

/-- C8 persistence: a distance cell holding `⊤` after `t` dimensions still
holds `⊤` after any later dimension. -/
theorem crowdingState_top_mono {α : Type} (fit : α → List ℚ) (individuals : List α)
    {t t' p : ℕ} (htt : t ≤ t')
    (hp : (crowdingState fit individuals t).1.getD p 0 = ⊤) :
    (crowdingState fit individuals t').1.getD p 0 = ⊤ := by
  induction t' with
  | zero => have : t = 0 := by omega
            subst this; exact hp
  | succ k ih =>
    rcases Nat.lt_or_ge t (k + 1) with h | h
    · rw [crowdingState_succ]
      exact crowdStepDim_top_preserve _ _ _ (ih (by omega))
    · have : t = k + 1 := by omega
      subst this; exact hp

theorem withIdx_mem {α : Type} {l : List α} {p : α × ℕ} (hp : p ∈ withIdx l) :
    l[p.2]? = some p.1 := by
  obtain ⟨q, hq, hqp⟩ := List.mem_map.mp hp
  have := List.mem_enum_iff_getElem?.mp hq
  rw [← hqp]
  simpa using this

theorem withIdx_map_fst {α : Type} (l : List α) :
    (withIdx l).map Prod.fst = l := by
  unfold withIdx
  rw [List.map_map]
  exact List.enum_map_snd l

theorem crowdStepDim_snd_perm {α : Type} (fit : α → List ℚ) (d : ℕ)
    (st : List (WithTop ℚ) × List (α × ℕ)) :
    (crowdStepDim fit d st).2.Perm st.2 := by
  unfold crowdStepDim
  cases hms : st.2.mergeSort fun x y => decide ((fit x.1).getD d 0 ≤ (fit y.1).getD d 0) with
  | nil =>
    simp only
    have := List.mergeSort_perm st.2 fun x y => decide ((fit x.1).getD d 0 ≤ (fit y.1).getD d 0)
    rw [hms] at this
    exact this
  | cons c0 rest =>
    simp only
    have := List.mergeSort_perm st.2 fun x y => decide ((fit x.1).getD d 0 ≤ (fit y.1).getD d 0)
    rw [hms] at this
    exact this

theorem crowdingState_snd_perm {α : Type} (fit : α → List ℚ) (individuals : List α)
    (t : ℕ) : (crowdingState fit individuals t).2.Perm (withIdx individuals) := by
  induction t with
  | zero => exact List.Perm.refl _
  | succ k ih =>
    rw [crowdingState_succ]
    exact (crowdStepDim_snd_perm fit k _).trans ih

theorem crowdStepDim_fst_length {α : Type} (fit : α → List ℚ) (d : ℕ)
    (st : List (WithTop ℚ) × List (α × ℕ)) :
    (crowdStepDim fit d st).1.length = st.1.length := by
  unfold crowdStepDim
  cases hms : st.2.mergeSort fun x y => decide ((fit x.1).getD d 0 ≤ (fit y.1).getD d 0) with
  | nil => rfl
  | cons c0 rest =>
    simp only
    refine foldl_preserve (P := fun ds => List.length ds = st.1.length) _ _ _ ?_ (by simp)
    intro ds j _ hp
    split
    · rw [List.length_set]; exact hp
    · exact hp

theorem crowdingState_fst_length {α : Type} (fit : α → List ℚ) (individuals : List α)
    (t : ℕ) : (crowdingState fit individuals t).1.length = individuals.length := by
  induction t with
  | zero => simp [crowdingState]
  | succ k ih => rw [crowdingState_succ, crowdStepDim_fst_length]; exact ih

theorem getLastD_mem_cons {α : Type} (c0 : α) (rest : List α) :
    (c0 :: rest).getLastD c0 ∈ c0 :: rest := by
  induction rest generalizing c0 with
  | nil => simp
  | cons x t ih =>
    have := ih x
    simp only [List.getLastD_cons] at this ⊢
    exact List.mem_cons_of_mem _ this

theorem pairwise_head_le {α : Type} {le : α → α → Bool} (hrefl : ∀ a, le a a = true)
    {c0 : α} {rest : List α}
    (h : List.Pairwise (fun a b => le a b = true) (c0 :: rest)) :
    ∀ y ∈ c0 :: rest, le c0 y = true := by
  intro y hy
  rcases List.mem_cons.mp hy with rfl | hy
  · exact hrefl y
  · exact (List.pairwise_cons.mp h).1 y hy

theorem pairwise_le_getLastD {α : Type} {le : α → α → Bool} (hrefl : ∀ a, le a a = true)
    {c0 : α} {rest : List α}
    (h : List.Pairwise (fun a b => le a b = true) (c0 :: rest)) :
    ∀ y ∈ c0 :: rest, le y ((c0 :: rest).getLastD c0) = true := by
  induction rest generalizing c0 with
  | nil => intro y hy; simp at hy; subst hy; simpa using hrefl y
  | cons x t ih =>
    intro y hy
    have hcons := List.pairwise_cons.mp h
    rcases List.mem_cons.mp hy with rfl | hy
    · have hlast : (x :: t).getLastD x ∈ x :: t := getLastD_mem_cons x t
      have := hcons.1 _ hlast
      simpa [List.getLastD_cons] using this
    · have := ih hcons.2 y hy
      simpa [List.getLastD_cons] using this

/-- C8: in `sortCrowdingDist`, for every objective dimension `d`, the distance
table after processing all dimensions holds `⊤` (infinite distance) at the
position of an individual with the minimum value and of an individual with the
maximum value on dimension `d`; moreover a cell that is `⊤` after `t`
dimensions stays `⊤` after every later dimension. -/
theorem sortCrowdingDist_boundary {α : Type} (fit : α → List ℚ)
    (individuals : List α) (hne : individuals ≠ [])
    (harity : ∀ x ∈ individuals, (fit x).length = numberObjectives fit individuals)
    (d : ℕ) (hd : d < numberObjectives fit individuals) :
    (∃ j a, individuals[j]? = some a ∧
        (∀ y ∈ individuals, (fit a).getD d 0 ≤ (fit y).getD d 0) ∧
        (crowdingState fit individuals (numberObjectives fit individuals)).1.getD j 0 = ⊤) ∧
    (∃ j a, individuals[j]? = some a ∧
        (∀ y ∈ individuals, (fit y).getD d 0 ≤ (fit a).getD d 0) ∧
        (crowdingState fit individuals (numberObjectives fit individuals)).1.getD j 0 = ⊤) ∧
    (∀ t u p, t ≤ u →
        (crowdingState fit individuals t).1.getD p 0 = ⊤ →
        (crowdingState fit individuals u).1.getD p 0 = ⊤) := by
  set L := numberObjectives fit individuals with hL
  set st := crowdingState fit individuals d with hst
  set le := fun x y : α × ℕ => decide ((fit x.1).getD d 0 ≤ (fit y.1).getD d 0) with hle
  have hperm : (st.2.mergeSort le).Perm (withIdx individuals) :=
    (List.mergeSort_perm st.2 le).trans (crowdingState_snd_perm fit individuals d)
  have hsorted : List.Pairwise (fun a b => le a b = true) (st.2.mergeSort le) := by
    refine List.sorted_mergeSort ?_ ?_ st.2
    · intro a b c hab hbc
      simp only [hle, decide_eq_true_eq] at hab hbc ⊢
      exact le_trans hab hbc
    · intro a b
      simp only [hle, Bool.or_eq_true, decide_eq_true_eq]
      exact le_total _ _
  have hnil : st.2.mergeSort le ≠ [] := by
    intro h
    rw [h] at hperm
    have := hperm.length_eq
    simp only [List.length_nil, withIdx, List.length_map, List.enum_length] at this
    exact hne (List.length_eq_zero.mp this.symm)
  obtain ⟨c0, rest, hms⟩ := List.exists_cons_of_ne_nil hnil
  have hmem_of : ∀ e ∈ (c0 :: rest : List (α × ℕ)), individuals[e.2]? = some e.1 := by
    intro e he
    rw [← hms] at he
    exact withIdx_mem (hperm.mem_iff.mp he)
  have hofy : ∀ y ∈ individuals, ∃ e ∈ (c0 :: rest : List (α × ℕ)), e.1 = y := by
    intro y hy
    rw [← withIdx_map_fst individuals] at hy
    obtain ⟨e, he, hey⟩ := List.mem_map.mp hy
    exact ⟨e, by rw [← hms]; exact hperm.mem_iff.mpr he, hey⟩
  have hlen1 : st.1.length = individuals.length := crowdingState_fst_length fit individuals d
  have hmsorted : List.Pairwise (fun a b => le a b = true) (c0 :: rest) := hms ▸ hsorted
  have hrefl : ∀ a : α × ℕ, le a a = true := by
    intro a; simp [hle]
  -- the index bound of the first element
  have hc0 : individuals[c0.2]? = some c0.1 := hmem_of c0 (List.mem_cons_self _ _)
  have hc0lt : c0.2 < individuals.length := by
    obtain ⟨h, -⟩ := List.getElem?_eq_some.mp hc0
    exact h
  -- the last element
  set clast := (c0 :: rest).getLastD c0 with hclast
  have hcl : individuals[clast.2]? = some clast.1 := hmem_of clast (getLastD_mem_cons c0 rest)
  have hcllt : clast.2 < individuals.length := by
    obtain ⟨h, -⟩ := List.getElem?_eq_some.mp hcl
    exact h
  -- both extreme cells hold ⊤ after the step for dimension d
  have hbase : ∀ p, p < st.1.length →
      (((st.1.set c0.2 ⊤).set clast.2 ⊤).getD p 0 = ⊤ →
        (crowdStepDim fit d st).1.getD p 0 = ⊤) := by
    intro p _ hp
    unfold crowdStepDim
    rw [← hle, hms]
    exact crowdStep_fold_top_preserve fit d _ c0 _ hp
  have hheadtop : (crowdStepDim fit d st).1.getD c0.2 0 = ⊤ := by
    refine hbase c0.2 (by omega) ?_
    exact getD_set_top_preserve (getD_set_self_top (by omega)) _
  have hlasttop : (crowdStepDim fit d st).1.getD clast.2 0 = ⊤ := by
    refine hbase clast.2 (by omega) ?_
    exact getD_set_self_top (by rw [List.length_set]; omega)
  have hstep : crowdingState fit individuals (d + 1) = crowdStepDim fit d st :=
    crowdingState_succ fit individuals d
  have hmono : ∀ {t u p : ℕ}, t ≤ u →
      (crowdingState fit individuals t).1.getD p 0 = ⊤ →
      (crowdingState fit individuals u).1.getD p 0 = ⊤ :=
    fun htu hp => crowdingState_top_mono fit individuals htu hp
  refine ⟨⟨c0.2, c0.1, hc0, ?_, ?_⟩, ⟨clast.2, clast.1, hcl, ?_, ?_⟩,
    fun t u p htu hp => hmono htu hp⟩
  · intro y hy
    obtain ⟨e, he, hey⟩ := hofy y hy
    have := pairwise_head_le hrefl hmsorted e he
    simp only [hle, decide_eq_true_eq] at this
    rw [← hey]
    exact this
  · exact hmono (by omega : d + 1 ≤ L) (by rw [hstep]; exact hheadtop)
  · intro y hy
    obtain ⟨e, he, hey⟩ := hofy y hy
    have := pairwise_le_getLastD hrefl hmsorted e he
    simp only [hle, decide_eq_true_eq] at this
    rw [← hey]
    exact this
  · exact hmono (by omega : d + 1 ≤ L) (by rw [hstep]; exact hlasttop)

/-- Witness for C8 at the concrete front `[(1,4),(2,3),(3,2),(4,1)]`,
objective dimension 0. -/
theorem sortCrowdingDist_boundary_witness :
    (([[1,4],[2,3],[3,2],[4,1]] : List (List ℚ)) ≠ [] ∧
      (∀ x ∈ ([[1,4],[2,3],[3,2],[4,1]] : List (List ℚ)),
        (id x).length = numberObjectives id [[1,4],[2,3],[3,2],[4,1]]) ∧
      0 < numberObjectives (id : List ℚ → List ℚ) [[1,4],[2,3],[3,2],[4,1]]) ∧
    ((∃ j a, ([[1,4],[2,3],[3,2],[4,1]] : List (List ℚ))[j]? = some a ∧
        (∀ y ∈ ([[1,4],[2,3],[3,2],[4,1]] : List (List ℚ)),
          (id a).getD 0 0 ≤ (id y).getD 0 0) ∧
        (crowdingState id [[1,4],[2,3],[3,2],[4,1]]
          (numberObjectives id [[1,4],[2,3],[3,2],[4,1]])).1.getD j 0 = ⊤) ∧
      (∃ j a, ([[1,4],[2,3],[3,2],[4,1]] : List (List ℚ))[j]? = some a ∧
        (∀ y ∈ ([[1,4],[2,3],[3,2],[4,1]] : List (List ℚ)),
          (id y).getD 0 0 ≤ (id a).getD 0 0) ∧
        (crowdingState id [[1,4],[2,3],[3,2],[4,1]]
          (numberObjectives id [[1,4],[2,3],[3,2],[4,1]])).1.getD j 0 = ⊤) ∧
      (∀ t u p, t ≤ u →
        (crowdingState (id : List ℚ → List ℚ) [[1,4],[2,3],[3,2],[4,1]] t).1.getD p 0 = ⊤ →
        (crowdingState id [[1,4],[2,3],[3,2],[4,1]] u).1.getD p 0 = ⊤)) :=
  ⟨⟨by decide, by decide, by decide⟩,
    sortCrowdingDist_boundary id [[1,4],[2,3],[3,2],[4,1]] (by decide) (by decide)
      0 (by decide)⟩

/-! ### HallOfFame and ParetoFront archives (tools.py lines 361-483)

The fitness total order of the `Fitness` class is not part of `src/`; the
archives only use it through `sorted`, `bisect_right` and `<`/`>` comparisons,
so the embedding is parameterised by an arbitrary linearly ordered key type
`κ` and a function `fitness : α → κ`, matching the spec's "total order
comparison" contract.  Deep copies are value copies in this pure model. -/

/-- Python `list.insert(i, x)`: negative indices count from the end and the
position is clamped into the list; the length always grows by one. -/
def pyInsert {α : Type} (l : List α) (i : ℤ) (x : α) : List α :=
  let n : ℤ := l.length
  let j : ℤ := if i < 0 then max (n + i) 0 else min i n
  l.insertIdx j.toNat x

/-- Python `del l[i]`: a negative index counts from the end.  An out-of-range
index raises `IndexError` in Python; the model leaves the list unchanged
there, and no theorem below goes through that case. -/
def pyDel {α : Type} (l : List α) (i : ℤ) : List α :=
  let j : ℤ := if i < 0 then (l.length : ℤ) + i else i
  l.eraseIdx j.toNat

/-- `bisect.bisect_right` from the Python standard library: binary search for
the insertion point to the right of entries equal to `x`.  `fuel` only makes
the recursion structural; `hi - lo` shrinks at every step, so the initial
fuel `a.length` always suffices. -/
def bisectRightAux {κ : Type} [LinearOrder κ] (a : List κ) (x : κ) :
    ℕ → ℕ → ℕ → ℕ
  | 0, lo, _ => lo
  | fuel + 1, lo, hi =>
    if lo < hi then
      let mid := (lo + hi) / 2
      if x < a.getD mid x then bisectRightAux a x fuel lo mid
      else bisectRightAux a x fuel (mid + 1) hi
    else lo

def bisect_right {κ : Type} [LinearOrder κ] (a : List κ) (x : κ) : ℕ :=
  bisectRightAux a x a.length 0 a.length

/-- The `HallOfFame` archive: `items` sorted best-first, `keys` the fitnesses
of the items in reverse order (ascending), as kept by the source for the
bisection. -/
structure HallOfFame (α κ : Type) where
  maxsize : ℕ
  keys : List κ
  items : List α

/-- `HallOfFame.__init__`. -/
def HallOfFame.init (α κ : Type) (maxsize : ℕ) : HallOfFame α κ :=
  ⟨maxsize, [], []⟩

/-- `HallOfFame.insert(item)`: bisect the (ascending) `keys`, insert the item
at the mirrored position of `items` and the fitness into `keys`.  No size
check happens here. -/
def HallOfFame.insert {α κ : Type} [LinearOrder κ] (fitness : α → κ)
    (h : HallOfFame α κ) (item : α) : HallOfFame α κ :=
  let i := bisect_right h.keys (fitness item)
  { h with
    items := pyInsert h.items ((h.items.length : ℤ) - i) item,
    keys := pyInsert h.keys i (fitness item) }

/-- `HallOfFame.remove(index)` (`len(self)` is `len(self.items)`). -/
def HallOfFame.remove {α κ : Type} (h : HallOfFame α κ) (index : ℤ) :
    HallOfFame α κ :=
  { h with
    keys := pyDel h.keys
      ((h.items.length : ℤ) - (index % (h.items.length : ℤ) + 1)),
    items := pyDel h.items index }

/-- `HallOfFame.update(population)`: while the archive is not full, rebuild it
from the archive plus the population, sorted best-first (Python's stable
`sorted` with `reverse=True`) and truncated to `maxsize`; once full, every
individual better than the current worst replaces it. -/
def HallOfFame.update {α κ : Type} [LinearOrder κ] (fitness : α → κ)
    (h : HallOfFame α κ) (population : List α) : HallOfFame α κ :=
  if h.items.length < h.maxsize then
    let items := ((h.items ++ population).mergeSort
        fun a b => decide (fitness b ≤ fitness a)).take h.maxsize
    { h with items := items, keys := items.reverse.map fitness }
  else
    population.foldl
      (fun st ind =>
        match st.items.getLast? with
        | none => st
        | some worst =>
          if fitness worst < fitness ind then
            (st.remove (-1)).insert fitness ind
          else st)
      h

theorem pyInsert_length {α : Type} (l : List α) (i : ℤ) (x : α) :
    (pyInsert l i x).length = l.length + 1 := by
  unfold pyInsert
  apply List.length_insertIdx
  split
  · next h => omega
  · next h => omega

/-- C10: `insert` on a full hall of fame grows it past `maxsize`: it never
evicts, so the capacity bound is maintained only by `update`. -/
theorem hallOfFame_insert_overfills {α κ : Type} [LinearOrder κ]
    (fitness : α → κ) (h : HallOfFame α κ) (item : α)
    (hfull : h.items.length = h.maxsize) :
    (h.insert fitness item).items.length = h.maxsize + 1 := by
  unfold HallOfFame.insert
  rw [pyInsert_length, hfull]

/-- Witness for C10 on a full two-element hall of fame. -/
theorem hallOfFame_insert_overfills_witness :
    (HallOfFame.mk 2 [3, 5] [5, 3] : HallOfFame ℚ ℚ).items.length =
        (HallOfFame.mk 2 [3, 5] [5, 3] : HallOfFame ℚ ℚ).maxsize ∧
      ((HallOfFame.mk 2 [3, 5] [5, 3] : HallOfFame ℚ ℚ).insert id 4).items.length =
        (HallOfFame.mk 2 [3, 5] [5, 3] : HallOfFame ℚ ℚ).maxsize + 1 :=
  ⟨by decide, hallOfFame_insert_overfills id _ 4 (by decide)⟩

/-! ### Invariant of the HallOfFame archive (claim C5) -/

theorem getD_of_lt {α : Type} (a : List α) (d : α) {p : ℕ} (hp : p < a.length) :
    a.getD p d = a[p] := by
  rw [List.getD_eq_getElem?_getD, List.getElem?_eq_getElem hp]
  rfl

theorem sorted_getD_le {κ : Type} [LinearOrder κ] {a : List κ}
    (hs : List.Sorted (· ≤ ·) a) {i j : ℕ} (hij : i ≤ j) (hj : j < a.length)
    (d : κ) : a.getD i d ≤ a.getD j d := by
  rcases eq_or_lt_of_le hij with rfl | hlt
  · exact le_refl _
  · have := List.pairwise_iff_getElem.mp hs i j (by omega) hj hlt
    rw [getD_of_lt a d (by omega), getD_of_lt a d hj]
    exact this

theorem bisectRightAux_le {κ : Type} [LinearOrder κ] (a : List κ) (x : κ) :
    ∀ (fuel lo hi : ℕ), lo ≤ hi →
      lo ≤ bisectRightAux a x fuel lo hi ∧ bisectRightAux a x fuel lo hi ≤ hi := by
  intro fuel
  induction fuel with
  | zero => intro lo hi h; exact ⟨le_refl _, h⟩
  | succ f ih =>
    intro lo hi h
    simp only [bisectRightAux]
    split
    · next hlh =>
      split
      · have := ih lo ((lo + hi) / 2) (by omega)
        exact ⟨this.1, by omega⟩
      · have := ih ((lo + hi) / 2 + 1) hi (by omega)
        exact ⟨by omega, this.2⟩
    · exact ⟨le_refl _, h⟩

theorem bisectRightAux_spec {κ : Type} [LinearOrder κ] {a : List κ} {x : κ}
    (hs : List.Sorted (· ≤ ·) a) :
    ∀ (fuel lo hi : ℕ), hi - lo ≤ fuel → hi ≤ a.length →
      (∀ p, p < lo → a.getD p x ≤ x) →
      (∀ p, hi ≤ p → p < a.length → x < a.getD p x) →
      (∀ p, p < bisectRightAux a x fuel lo hi → a.getD p x ≤ x) ∧
      (∀ p, bisectRightAux a x fuel lo hi ≤ p → p < a.length → x < a.getD p x) := by
  intro fuel
  induction fuel with
  | zero =>
    intro lo hi hfuel _ hlow hhigh
    simp only [bisectRightAux]
    exact ⟨fun p hp => hlow p hp, fun p hp hpl => hhigh p (by omega) hpl⟩
  | succ f ih =>
    intro lo hi hfuel hlen hlow hhigh
    simp only [bisectRightAux]
    split
    · next hlh =>
      split
      · next hcmp =>
        refine ih lo ((lo + hi) / 2) (by omega) (by omega) hlow ?_
        intro p hp hpl
        have hmid : (lo + hi) / 2 < a.length := by omega
        calc x < a.getD ((lo + hi) / 2) x := hcmp
          _ ≤ a.getD p x := sorted_getD_le hs hp hpl x
      · next hcmp =>
        push_neg at hcmp
        refine ih ((lo + hi) / 2 + 1) hi (by omega) hlen ?_ hhigh
        intro p hp
        have : a.getD p x ≤ a.getD ((lo + hi) / 2) x :=
          sorted_getD_le hs (by omega) (by omega) x
        exact le_trans this hcmp
    · next hlh =>
      exact ⟨fun p hp => hlow p hp, fun p hp hpl => hhigh p (by omega) hpl⟩

theorem bisect_right_spec {κ : Type} [LinearOrder κ] {a : List κ} {x : κ}
    (hs : List.Sorted (· ≤ ·) a) :
    bisect_right a x ≤ a.length ∧
      (∀ p, p < bisect_right a x → a.getD p x ≤ x) ∧
      (∀ p, bisect_right a x ≤ p → p < a.length → x < a.getD p x) := by
  have hle := bisectRightAux_le a x a.length 0 a.length (by omega)
  have hspec := bisectRightAux_spec (x := x) hs a.length 0 a.length (by omega)
    (le_refl _) (fun p hp => absurd hp (by omega))
    (fun p hp hpl => absurd hpl (by omega))
  exact ⟨hle.2, hspec.1, hspec.2⟩

theorem insertIdx_eq_take_drop {α : Type} (x : α) :
    ∀ (r : ℕ) (a : List α), r ≤ a.length →
      a.insertIdx r x = a.take r ++ x :: a.drop r := by
  intro r
  induction r with
  | zero => intro a _; simp
  | succ k ih =>
    intro a ha
    cases a with
    | nil => simp at ha
    | cons b t =>
      simp only [List.insertIdx_succ_cons, List.take_succ_cons, List.drop_succ_cons,
        List.cons_append, List.cons.injEq, true_and]
      exact ih t (by simpa using ha)

theorem map_insertIdx {α β : Type} (f : α → β) (x : α) :
    ∀ (r : ℕ) (a : List α), (a.insertIdx r x).map f = (a.map f).insertIdx r (f x) := by
  intro r
  induction r with
  | zero => intro a; simp
  | succ k ih =>
    intro a
    cases a with
    | nil => simp
    | cons b t => simp [List.insertIdx_succ_cons, ih]

theorem reverse_insertIdx {α : Type} (x : α) (a : List α) (r : ℕ) (hr : r ≤ a.length) :
    (a.insertIdx r x).reverse = a.reverse.insertIdx (a.length - r) x := by
  rw [insertIdx_eq_take_drop x r a hr,
    insertIdx_eq_take_drop x (a.length - r) a.reverse (by simp)]
  rw [List.reverse_append, List.reverse_cons]
  rw [← List.reverse_drop, ← List.reverse_take]
  simp [List.append_assoc]

theorem sorted_insertIdx {κ : Type} [LinearOrder κ] {a : List κ} {x : κ} {r : ℕ}
    (hs : List.Sorted (· ≤ ·) a) (hr : r ≤ a.length)
    (hlow : ∀ p, p < r → a.getD p x ≤ x)
    (hhigh : ∀ p, r ≤ p → p < a.length → x < a.getD p x) :
    List.Sorted (· ≤ ·) (a.insertIdx r x) := by
  rw [insertIdx_eq_take_drop x r a hr]
  apply List.pairwise_append.mpr
  refine ⟨List.Pairwise.take hs, ?_, ?_⟩
  · apply List.pairwise_cons.mpr
    constructor
    · intro b hb
      obtain ⟨j, hj, hjb⟩ := List.mem_iff_getElem.mp hb
      rw [List.getElem_drop] at hjb
      have hrj : r + j < a.length := by
        have := hj
        rw [List.length_drop] at this
        omega
      have := hhigh (r + j) (by omega) hrj
      rw [getD_of_lt a x hrj] at this
      rw [← hjb]
      exact le_of_lt this
    · exact List.Pairwise.drop hs
  · intro y hy b hb
    obtain ⟨i, hi, hiy⟩ := List.mem_take_iff_getElem.mp hy
    have hia : i < a.length := by
      simp only [lt_inf_iff] at hi
      exact hi.2
    have hyx : y ≤ x := by
      have := hlow i (by simp only [lt_inf_iff] at hi; omega)
      rw [getD_of_lt a x hia] at this
      rw [← hiy]
      exact this
    rcases List.mem_cons.mp hb with rfl | hb
    · exact hyx
    · obtain ⟨j, hj, hjb⟩ := List.mem_iff_getElem.mp hb
      rw [List.getElem_drop] at hjb
      have hrj : r + j < a.length := by
        have := hj
        rw [List.length_drop] at this
        omega
      have := hhigh (r + j) (by omega) hrj
      rw [getD_of_lt a x hrj] at this
      rw [← hjb]
      exact le_trans hyx (le_of_lt this)

theorem pyInsert_eq_insertIdx {α : Type} (l : List α) (i : ℕ) (hi : i ≤ l.length)
    (x : α) : pyInsert l (i : ℤ) x = l.insertIdx i x := by
  unfold pyInsert
  dsimp only
  have h1 : ¬((i : ℤ) < 0) := by omega
  rw [if_neg h1]
  have h2 : (min (i : ℤ) ((l.length : ℕ) : ℤ)).toNat = i := by omega
  rw [h2]

/-- The representation invariant `HallOfFame.update`/`insert`/`remove`
maintain: `keys` mirrors `items` in reverse through `fitness`, is sorted
ascending, and the archive never exceeds its capacity. -/
def HofInv {α κ : Type} [LinearOrder κ] (fitness : α → κ) (M : ℕ)
    (h : HallOfFame α κ) : Prop :=
  h.maxsize = M ∧ h.keys = h.items.reverse.map fitness ∧
    List.Sorted (· ≤ ·) h.keys ∧ h.items.length ≤ M

theorem keys_length_of_pair {α κ : Type} (fitness : α → κ) (h : HallOfFame α κ)
    (hpair : h.keys = h.items.reverse.map fitness) :
    h.keys.length = h.items.length := by
  rw [hpair]; simp

theorem insert_inv {α κ : Type} [LinearOrder κ] {fitness : α → κ} {M : ℕ}
    {h : HallOfFame α κ} (hinv : HofInv fitness M h) (item : α) :
    (h.insert fitness item).maxsize = M ∧
    (h.insert fitness item).keys =
      (h.insert fitness item).items.reverse.map fitness ∧
    List.Sorted (· ≤ ·) (h.insert fitness item).keys ∧
    (h.insert fitness item).items.length = h.items.length + 1 := by
  obtain ⟨hm, hpair, hsort, -⟩ := hinv
  have klen : h.keys.length = h.items.length := keys_length_of_pair fitness h hpair
  obtain ⟨hble, hblow, hbhigh⟩ := bisect_right_spec (a := h.keys)
    (x := fitness item) hsort
  set x := fitness item with hx
  set i := bisect_right h.keys x with hi
  have hiitems : i ≤ h.items.length := by omega
  have hkeys : (h.insert fitness item).keys = h.keys.insertIdx i x := by
    show pyInsert h.keys (i : ℤ) x = _
    exact pyInsert_eq_insertIdx h.keys i hble x
  have hitems : (h.insert fitness item).items =
      h.items.insertIdx (h.items.length - i) item := by
    show pyInsert h.items ((h.items.length : ℤ) - (i : ℤ)) item = _
    have hcast : ((h.items.length : ℤ) - (i : ℤ)) = ((h.items.length - i : ℕ) : ℤ) := by
      omega
    rw [hcast]
    exact pyInsert_eq_insertIdx h.items _ (by omega) item
  refine ⟨hm, ?_, ?_, ?_⟩
  · rw [hkeys, hitems, reverse_insertIdx item h.items _ (by omega), map_insertIdx]
    rw [← hpair, ← hx]
    congr 1
    omega
  · rw [hkeys]
    exact sorted_insertIdx hsort hble hblow hbhigh
  · rw [hitems]
    exact List.length_insertIdx _ _ (by omega)

theorem neg_one_emod {n : ℤ} (hn : 1 ≤ n) : (-1) % n = n - 1 := by
  have h1 : (-1 + n * 1) % n = (-1) % n := Int.add_mul_emod_self_left (-1) n 1
  have h2 : (-1 + n * 1) = n - 1 := by ring
  rw [h2] at h1
  rw [← h1]
  exact Int.emod_eq_of_lt (by omega) (by omega)

theorem eraseIdx_zero_eq_tail {α : Type} (l : List α) : l.eraseIdx 0 = l.tail := by
  cases l <;> rfl

theorem remove_last_inv {α κ : Type} [LinearOrder κ] {fitness : α → κ} {M : ℕ}
    {h : HallOfFame α κ} (hinv : HofInv fitness M h) (hne : h.items ≠ []) :
    HofInv fitness M (h.remove (-1)) ∧
      (h.remove (-1)).items.length = h.items.length - 1 := by
  obtain ⟨hm, hpair, hsort, hlen⟩ := hinv
  have hn : 1 ≤ h.items.length := List.length_pos.mpr hne
  have hmod : (-1 : ℤ) % (h.items.length : ℤ) = (h.items.length : ℤ) - 1 :=
    neg_one_emod (by omega)
  have hkeys : (h.remove (-1)).keys = h.keys.tail := by
    show pyDel h.keys ((h.items.length : ℤ) -
      ((-1 : ℤ) % (h.items.length : ℤ) + 1)) = _
    rw [hmod]
    unfold pyDel
    dsimp only
    have : ((h.items.length : ℤ) - ((h.items.length : ℤ) - 1 + 1)) = 0 := by ring
    rw [this]
    simp only [if_neg (by omega : ¬(0 : ℤ) < 0)]
    exact eraseIdx_zero_eq_tail h.keys
  have hitems : (h.remove (-1)).items = h.items.dropLast := by
    show pyDel h.items (-1) = _
    unfold pyDel
    dsimp only
    rw [if_pos (by omega : (-1 : ℤ) < 0)]
    have : ((h.items.length : ℤ) + (-1)).toNat = h.items.length - 1 := by omega
    rw [this]
    exact (List.dropLast_eq_eraseIdx (by omega)).symm
  have hm2 : (h.remove (-1)).maxsize = M := hm
  refine ⟨⟨hm2, ?_, ?_, ?_⟩, ?_⟩
  · rw [hkeys, hitems, ← List.tail_reverse, List.map_tail, ← hpair]
  · rw [hkeys]
    exact List.Pairwise.sublist (List.tail_sublist _) hsort
  · rw [hitems, List.dropLast_eq_take, List.length_take]
    omega
  · rw [hitems, List.dropLast_eq_take, List.length_take]
    omega

theorem update_inv {α κ : Type} [LinearOrder κ] {fitness : α → κ} {M : ℕ}
    (hM : 1 ≤ M) {h : HallOfFame α κ} (hinv : HofInv fitness M h)
    (population : List α) : HofInv fitness M (h.update fitness population) := by
  obtain ⟨hm, hpair, hsort, hlen⟩ := hinv
  unfold HallOfFame.update
  split
  · -- under-full branch: rebuild, sort descending, truncate
    set le := fun a b : α => decide (fitness b ≤ fitness a) with hle
    have hps : List.Pairwise (fun a b => le a b = true)
        ((h.items ++ population).mergeSort le) := by
      refine List.sorted_mergeSort ?_ ?_ _
      · intro a b c hab hbc
        simp only [hle, decide_eq_true_eq] at hab hbc ⊢
        exact le_trans hbc hab
      · intro a b
        simp only [hle, Bool.or_eq_true, decide_eq_true_eq]
        exact le_total _ _
    have hdesc : List.Pairwise (fun a b => fitness b ≤ fitness a)
        (((h.items ++ population).mergeSort le).take h.maxsize) := by
      refine List.Pairwise.take (List.Pairwise.imp ?_ hps)
      intro a b hab
      simpa [hle] using hab
    refine ⟨hm, rfl, ?_, ?_⟩
    · show List.Sorted (· ≤ ·)
        ((((h.items ++ population).mergeSort le).take h.maxsize).reverse.map fitness)
      apply List.pairwise_map.mpr
      apply List.pairwise_reverse.mpr
      exact hdesc
    · show (((h.items ++ population).mergeSort le).take h.maxsize).length ≤ M
      rw [List.length_take]
      omega
  · -- full branch: the length is pinned at M and each better individual
    -- replaces the current worst
    next hfull =>
    have hlenM : h.items.length = M := by omega
    have hP : ∀ st, (HofInv fitness M st ∧ st.items.length = M) →
        ∀ ind, (HofInv fitness M (match st.items.getLast? with
            | none => st
            | some worst =>
              if fitness worst < fitness ind then
                (st.remove (-1)).insert fitness ind
              else st) ∧
          (match st.items.getLast? with
            | none => st
            | some worst =>
              if fitness worst < fitness ind then
                (st.remove (-1)).insert fitness ind
              else st).items.length = M) := by
      intro st hst ind
      obtain ⟨hstinv, hstlen⟩ := hst
      cases hlast : st.items.getLast? with
      | none =>
        exact ⟨hstinv, hstlen⟩
      | some worst =>
        dsimp only
        split
        · have hne : st.items ≠ [] := by
            intro hc
            rw [hc] at hlast
            simp at hlast
          obtain ⟨hrinv, hrlen⟩ := remove_last_inv hstinv hne
          have := insert_inv hrinv ind
          refine ⟨⟨this.1, this.2.1, this.2.2.1, ?_⟩, ?_⟩
          · rw [this.2.2.2, hrlen]; omega
          · rw [this.2.2.2, hrlen]; omega
        · exact ⟨hstinv, hstlen⟩
    have hres : HofInv fitness M (population.foldl
        (fun st ind =>
          match st.items.getLast? with
          | none => st
          | some worst =>
            if fitness worst < fitness ind then
              (st.remove (-1)).insert fitness ind
            else st) h) ∧
        (population.foldl
        (fun st ind =>
          match st.items.getLast? with
          | none => st
          | some worst =>
            if fitness worst < fitness ind then
              (st.remove (-1)).insert fitness ind
            else st) h).items.length = M := by
      refine foldl_preserve (P := fun st =>
        HofInv fitness M st ∧ st.items.length = M) _ population h ?_
        ⟨⟨hm, hpair, hsort, hlen⟩, hlenM⟩
      intro st ind _ hst
      exact hP st hst ind
    exact hres.1

/-- C5: after any sequence of `update` calls on a `HallOfFame` with capacity
`M ≥ 1`, adjacent stored items satisfy `items[i].fitness ≥ items[i+1].fitness`
and the archive holds at most `M` items. -/
theorem hallOfFame_order_invariant {α κ : Type} [LinearOrder κ]
    (fitness : α → κ) (M : ℕ) (hM : 1 ≤ M) (pops : List (List α)) :
    List.Chain' (fun a b => fitness b ≤ fitness a)
      (pops.foldl (HallOfFame.update fitness) (HallOfFame.init α κ M)).items ∧
    (pops.foldl (HallOfFame.update fitness) (HallOfFame.init α κ M)).items.length
      ≤ M := by
  have hinv : HofInv fitness M
      (pops.foldl (HallOfFame.update fitness) (HallOfFame.init α κ M)) := by
    refine foldl_preserve (P := HofInv fitness M) _ pops _ ?_ ?_
    · intro st pop _ hst
      exact update_inv hM hst pop
    · exact ⟨rfl, rfl, List.sorted_nil, by simp [HallOfFame.init]⟩
  obtain ⟨-, hpair, hsort, hlen⟩ := hinv
  refine ⟨?_, hlen⟩
  apply List.Pairwise.chain'
  rw [hpair] at hsort
  have := List.pairwise_reverse.mp (List.pairwise_map.mp hsort)
  exact this

/-- Witness for C5 on the spec scenario: `HallOfFame(2)` fed `[5,3]` then
`[4,6]`. -/
theorem hallOfFame_order_invariant_witness :
    1 ≤ 2 ∧
      (List.Chain' (fun a b : ℚ => id b ≤ id a)
        (([[5,3],[4,6]] : List (List ℚ)).foldl (HallOfFame.update id)
          (HallOfFame.init ℚ ℚ 2)).items ∧
      (([[5,3],[4,6]] : List (List ℚ)).foldl (HallOfFame.update id)
          (HallOfFame.init ℚ ℚ 2)).items.length ≤ 2) :=
  ⟨by decide, hallOfFame_order_invariant id 2 (by decide) [[5,3],[4,6]]⟩

/-! ### The ParetoFront archive (tools.py lines 441-483, claim C4)

`ParetoFront` inherits `insert`/`remove` from `HallOfFame` and overrides
`update`.  The dominance test `ind.fitness.isDominated(...)` is a parameter
`dom` on the fitness keys (the claim quantifies over strict-partial-order
dominance predicates); `dom a b` means "`a` is dominated by `b`". -/

/-- `ParetoFront.__init__`: an unbounded hall of fame (`maxsize = None` in
the source; the field is never consulted by the subclass and is modelled
as 0). -/
def ParetoFront.init (α κ : Type) : HallOfFame α κ := ⟨0, [], []⟩

/-- The scan of `ParetoFront.update` over the enumerated archive for one
candidate: returns `(is_dominated, has_twin, to_remove)`, stopping at the
first archived member that dominates the candidate or that ties in fitness
with a similar genome; archive members dominated by the candidate seen
before such a break are still collected. -/
def paretoScan {α κ : Type} [DecidableEq κ] (dom : κ → κ → Bool)
    (similar : α → α → Bool) (fitness : α → κ) (ind : α) :
    List (α × ℕ) → Bool × Bool × List ℕ
  | [] => (false, false, [])
  | (hofer, i) :: rest =>
    if dom (fitness ind) (fitness hofer) then (true, false, [])
    else if dom (fitness hofer) (fitness ind) then
      let s := paretoScan dom similar fitness ind rest
      (s.1, s.2.1, i :: s.2.2)
    else if decide (fitness ind = fitness hofer) && similar ind hofer then
      (false, true, [])
    else paretoScan dom similar fitness ind rest

/-- The body of `ParetoFront.update` for one candidate individual: scan,
remove the dominated archive members in descending index order, then insert
the candidate unless it was dominated or had a similar twin. -/
def paretoUpdateInd {α κ : Type} [LinearOrder κ] (dom : κ → κ → Bool)
    (similar : α → α → Bool) (fitness : α → κ)
    (front : HallOfFame α κ) (ind : α) : HallOfFame α κ :=
  let s := paretoScan dom similar fitness ind (withIdx front.items)
  let front2 := s.2.2.reverse.foldl (fun f i => f.remove (i : ℤ)) front
  if !s.1 && !s.2.1 then front2.insert fitness ind else front2

/-- `ParetoFront.update(population)`. -/
def ParetoFront.update {α κ : Type} [LinearOrder κ] (dom : κ → κ → Bool)
    (similar : α → α → Bool) (fitness : α → κ)
    (front : HallOfFame α κ) (population : List α) : HallOfFame α κ :=
  population.foldl (paretoUpdateInd dom similar fitness) front

/-- The non-domination invariant of the Pareto-front archive. -/
def MutuallyNonDominating {α κ : Type} (dom : κ → κ → Bool) (fitness : α → κ)
    (l : List α) : Prop :=
  List.Pairwise (fun a b => dom (fitness a) (fitness b) = false ∧
    dom (fitness b) (fitness a) = false) l

theorem withIdx_mem_of {α : Type} {l : List α} {a : α} {i : ℕ}
    (h : l[i]? = some a) : (a, i) ∈ withIdx l := by
  unfold withIdx
  have : ((i, a) : ℕ × α) ∈ l.enum := List.mem_enum_iff_getElem?.mpr h
  exact List.mem_map_of_mem _ this

theorem withIdx_map_snd {α : Type} (l : List α) :
    (withIdx l).map Prod.snd = List.range l.length := by
  unfold withIdx
  rw [List.map_map]
  exact List.enum_map_fst l

/-- The collected `to_remove` indices form a sublist of the scanned indices. -/
theorem paretoScan_to_remove_sublist {α κ : Type} [DecidableEq κ]
    (dom : κ → κ → Bool) (similar : α → α → Bool) (fitness : α → κ) (ind : α) :
    ∀ entries : List (α × ℕ),
      (paretoScan dom similar fitness ind entries).2.2.Sublist
        (entries.map Prod.snd) := by
  intro entries
  induction entries with
  | nil => simp [paretoScan]
  | cons e rest ih =>
    obtain ⟨hofer, i⟩ := e
    simp only [paretoScan, List.map_cons]
    split
    · exact List.nil_sublist _
    · split
      · exact List.Sublist.cons₂ _ ih
      · split
        · exact List.nil_sublist _
        · exact List.Sublist.cons _ ih

/-- Postcondition of a completed scan (no break): the candidate dominates no
scanned member except those collected in `to_remove`, and is dominated by
none. -/
theorem paretoScan_complete {α κ : Type} [DecidableEq κ]
    (dom : κ → κ → Bool) (similar : α → α → Bool) (fitness : α → κ) (ind : α) :
    ∀ entries : List (α × ℕ),
      (paretoScan dom similar fitness ind entries).1 = false →
      (paretoScan dom similar fitness ind entries).2.1 = false →
      ∀ e ∈ entries, dom (fitness ind) (fitness e.1) = false ∧
        (dom (fitness e.1) (fitness ind) = true →
          e.2 ∈ (paretoScan dom similar fitness ind entries).2.2) := by
  intro entries
  induction entries with
  | nil => intro _ _ e he; simp at he
  | cons e0 rest ih =>
    obtain ⟨hofer, i⟩ := e0
    intro h1 h2 e he
    simp only [paretoScan] at h1 h2 ⊢
    by_cases hd1 : dom (fitness ind) (fitness hofer) = true
    · rw [if_pos hd1] at h1
      simp at h1
    · rw [Bool.not_eq_true] at hd1
      rw [if_neg (by simp [hd1])] at h1 h2 ⊢
      by_cases hd2 : dom (fitness hofer) (fitness ind) = true
      · rw [if_pos hd2] at h1 h2 ⊢
        simp only at h1 h2 ⊢
        rcases List.mem_cons.mp he with rfl | he2
        · exact ⟨hd1, fun _ => List.mem_cons_self _ _⟩
        · have := ih h1 h2 e he2
          exact ⟨this.1, fun hdom => List.mem_cons_of_mem _ (this.2 hdom)⟩
      · rw [Bool.not_eq_true] at hd2
        rw [if_neg (by simp [hd2])] at h1 h2 ⊢
        by_cases htw : (decide (fitness ind = fitness hofer) && similar ind hofer) = true
        · rw [if_pos htw] at h2
          simp at h2
        · rw [Bool.not_eq_true] at htw
          rw [if_neg (by simp [htw])] at h1 h2 ⊢
          rcases List.mem_cons.mp he with rfl | he2
          · exact ⟨hd1, fun hdom => absurd hdom (by simp [hd2])⟩
          · exact ih h1 h2 e he2

theorem foldl_eraseIdx_sublist {α : Type} (ds : List ℕ) (l : List α) :
    (ds.foldl (fun l i => l.eraseIdx i) l).Sublist l := by
  induction ds generalizing l with
  | nil => exact List.Sublist.refl _
  | cons d ds ih =>
    exact (ih (l.eraseIdx d)).trans (List.eraseIdx_sublist l d)

/-- After erasing a strictly descending list of positions, every survivor
still occurs at a position that was not erased. -/
theorem foldl_eraseIdx_mem {α : Type} :
    ∀ (ds : List ℕ), List.Pairwise (· > ·) ds → ∀ (l : List α) (y : α),
      y ∈ ds.foldl (fun l i => l.eraseIdx i) l →
      ∃ i, l[i]? = some y ∧ i ∉ ds := by
  intro ds
  induction ds with
  | nil =>
    intro _ l y hy
    obtain ⟨i, hi⟩ := List.mem_iff_getElem?.mp hy
    exact ⟨i, hi, by simp⟩
  | cons d ds ih =>
    intro hpw l y hy
    have hpw2 := List.pairwise_cons.mp hpw
    obtain ⟨i, hi, hni⟩ := ih hpw2.2 (l.eraseIdx d) y hy
    rw [List.getElem?_eraseIdx] at hi
    by_cases hid : i < d
    · rw [if_pos hid] at hi
      refine ⟨i, hi, ?_⟩
      intro hmem
      rcases List.mem_cons.mp hmem with rfl | h
      · omega
      · exact hni h
    · rw [if_neg hid] at hi
      refine ⟨i + 1, hi, ?_⟩
      intro hmem
      rcases List.mem_cons.mp hmem with h | h
      · omega
      · have := hpw2.1 _ h
        omega

theorem remove_items_of_nat {α κ : Type} (f : HallOfFame α κ) (i : ℕ) :
    (f.remove ((i : ℕ) : ℤ)).items = f.items.eraseIdx i := by
  show pyDel f.items (i : ℤ) = _
  unfold pyDel
  dsimp only
  rw [if_neg (by omega : ¬((i : ℕ) : ℤ) < 0)]
  simp

theorem pyInsert_perm {α : Type} (l : List α) (i : ℤ) (x : α) :
    (pyInsert l i x).Perm (x :: l) := by
  unfold pyInsert
  dsimp only
  set j : ℤ := if i < 0 then max ((l.length : ℤ) + i) 0 else min i (l.length : ℤ)
    with hj
  have hjle : j.toNat ≤ l.length := by
    rw [hj]
    split <;> omega
  rw [insertIdx_eq_take_drop x _ l hjle]
  have h1 : (List.take j.toNat l ++ x :: List.drop j.toNat l).Perm
      (x :: (List.take j.toNat l ++ List.drop j.toNat l)) := List.perm_middle
  rw [List.take_append_drop] at h1
  exact h1

theorem insert_items_perm {α κ : Type} [LinearOrder κ] (fitness : α → κ)
    (f : HallOfFame α κ) (x : α) :
    (f.insert fitness x).items.Perm (x :: f.items) :=
  pyInsert_perm f.items _ x

/-- One `ParetoFront.update` candidate step preserves mutual non-domination
of the archive. -/
theorem paretoUpdateInd_inv {α κ : Type} [LinearOrder κ] (dom : κ → κ → Bool)
    (similar : α → α → Bool) (fitness : α → κ) {front : HallOfFame α κ}
    (hinv : MutuallyNonDominating dom fitness front.items) (ind : α) :
    MutuallyNonDominating dom fitness
      (paretoUpdateInd dom similar fitness front ind).items := by
  unfold paretoUpdateInd
  dsimp only
  set s := paretoScan dom similar fitness ind (withIdx front.items) with hs
  set front2 := s.2.2.reverse.foldl (fun f i => f.remove (i : ℤ)) front with hfront2
  have hitems2 : front2.items =
      s.2.2.reverse.foldl (fun l i => l.eraseIdx i) front.items := by
    rw [hfront2]
    have : ∀ (ds : List ℕ) (f : HallOfFame α κ),
        (ds.foldl (fun f i => f.remove (i : ℤ)) f).items =
          ds.foldl (fun l i => l.eraseIdx i) f.items := by
      intro ds
      induction ds with
      | nil => intro f; rfl
      | cons d ds ih =>
        intro f
        rw [List.foldl_cons, List.foldl_cons, ih, remove_items_of_nat]
    exact this s.2.2.reverse front
  have hsub : front2.items.Sublist front.items := by
    rw [hitems2]
    exact foldl_eraseIdx_sublist _ _
  have hinv2 : MutuallyNonDominating dom fitness front2.items :=
    List.Pairwise.sublist hsub hinv
  split
  · next hins =>
    -- the candidate was neither dominated nor twinned: it gets inserted and
    -- everything it dominates was collected for removal
    simp only [Bool.and_eq_true, Bool.not_eq_true'] at hins
    have hcomp := paretoScan_complete dom similar fitness ind
      (withIdx front.items) hins.1 hins.2
    have hsorted : List.Pairwise (· > ·) s.2.2.reverse := by
      apply List.pairwise_reverse.mpr
      have hsub2 := paretoScan_to_remove_sublist dom similar fitness ind
        (withIdx front.items)
      rw [withIdx_map_snd] at hsub2
      exact List.Pairwise.sublist hsub2 (List.pairwise_lt_range _)
    have hsafe : ∀ y ∈ front2.items,
        dom (fitness ind) (fitness y) = false ∧
        dom (fitness y) (fitness ind) = false := by
      intro y hy
      rw [hitems2] at hy
      obtain ⟨i, hi, hni⟩ := foldl_eraseIdx_mem s.2.2.reverse hsorted
        front.items y hy
      have hentry : (y, i) ∈ withIdx front.items := withIdx_mem_of hi
      have := hcomp (y, i) hentry
      refine ⟨this.1, ?_⟩
      by_contra hdom
      rw [Bool.not_eq_false] at hdom
      exact hni (by simpa using this.2 hdom)
    have hperm := insert_items_perm fitness front2 ind
    have hsymm : ∀ {a b : α},
        (dom (fitness a) (fitness b) = false ∧ dom (fitness b) (fitness a) = false) →
        (dom (fitness b) (fitness a) = false ∧ dom (fitness a) (fitness b) = false) :=
      fun h => ⟨h.2, h.1⟩
    refine (List.Perm.pairwise_iff hsymm hperm).mpr ?_
    apply List.pairwise_cons.mpr
    exact ⟨fun y hy => hsafe y hy, hinv2⟩
  · exact hinv2

/-- C4: assuming the dominance predicate is a strict partial order, after any
finite sequence of `ParetoFront.update` calls starting from an empty archive,
no stored individual's fitness dominates another stored individual's
fitness. -/
theorem paretoFront_nondomination {α κ : Type} [LinearOrder κ]
    (dom : κ → κ → Bool) (similar : α → α → Bool) (fitness : α → κ)
    (hirr : ∀ a, dom a a = false)
    (hasym : ∀ a b, dom a b = true → dom b a = false)
    (htrans : ∀ a b c, dom a b = true → dom b c = true → dom a c = true)
    (pops : List (List α)) :
    MutuallyNonDominating dom fitness
      (pops.foldl (ParetoFront.update dom similar fitness)
        (ParetoFront.init α κ)).items := by
  refine foldl_preserve
    (P := fun f : HallOfFame α κ => MutuallyNonDominating dom fitness f.items)
    _ pops _ ?_ List.Pairwise.nil
  intro f pop _ hf
  unfold ParetoFront.update
  refine foldl_preserve
    (P := fun f : HallOfFame α κ => MutuallyNonDominating dom fitness f.items)
    _ pop f ?_ hf
  intro f2 ind _ hf2
  exact paretoUpdateInd_inv dom similar fitness hf2 ind

/-- Witness for C4: single-objective dominance (a strict partial order on the
rational keys) over two update calls. -/
theorem paretoFront_nondomination_witness :
    ((∀ a : ℚ, isDominated [a] [a] = false) ∧
      (∀ a b : ℚ, isDominated [a] [b] = true → isDominated [b] [a] = false) ∧
      (∀ a b c : ℚ, isDominated [a] [b] = true → isDominated [b] [c] = true →
        isDominated [a] [c] = true)) ∧
    MutuallyNonDominating (fun a b : ℚ => isDominated [a] [b]) id
      (([[3, 5], [4]] : List (List ℚ)).foldl
        (ParetoFront.update (fun a b => isDominated [a] [b])
          (fun a b => decide (a = b)) id)
        (ParetoFront.init ℚ ℚ)).items :=
  ⟨⟨fun a => isDominated_irrefl _,
      fun a b h => isDominated_asymm h,
      fun a b c h1 h2 => isDominated_trans (by rfl) (by rfl) h1 h2⟩,
    paretoFront_nondomination (fun a b : ℚ => isDominated [a] [b])
      (fun a b => decide (a = b)) id (fun a => isDominated_irrefl _)
      (fun a b h => isDominated_asymm h)
      (fun a b c h1 h2 => isDominated_trans (by rfl) (by rfl) h1 h2)
      [[3, 5], [4]]⟩

/-! ### The pairwise dominance bookkeeping shared by `sortFastND` and
`selSPEA2` (tools.py lines 989-996 and 1064-1071)

Both run the same double loop over index pairs `i < j` and differ only in the
orientation `A` of the dominance test.  For a pair `(p, q)`: if `A p q` holds
the counter of `q` is incremented and `q` is appended to the list of `p`;
otherwise, if `A q p` holds, symmetrically. -/

def pairStep (A : ℕ → ℕ → Bool) (st : List ℕ × List (List ℕ)) (pq : ℕ × ℕ) :
    List ℕ × List (List ℕ) :=
  if A pq.1 pq.2 then
    (st.1.set pq.2 (st.1.getD pq.2 0 + 1),
      st.2.set pq.1 (st.2.getD pq.1 [] ++ [pq.2]))
  else if A pq.2 pq.1 then
    (st.1.set pq.1 (st.1.getD pq.1 0 + 1),
      st.2.set pq.2 (st.2.getD pq.2 [] ++ [pq.1]))
  else st

/-- The nested `for i in range(N): for j in range(i+1, N)` double loop, from
counters and lists initialised to `0` and `[]`. -/
def pairPhase (A : ℕ → ℕ → Bool) (N : ℕ) : List ℕ × List (List ℕ) :=
  (List.range N).foldl
    (fun st i =>
      (List.range' (i + 1) (N - (i + 1))).foldl
        (fun st j => pairStep A st (i, j)) st)
    (List.replicate N 0, List.replicate N [])

/-- The pairs visited by the double loop, in visit order. -/
def allPairs (N : ℕ) : List (ℕ × ℕ) :=
  (List.range N).flatMap fun i =>
    (List.range' (i + 1) (N - (i + 1))).map fun j => (i, j)

theorem foldl_flatMap {α β γ : Type} (g : α → List γ) (f : β → γ → β) :
    ∀ (l : List α) (b : β),
      (l.flatMap g).foldl f b = l.foldl (fun b a => (g a).foldl f b) b := by
  intro l
  induction l with
  | nil => intro b; rfl
  | cons x t ih =>
    intro b
    rw [List.flatMap_cons, List.foldl_append, List.foldl_cons, ih]

theorem pairPhase_eq_allPairs (A : ℕ → ℕ → Bool) (N : ℕ) :
    pairPhase A N = (allPairs N).foldl (pairStep A)
      (List.replicate N 0, List.replicate N ([] : List ℕ)) := by
  unfold pairPhase allPairs
  rw [foldl_flatMap]
  congr 1
  funext st i
  rw [List.foldl_map]

theorem allPairs_mem {N : ℕ} {pq : ℕ × ℕ} (h : pq ∈ allPairs N) :
    pq.1 < pq.2 ∧ pq.2 < N := by
  unfold allPairs at h
  rw [List.mem_flatMap] at h
  obtain ⟨i, hi, hmem⟩ := h
  rw [List.mem_map] at hmem
  obtain ⟨j, hj, hji⟩ := hmem
  rw [List.mem_range'_1] at hj
  rw [List.mem_range] at hi
  subst hji
  constructor <;> simp <;> omega

theorem getD_set_eq {α : Type} (l : List α) {i : ℕ} (hi : i < l.length)
    (x d : α) : (l.set i x).getD i d = x := by
  rw [List.getD_eq_getElem?_getD, List.getElem?_set_self hi]
  rfl

theorem getD_set_ne2 {α : Type} (l : List α) {i k : ℕ} (h : i ≠ k) (x d : α) :
    (l.set i x).getD k d = l.getD k d := by
  rw [List.getD_eq_getElem?_getD, List.getElem?_set_ne h,
    ← List.getD_eq_getElem?_getD]

theorem getD_replicate {α : Type} (n k : ℕ) (a : α) :
    (List.replicate n a).getD k a = a := by
  rw [List.getD_eq_getElem?_getD, List.getElem?_replicate]
  split <;> rfl

/-- Contribution of the visit of pair `pq` to the counter of `k`. -/
def bumps (A : ℕ → ℕ → Bool) (pq : ℕ × ℕ) (k : ℕ) : Bool :=
  (A pq.1 pq.2 && decide (pq.2 = k)) ||
    (!A pq.1 pq.2 && A pq.2 pq.1 && decide (pq.1 = k))

/-- Contribution of the visit of pair `pq` to the list of `k`. -/
def collect (A : ℕ → ℕ → Bool) (k : ℕ) (pq : ℕ × ℕ) : Option ℕ :=
  if A pq.1 pq.2 then (if pq.1 = k then some pq.2 else none)
  else if A pq.2 pq.1 then (if pq.2 = k then some pq.1 else none)
  else none

theorem pairStep_fst_length (A : ℕ → ℕ → Bool) (st : List ℕ × List (List ℕ))
    (pq : ℕ × ℕ) : (pairStep A st pq).1.length = st.1.length := by
  unfold pairStep
  split
  · simp
  · split
    · simp
    · rfl

theorem pairStep_snd_length (A : ℕ → ℕ → Bool) (st : List ℕ × List (List ℕ))
    (pq : ℕ × ℕ) : (pairStep A st pq).2.length = st.2.length := by
  unfold pairStep
  split
  · simp
  · split
    · simp
    · rfl

theorem pairStep_counts (A : ℕ → ℕ → Bool) (st : List ℕ × List (List ℕ))
    (pq : ℕ × ℕ) (k : ℕ) (h1 : pq.1 < st.1.length) (h2 : pq.2 < st.1.length) :
    (pairStep A st pq).1.getD k 0 =
      st.1.getD k 0 + (if bumps A pq k then 1 else 0) := by
  unfold pairStep bumps
  by_cases hA1 : A pq.1 pq.2 = true
  · rw [if_pos hA1]
    by_cases hk : pq.2 = k
    · subst hk
      rw [getD_set_eq _ h2]
      simp [hA1]
    · rw [getD_set_ne2 _ hk]
      simp [hA1, hk]
  · rw [Bool.not_eq_true] at hA1
    rw [if_neg (by simp [hA1])]
    by_cases hA2 : A pq.2 pq.1 = true
    · rw [if_pos hA2]
      by_cases hk : pq.1 = k
      · subst hk
        rw [getD_set_eq _ h1]
        simp [hA1, hA2]
      · rw [getD_set_ne2 _ hk]
        simp [hA1, hA2, hk]
    · rw [Bool.not_eq_true] at hA2
      rw [if_neg (by simp [hA2])]
      simp [hA1, hA2]

theorem pairStep_lists (A : ℕ → ℕ → Bool) (st : List ℕ × List (List ℕ))
    (pq : ℕ × ℕ) (k : ℕ) (h1 : pq.1 < st.2.length) (h2 : pq.2 < st.2.length) :
    (pairStep A st pq).2.getD k [] =
      st.2.getD k [] ++ (collect A k pq).toList := by
  unfold pairStep collect
  by_cases hA1 : A pq.1 pq.2 = true
  · simp only [hA1, if_true]
    by_cases hk : pq.1 = k
    · subst hk
      rw [getD_set_eq _ h1, if_pos rfl]
      rfl
    · rw [getD_set_ne2 _ hk, if_neg hk]
      simp
  · rw [Bool.not_eq_true] at hA1
    simp only [hA1, Bool.false_eq_true, if_false]
    by_cases hA2 : A pq.2 pq.1 = true
    · simp only [hA2, if_true]
      by_cases hk : pq.2 = k
      · subst hk
        rw [getD_set_eq _ h2, if_pos rfl]
        rfl
      · rw [getD_set_ne2 _ hk, if_neg hk]
        simp
    · rw [Bool.not_eq_true] at hA2
      simp only [hA2, Bool.false_eq_true, if_false]
      simp

theorem foldl_pairStep_counts (A : ℕ → ℕ → Bool) :
    ∀ (ps : List (ℕ × ℕ)) (st : List ℕ × List (List ℕ)) (k : ℕ),
      (∀ pq ∈ ps, pq.1 < st.1.length ∧ pq.2 < st.1.length) →
      (ps.foldl (pairStep A) st).1.getD k 0 =
        st.1.getD k 0 + ps.countP (fun pq => bumps A pq k) := by
  intro ps
  induction ps with
  | nil => intro st k _; simp
  | cons pq ps ih =>
    intro st k hb
    have hb1 := hb pq (List.mem_cons_self _ _)
    have hlen := pairStep_fst_length A st pq
    rw [List.foldl_cons, List.countP_cons,
      ih (pairStep A st pq) k
        (fun r hr => hlen ▸ hb r (List.mem_cons_of_mem _ hr)),
      pairStep_counts A st pq k hb1.1 hb1.2]
    omega

theorem foldl_pairStep_lists (A : ℕ → ℕ → Bool) :
    ∀ (ps : List (ℕ × ℕ)) (st : List ℕ × List (List ℕ)) (k : ℕ),
      (∀ pq ∈ ps, pq.1 < st.2.length ∧ pq.2 < st.2.length) →
      (ps.foldl (pairStep A) st).2.getD k [] =
        st.2.getD k [] ++ ps.filterMap (collect A k) := by
  intro ps
  induction ps with
  | nil => intro st k _; simp
  | cons pq ps ih =>
    intro st k hb
    have hb1 := hb pq (List.mem_cons_self _ _)
    have hlen := pairStep_snd_length A st pq
    rw [List.foldl_cons,
      ih (pairStep A st pq) k
        (fun r hr => hlen ▸ hb r (List.mem_cons_of_mem _ hr)),
      pairStep_lists A st pq k hb1.1 hb1.2, List.append_assoc]
    congr 1
    cases hc : collect A k pq <;> simp [List.filterMap_cons, hc]

theorem countP_singleton_nodup {k : ℕ} (g : ℕ → Bool) :
    ∀ l : List ℕ, l.Nodup →
      l.countP (fun j => g j && decide (j = k)) =
        if k ∈ l ∧ g k = true then 1 else 0 := by
  intro l
  induction l with
  | nil => intro _; simp
  | cons a t ih =>
    intro hnd
    have hnd2 := List.nodup_cons.mp hnd
    rw [List.countP_cons]
    by_cases hak : a = k
    · subst hak
      have hz : t.countP (fun j => g j && decide (j = a)) = 0 := by
        rw [List.countP_eq_zero]
        intro j hj
        simp only [Bool.and_eq_true, decide_eq_true_eq, not_and]
        intro _ hja
        exact hnd2.1 (hja ▸ hj)
      rw [hz]
      by_cases hg : g a = true <;> simp [hg]
    · rw [ih hnd2.2]
      have hb : (g a && decide (a = k)) = false := by simp [hak]
      have hka : ¬k = a := fun h => hak h.symm
      rw [hb]
      simp only [List.mem_cons]
      by_cases hkt : k ∈ t <;> by_cases hg : g k = true <;>
        simp [hkt, hg, hka]

theorem filterMap_singleton_nodup {β : Type} (k : ℕ) (f : ℕ → Option β)
    (hf : ∀ j, f j ≠ none → j = k) :
    ∀ l : List ℕ, l.Nodup →
      l.filterMap f = if k ∈ l then (f k).toList else [] := by
  intro l
  induction l with
  | nil => intro _; simp
  | cons a t ih =>
    intro hnd
    have hnd2 := List.nodup_cons.mp hnd
    by_cases hak : a = k
    · subst hak
      have hz : t.filterMap f = [] := by
        rw [List.filterMap_eq_nil_iff]
        intro j hj
        by_contra hc
        exact hnd2.1 ((hf j hc) ▸ hj)
      cases hc : f a with
      | none => simp [List.filterMap_cons, hc, hz]
      | some b => simp [List.filterMap_cons, hc, hz]
    · have hfa : f a = none := by
        by_contra hc
        exact hak (hf a hc)
      rw [List.filterMap_cons_none hfa, ih hnd2.2]
      have hka : ¬k = a := fun h => hak h.symm
      simp only [List.mem_cons]
      by_cases hkt : k ∈ t <;> simp [hkt, hka]

theorem flatMap_if_singleton (p : ℕ → Bool) :
    ∀ l : List ℕ,
      (l.flatMap fun i => if p i then [i] else []) = l.filter p := by
  intro l
  induction l with
  | nil => rfl
  | cons a t ih =>
    rw [List.flatMap_cons, ih]
    by_cases hp : p a <;> simp [hp, List.filter_cons]

theorem filterMap_if_self (p : ℕ → Bool) :
    ∀ l : List ℕ,
      (l.filterMap fun j => if p j then some j else none) = l.filter p := by
  intro l
  induction l with
  | nil => rfl
  | cons a t ih =>
    by_cases hp : p a <;>
      simp [List.filterMap_cons, List.filter_cons, hp, ih]

theorem sum_map_ite (p : ℕ → Bool) :
    ∀ l : List ℕ,
      (l.map fun i => if p i then 1 else 0).sum = l.countP p := by
  intro l
  induction l with
  | nil => rfl
  | cons a t ih =>
    rw [List.map_cons, List.sum_cons, ih, List.countP_cons]
    by_cases hp : p a <;> simp [hp] <;> omega

theorem range_split {k N : ℕ} (hk : k < N) :
    List.range N = List.range k ++ k :: List.range' (k + 1) (N - (k + 1)) := by
  rw [List.range_eq_range', List.range_eq_range']
  have h1 : List.range' 0 k ++ List.range' (0 + 1 * k) (N - k) 1 =
      List.range' 0 ((N - k) + k) 1 := List.range'_append 0 k (N - k) 1
  simp only [zero_add, one_mul] at h1
  have h2 : (N - k) + k = N := by omega
  rw [h2] at h1
  rw [← h1]
  congr 1
  have h3 : N - k = (N - (k + 1)) + 1 := by omega
  rw [h3, List.range'_succ]

theorem flatMap_congr {α β : Type} {f g : α → List β} :
    ∀ l : List α, (∀ x ∈ l, f x = g x) → l.flatMap f = l.flatMap g := by
  intro l
  induction l with
  | nil => intro _; rfl
  | cons a t ih =>
    intro h
    rw [List.flatMap_cons, List.flatMap_cons, h a (List.mem_cons_self _ _),
      ih fun x hx => h x (List.mem_cons_of_mem _ hx)]

theorem flatMap_nil_of {α β : Type} {f : α → List β} :
    ∀ l : List α, (∀ x ∈ l, f x = []) → l.flatMap f = [] := by
  intro l
  induction l with
  | nil => intro _; rfl
  | cons a t ih =>
    intro h
    rw [List.flatMap_cons, h a (List.mem_cons_self _ _),
      ih fun x hx => h x (List.mem_cons_of_mem _ hx)]
    rfl

/-- Evaluating the bump count over the whole double loop: the counter of `k`
ends at the number of indices `m` with `A m k`, provided `A` is
asymmetric. -/
theorem countP_bumps_allPairs (A : ℕ → ℕ → Bool)
    (hasym : ∀ p q, A p q = true → A q p = false) {N k : ℕ} (hk : k < N) :
    (allPairs N).countP (fun pq => bumps A pq k) =
      (List.range N).countP fun m => A m k := by
  have hirr : ∀ p, A p p = false := by
    intro p
    by_contra hc
    rw [Bool.not_eq_false] at hc
    exact absurd (hasym p p hc) (by simp [hc])
  unfold allPairs
  rw [List.countP_flatMap]
  have hmapeq : (List.range N).map (List.countP (fun pq => bumps A pq k) ∘
        fun i => (List.range' (i + 1) (N - (i + 1))).map fun j => (i, j)) =
      (List.range N).map fun i =>
        (List.range' (i + 1) (N - (i + 1))).countP fun j => bumps A (i, j) k := by
    refine List.map_congr_left ?_
    intro i _
    simp only [Function.comp_apply]
    rw [List.countP_map]
    rfl
  rw [hmapeq]
  have hFne : ∀ i, i ≠ k →
      ((List.range' (i + 1) (N - (i + 1))).countP fun j => bumps A (i, j) k) =
        if i < k ∧ A i k = true then 1 else 0 := by
    intro i hik
    have hc : ∀ j ∈ List.range' (i + 1) (N - (i + 1)),
        (bumps A (i, j) k = true) ↔ ((A i j && decide (j = k)) = true) := by
      intro j _
      unfold bumps
      simp [hik]
    rw [List.countP_congr hc,
      countP_singleton_nodup (fun j => A i j) _ (List.nodup_range' _ _)]
    simp only [List.mem_range'_1]
    by_cases hik2 : i < k
    · by_cases hA : A i k = true <;> simp [hik2, hA] <;> omega
    · have : ¬(i + 1 ≤ k ∧ k < i + 1 + (N - (i + 1))) := by omega
      simp [hik2, this]
  have hFk : ((List.range' (k + 1) (N - (k + 1))).countP
      fun j => bumps A (k, j) k) =
      (List.range' (k + 1) (N - (k + 1))).countP fun j => A j k := by
    refine List.countP_congr ?_
    intro j hj
    rw [List.mem_range'_1] at hj
    unfold bumps
    have hjk : decide (j = k) = false := by simp; omega
    simp only [hjk, Bool.and_false, Bool.false_or, decide_True, Bool.and_true]
    constructor
    · intro h
      exact (Bool.and_eq_true _ _).mp h |>.2
    · intro h
      rw [hasym _ _ h]
      simp [h]
  rw [range_split hk, List.map_append, List.sum_append, List.map_cons,
    List.sum_cons, List.countP_append, List.countP_cons]
  have hleft : ((List.range k).map fun i =>
      (List.range' (i + 1) (N - (i + 1))).countP fun j => bumps A (i, j) k).sum =
      (List.range k).countP fun m => A m k := by
    have : ∀ i ∈ List.range k,
        ((List.range' (i + 1) (N - (i + 1))).countP fun j => bumps A (i, j) k) =
          if A i k = true then 1 else 0 := by
      intro i hi
      rw [List.mem_range] at hi
      rw [hFne i (by omega)]
      simp [hi]
    rw [List.map_congr_left this, sum_map_ite]
  have hright : ((List.range' (k + 1) (N - (k + 1))).map fun i =>
      (List.range' (i + 1) (N - (i + 1))).countP fun j => bumps A (i, j) k).sum
      = 0 := by
    have : ∀ i ∈ List.range' (k + 1) (N - (k + 1)),
        ((List.range' (i + 1) (N - (i + 1))).countP fun j => bumps A (i, j) k) =
          0 := by
      intro i hi
      rw [List.mem_range'_1] at hi
      rw [hFne i (by omega)]
      simp only [ite_eq_right_iff, and_imp]
      omega
    rw [List.map_congr_left this]
    simp
  rw [hleft, hFk, hright, hirr k]
  simp [Nat.add_comm]

/-- Evaluating the collected lists over the whole double loop: the list of
`k` ends as the ascending list of indices `m` with `A k m`, provided `A` is
asymmetric. -/
theorem filterMap_collect_allPairs (A : ℕ → ℕ → Bool)
    (hasym : ∀ p q, A p q = true → A q p = false) {N k : ℕ} (hk : k < N) :
    (allPairs N).filterMap (collect A k) =
      (List.range N).filter fun m => A k m := by
  have hirr : ∀ p, A p p = false := by
    intro p
    by_contra hc
    rw [Bool.not_eq_false] at hc
    exact absurd (hasym p p hc) (by simp [hc])
  unfold allPairs
  have hfm : ∀ (l : List (ℕ × ℕ)) (f : ℕ × ℕ → Option ℕ)
      (g : ℕ → List (ℕ × ℕ)) (L : List ℕ),
      (L.flatMap g).filterMap f = L.flatMap fun i => (g i).filterMap f := by
    intro l f g L
    induction L with
    | nil => rfl
    | cons a t ih => rw [List.flatMap_cons, List.flatMap_cons,
        List.filterMap_append, ih]
  rw [hfm [] (collect A k) _ (List.range N)]
  have hinner : ∀ i,
      (((List.range' (i + 1) (N - (i + 1))).map fun j => (i, j)).filterMap
        (collect A k)) =
      ((List.range' (i + 1) (N - (i + 1))).filterMap fun j =>
        collect A k (i, j)) := by
    intro i
    rw [List.filterMap_map]
    rfl
  have hlow : ∀ i, i < k →
      (((List.range' (i + 1) (N - (i + 1))).map fun j => (i, j)).filterMap
        (collect A k)) = if A k i = true then [i] else [] := by
    intro i hik
    rw [hinner i]
    have hone : ∀ j, (collect A k (i, j)) ≠ none → j = k := by
      intro j hj
      unfold collect at hj
      by_cases h1 : A i j = true
      · rw [if_pos h1, if_neg (by omega : ¬i = k)] at hj
        exact absurd rfl hj
      · rw [Bool.not_eq_true] at h1
        rw [if_neg (by simp [h1])] at hj
        by_cases h2 : A j i = true
        · rw [if_pos h2] at hj
          by_cases hjk : j = k
          · exact hjk
          · rw [if_neg hjk] at hj
            exact absurd rfl hj
        · rw [Bool.not_eq_true] at h2
          rw [if_neg (by simp [h2])] at hj
          exact absurd rfl hj
    rw [filterMap_singleton_nodup k _ hone _ (List.nodup_range' _ _)]
    have hmem : k ∈ List.range' (i + 1) (N - (i + 1)) := by
      rw [List.mem_range'_1]
      omega
    rw [if_pos hmem]
    unfold collect
    have hne : ¬i = k := by omega
    by_cases hA : A k i = true
    · have hA2 : A i k = false := hasym _ _ hA
      simp [hA, hA2, hne]
    · rw [Bool.not_eq_true] at hA
      by_cases h1 : A i k = true
      · simp [hA, h1, hne]
      · rw [Bool.not_eq_true] at h1
        simp [hA, h1]
  have hhigh : ∀ i, k < i →
      (((List.range' (i + 1) (N - (i + 1))).map fun j => (i, j)).filterMap
        (collect A k)) = [] := by
    intro i hik
    rw [hinner i]
    have hone : ∀ j, (collect A k (i, j)) ≠ none → j = k := by
      intro j hj
      unfold collect at hj
      by_cases h1 : A i j = true
      · rw [if_pos h1, if_neg (by omega : ¬i = k)] at hj
        exact absurd rfl hj
      · rw [Bool.not_eq_true] at h1
        rw [if_neg (by simp [h1])] at hj
        by_cases h2 : A j i = true
        · rw [if_pos h2] at hj
          by_cases hjk : j = k
          · exact hjk
          · rw [if_neg hjk] at hj
            exact absurd rfl hj
        · rw [Bool.not_eq_true] at h2
          rw [if_neg (by simp [h2])] at hj
          exact absurd rfl hj
    rw [filterMap_singleton_nodup k _ hone _ (List.nodup_range' _ _)]
    have hmem : k ∉ List.range' (i + 1) (N - (i + 1)) := by
      rw [List.mem_range'_1]
      omega
    rw [if_neg hmem]
  have hmid : (((List.range' (k + 1) (N - (k + 1))).map fun j =>
      (k, j)).filterMap (collect A k)) =
      (List.range' (k + 1) (N - (k + 1))).filter fun m => A k m := by
    rw [hinner k]
    have : ∀ j ∈ List.range' (k + 1) (N - (k + 1)),
        collect A k (k, j) = if A k j then some j else none := by
      intro j hj
      rw [List.mem_range'_1] at hj
      unfold collect
      have hjk : ¬j = k := by omega
      by_cases h1 : A k j = true
      · simp [h1]
      · rw [Bool.not_eq_true] at h1
        by_cases h2 : A j k = true
        · simp [h1, h2, hjk]
        · rw [Bool.not_eq_true] at h2
          simp [h1, h2]
    rw [List.filterMap_congr this, filterMap_if_self]
  rw [range_split hk, List.flatMap_append, List.flatMap_cons,
    List.filter_append, List.filter_cons]
  rw [flatMap_congr (List.range k) fun i hi =>
    hlow i (List.mem_range.mp hi)]
  rw [flatMap_if_singleton]
  rw [flatMap_nil_of (List.range' (k + 1) (N - (k + 1))) fun i hi =>
    hhigh i (by rw [List.mem_range'_1] at hi; omega)]
  rw [hmid, hirr k]
  simp

/-- Final characterisation of the double loop's counters. -/
theorem pairPhase_counts (A : ℕ → ℕ → Bool)
    (hasym : ∀ p q, A p q = true → A q p = false) {N k : ℕ} (hk : k < N) :
    (pairPhase A N).1.getD k 0 = (List.range N).countP fun m => A m k := by
  rw [pairPhase_eq_allPairs]
  rw [foldl_pairStep_counts A (allPairs N) _ k
    (fun pq hpq => by
      have := allPairs_mem hpq
      simp only [List.length_replicate]
      omega)]
  rw [getD_replicate, countP_bumps_allPairs A hasym hk]
  simp

/-- Final characterisation of the double loop's per-index lists. -/
theorem pairPhase_lists (A : ℕ → ℕ → Bool)
    (hasym : ∀ p q, A p q = true → A q p = false) {N k : ℕ} (hk : k < N) :
    (pairPhase A N).2.getD k [] = (List.range N).filter fun m => A k m := by
  rw [pairPhase_eq_allPairs]
  rw [foldl_pairStep_lists A (allPairs N) _ k
    (fun pq hpq => by
      have := allPairs_mem hpq
      simp only [List.length_replicate]
      omega)]
  rw [getD_replicate, filterMap_collect_allPairs A hasym hk]
  simp

/-! ### SPEA-II strength and raw fitness (tools.py lines 1057-1078, claim C1) -/

/-- The strength/dominator bookkeeping of `selSPEA2`: for the pair `(i, j)`,
`individuals[i].fitness.isDominated(individuals[j].fitness)` bumps
`strength_fits[j]` and appends `j` to `dominating_inds[i]`. -/
def spea2Strength (vals : List Fitvals) : List ℕ × List (List ℕ) :=
  pairPhase (fun p q => isDominated (vals.getD p []) (vals.getD q []))
    vals.length

/-- The raw fitness accumulation of `selSPEA2`:
`fits[i] += strength_fits[j]` for every `j` in `dominating_inds[i]`. -/
def spea2Fits (vals : List Fitvals) : List ℕ :=
  (List.range vals.length).map fun i =>
    (((spea2Strength vals).2.getD i []).map fun j =>
      (spea2Strength vals).1.getD j 0).sum

/-- `chosen_indices = [i for i in xrange(N) if fits[i] < 1]`. -/
def spea2ChosenIndices (vals : List Fitvals) : List ℕ :=
  (List.range vals.length).filter fun i => (spea2Fits vals).getD i 0 < 1

theorem spea2_asym (vals : List Fitvals) : ∀ p q,
    isDominated (vals.getD p []) (vals.getD q []) = true →
    isDominated (vals.getD q []) (vals.getD p []) = false :=
  fun _ _ h => isDominated_asymm h

theorem spea2Strength_counts {vals : List Fitvals} {j : ℕ}
    (hj : j < vals.length) :
    (spea2Strength vals).1.getD j 0 =
      (List.range vals.length).countP fun i =>
        isDominated (vals.getD i []) (vals.getD j []) :=
  pairPhase_counts _ (spea2_asym vals) hj

theorem spea2Strength_lists {vals : List Fitvals} {i : ℕ}
    (hi : i < vals.length) :
    (spea2Strength vals).2.getD i [] =
      (List.range vals.length).filter fun k =>
        isDominated (vals.getD i []) (vals.getD k []) :=
  pairPhase_lists _ (spea2_asym vals) hi

theorem getD_map_range {β : Type} (f : ℕ → β) (N i : ℕ) (hi : i < N) (d : β) :
    ((List.range N).map f).getD i d = f i := by
  rw [List.getD_eq_getElem?_getD, List.getElem?_map, List.getElem?_range hi]
  rfl

theorem spea2Fits_zero_iff {vals : List Fitvals} {i : ℕ} (hi : i < vals.length) :
    ((spea2Fits vals).getD i 0 < 1 ↔
      ∀ k, k < vals.length →
        isDominated (vals.getD i []) (vals.getD k []) = false) := by
  unfold spea2Fits
  rw [getD_map_range _ _ _ hi, spea2Strength_lists hi]
  constructor
  · intro h k hk
    by_contra hc
    rw [Bool.not_eq_false] at hc
    have hkmem : k ∈ (List.range vals.length).filter fun m =>
        isDominated (vals.getD i []) (vals.getD m []) := by
      rw [List.mem_filter]
      exact ⟨List.mem_range.mpr hk, hc⟩
    -- the dominator k has strength at least 1: it dominates i
    have hstr : 1 ≤ (spea2Strength vals).1.getD k 0 := by
      rw [spea2Strength_counts hk]
      have : i ∈ (List.range vals.length).filter fun m =>
          isDominated (vals.getD m []) (vals.getD k []) := by
        rw [List.mem_filter]
        exact ⟨List.mem_range.mpr hi, hc⟩
      rw [List.countP_eq_length_filter]
      exact List.length_pos.mpr (List.ne_nil_of_mem this)
    have hle : (spea2Strength vals).1.getD k 0 ≤
        (((List.range vals.length).filter fun m =>
          isDominated (vals.getD i []) (vals.getD m [])).map fun j =>
            (spea2Strength vals).1.getD j 0).sum :=
      List.single_le_sum (fun _ _ => Nat.zero_le _) _
        (List.mem_map_of_mem _ hkmem)
    omega
  · intro h
    have : ((List.range vals.length).filter fun k =>
        isDominated (vals.getD i []) (vals.getD k [])) = [] := by
      rw [List.filter_eq_nil_iff]
      intro k hk
      rw [h k (List.mem_range.mp hk)]
      simp
    rw [this]
    simp

/-- C1 (amended): in `selSPEA2`, `strength_fits[j]` is the number of
individuals that `j` dominates (not the number that dominate `j`), the raw
fitness `fits[i]` is the sum of `strength_fits[k]` over the `k` that dominate
`i` (not that `i` dominates), `fits[i] < 1` holds exactly for the
non-dominated individuals, and those form the initially chosen candidate
set. -/
theorem selSPEA2_strength_raw_fitness (vals : List Fitvals) (L : ℕ)
    (harity : ∀ v ∈ vals, v.length = L) :
    (∀ j, j < vals.length →
      (spea2Strength vals).1.getD j 0 =
        (List.range vals.length).countP fun i =>
          isDominated (vals.getD i []) (vals.getD j [])) ∧
    (∀ i, i < vals.length →
      (spea2Fits vals).getD i 0 =
        (((List.range vals.length).filter fun k =>
          isDominated (vals.getD i []) (vals.getD k [])).map fun k =>
            (spea2Strength vals).1.getD k 0).sum) ∧
    (∀ i, i < vals.length →
      ((spea2Fits vals).getD i 0 < 1 ↔
        ∀ k, k < vals.length →
          isDominated (vals.getD i []) (vals.getD k []) = false)) ∧
    spea2ChosenIndices vals =
      (List.range vals.length).filter fun i =>
        decide (∀ k, k < vals.length →
          isDominated (vals.getD i []) (vals.getD k []) = false) := by
  refine ⟨fun j hj => spea2Strength_counts hj, ?_, fun i hi => spea2Fits_zero_iff hi, ?_⟩
  · intro i hi
    unfold spea2Fits
    rw [getD_map_range _ _ _ hi, spea2Strength_lists hi]
  · unfold spea2ChosenIndices
    refine List.filter_congr ?_
    intro i hi
    rw [List.mem_range] at hi
    rw [decide_eq_decide]
    exact spea2Fits_zero_iff hi

/-- Witness for the amended C1 on a two-individual population where the first
dominates the second. -/
theorem selSPEA2_strength_raw_fitness_witness :
    (∀ v ∈ ([[1], [0]] : List Fitvals), v.length = 1) ∧
    ((∀ j, j < ([[1], [0]] : List Fitvals).length →
      (spea2Strength [[1], [0]]).1.getD j 0 =
        (List.range ([[1], [0]] : List Fitvals).length).countP fun i =>
          isDominated (([[1], [0]] : List Fitvals).getD i [])
            (([[1], [0]] : List Fitvals).getD j [])) ∧
    (∀ i, i < ([[1], [0]] : List Fitvals).length →
      (spea2Fits [[1], [0]]).getD i 0 =
        (((List.range ([[1], [0]] : List Fitvals).length).filter fun k =>
          isDominated (([[1], [0]] : List Fitvals).getD i [])
            (([[1], [0]] : List Fitvals).getD k [])).map fun k =>
            (spea2Strength [[1], [0]]).1.getD k 0).sum) ∧
    (∀ i, i < ([[1], [0]] : List Fitvals).length →
      ((spea2Fits [[1], [0]]).getD i 0 < 1 ↔
        ∀ k, k < ([[1], [0]] : List Fitvals).length →
          isDominated (([[1], [0]] : List Fitvals).getD i [])
            (([[1], [0]] : List Fitvals).getD k []) = false)) ∧
    spea2ChosenIndices [[1], [0]] =
      (List.range ([[1], [0]] : List Fitvals).length).filter fun i =>
        decide (∀ k, k < ([[1], [0]] : List Fitvals).length →
          isDominated (([[1], [0]] : List Fitvals).getD i [])
            (([[1], [0]] : List Fitvals).getD k []) = false)) :=
  ⟨by decide, selSPEA2_strength_raw_fitness [[1], [0]] 1 (by decide)⟩

/-- C1 as stated is false: on the population `[[1], [0]]` (one objective,
individual 0 dominates individual 1), `strength_fits[0] = 1` although no
individual dominates individual 0. -/
theorem selSPEA2_strength_claim_counterexample :
    ¬ ((spea2Strength [[1], [0]]).1.getD 0 0 =
        (List.range ([[1], [0]] : List Fitvals).length).countP fun i =>
          isDominated (([[1], [0]] : List Fitvals).getD 0 [])
            (([[1], [0]] : List Fitvals).getD i [])) := by
  decide

/-! ### Fast non-dominated sort (`sortFastND`, tools.py lines 973-1014) -/

/-- `domB vals p q`: individual `p` dominates individual `q`
(the test `individuals[q].fitness.isDominated(individuals[p].fitness)`). -/
def domB (vals : List Fitvals) (p q : ℕ) : Bool :=
  isDominated (vals.getD q []) (vals.getD p [])

/-- Phase 1 of `sortFastND`: `dominating_inds` counters (number of
dominators) and `dominated_inds` lists (who each individual dominates). -/
def sfndPhase1 (vals : List Fitvals) : List ℕ × List (List ℕ) :=
  pairPhase (fun p q => domB vals p q) vals.length

/-- One counter decrement of the front-expansion loop (the body of
`for indice_d in dominated_inds[indice_p]`); the state is
`(dominating_inds, new front, pareto_sorted)`. -/
def decStep (st : List ℤ × List ℕ × ℕ) (d : ℕ) : List ℤ × List ℕ × ℕ :=
  let counts := st.1.set d (st.1.getD d 0 - 1)
  if counts.getD d 0 == 0 then (counts, st.2.1 ++ [d], st.2.2 + 1)
  else (counts, st.2.1, st.2.2)

/-- Processing one member of the newest front. -/
def sfndExpand (domLists : List (List ℕ)) (st : List ℤ × List ℕ × ℕ)
    (p : ℕ) : List ℤ × List ℕ × ℕ :=
  (domLists.getD p []).foldl decStep st

/-- The `while pareto_sorted < N` front-expansion loop.  `fuel` bounds the
number of iterations: the source's loop would run forever if an iteration
made no progress, which under the theorems' hypotheses never happens within
`N` iterations, so the initial fuel `N` reproduces the source exactly on the
claims' domain. -/
def sfndLoop (domLists : List (List ℕ)) :
    ℕ → List ℤ → List (List ℕ) → ℕ → ℕ → List (List ℕ)
  | 0, _, fronts, _, _ => fronts
  | fuel + 1, counts, fronts, sorted, target =>
    if sorted < target then
      let st := (fronts.getLastD []).foldl (sfndExpand domLists)
        (counts, [], sorted)
      sfndLoop domLists fuel st.1 (fronts ++ [st.2.1]) st.2.2 target
    else fronts

/-- `sortFastND(individuals, n, first_front_only)`.  Phase 1 is the shared
`pairPhase` double loop; the source appends `i` to the first front at the end
of outer iteration `i`, at which point `dominating_inds[i]` already has its
final value, so the first front is the ascending list of indices whose final
counter is zero. -/
def sortFastND {α : Type} (fit : α → List ℚ) (individuals : List α) (n : ℕ)
    (firstFrontOnly : Bool := false) : List (List α) :=
  if n = 0 then []
  else
    match individuals with
    | [] => [[]]
    | i0 :: _ =>
      let vals := individuals.map fit
      let N := individuals.length
      let phase1 := sfndPhase1 vals
      let front0 := (List.range N).filter fun i => phase1.1.getD i 0 == 0
      let fronts :=
        if firstFrontOnly then [front0]
        else
          sfndLoop phase1.2 N (phase1.1.map Int.ofNat) [front0]
            front0.length (min N n)
      fronts.map fun fr => fr.map fun idx => individuals.getD idx i0

/-! #### Layer heights of the dominance relation -/

/-- `p` dominates `q` and the two arities match; used only to define the
layer height, and equal to `domB` under the equal-arity hypothesis of the
theorems. -/
def domE (vals : List Fitvals) (p q : ℕ) : Bool :=
  domB vals p q && ((vals.getD p []).length == (vals.getD q []).length)

theorem countP_lt_of_witness {p q : ℕ → Bool} :
    ∀ l : List ℕ, (∀ x ∈ l, p x = true → q x = true) →
      ∀ a, a ∈ l → p a = false → q a = true → l.countP p < l.countP q := by
  intro l
  induction l with
  | nil => intro _ a ha; simp at ha
  | cons x t ih =>
    intro hsub a ha hpa hqa
    rw [List.countP_cons, List.countP_cons]
    rcases List.mem_cons.mp ha with rfl | hat
    · have hmono := List.countP_mono_left
        (fun y hy => hsub y (List.mem_cons_of_mem _ hy)) (p := p) (q := q)
      rw [hpa, hqa]
      simp
      omega
    · have := ih (fun y hy => hsub y (List.mem_cons_of_mem _ hy)) a hat hpa hqa
      have hx : (if p x then 1 else 0) ≤ (if q x then 1 else 0) := by
        by_cases hpx : p x = true
        · rw [hsub x (List.mem_cons_self _ _) hpx]
          simp [hpx]
        · simp [hpx]
      omega

theorem isDominated_ne_nil {a b : Fitvals} (h : isDominated a b = true) :
    a ≠ [] ∧ b ≠ [] := by
  unfold isDominated at h
  rw [Bool.and_eq_true, List.any_eq_true] at h
  obtain ⟨-, p, hp, -⟩ := h
  have hm : p.1 ∈ a ∧ p.2 ∈ b := List.mem_zip hp
  exact ⟨List.ne_nil_of_mem hm.1, List.ne_nil_of_mem hm.2⟩

theorem domB_oob {vals : List Fitvals} {p q : ℕ}
    (h : domB vals p q = true) : p < vals.length ∧ q < vals.length := by
  unfold domB at h
  obtain ⟨hq, hp⟩ := isDominated_ne_nil h
  constructor
  · by_contra hc
    rw [List.getD_eq_getElem?_getD, List.getElem?_eq_none (by omega)] at hp
    exact hp rfl
  · by_contra hc
    rw [List.getD_eq_getElem?_getD, List.getElem?_eq_none (by omega)] at hq
    exact hq rfl

theorem domE_asymm (vals : List Fitvals) : ∀ p q,
    domE vals p q = true → domE vals q p = false := by
  intro p q h
  unfold domE domB at h ⊢
  rw [Bool.and_eq_true] at h
  rw [isDominated_asymm h.1]
  rfl

theorem domE_irrefl (vals : List Fitvals) (p : ℕ) : domE vals p p = false := by
  unfold domE domB
  rw [isDominated_irrefl]
  rfl

theorem domE_trans (vals : List Fitvals) {p q r : ℕ}
    (h1 : domE vals p q = true) (h2 : domE vals q r = true) :
    domE vals p r = true := by
  unfold domE domB at h1 h2 ⊢
  rw [Bool.and_eq_true, beq_iff_eq] at h1 h2 ⊢
  exact ⟨isDominated_trans (by rw [h2.2]) (by rw [h1.2]) h2.1 h1.1,
    h1.2.trans h2.2⟩

theorem domE_eq_domB {vals : List Fitvals} {L : ℕ}
    (harity : ∀ v ∈ vals, v.length = L) : domE vals = domB vals := by
  funext p q
  unfold domE
  by_cases hdom : domB vals p q = true
  · obtain ⟨hp, hq⟩ := domB_oob hdom
    have h1 : vals.getD p [] ∈ vals := by
      rw [getD_of_lt vals [] hp]
      exact List.getElem_mem _
    have h2 : vals.getD q [] ∈ vals := by
      rw [getD_of_lt vals [] hq]
      exact List.getElem_mem _
    rw [hdom, harity _ h1, harity _ h2]
    simp
  · rw [Bool.not_eq_true] at hdom
    rw [hdom]
    rfl

/-- The layer height of an individual: 0 if nothing dominates it, otherwise
one more than the greatest height among its dominators.  Terminates because a
dominator's dominator set is strictly smaller (transitivity plus
irreflexivity). -/
def height (vals : List Fitvals) (i : ℕ) : ℕ :=
  ((((List.range vals.length).filter fun j =>
      domE vals j i).attach).map fun j => height vals j.1 + 1).foldr max 0
termination_by (List.range vals.length).countP fun j => domE vals j i
decreasing_by
  have hmem := j.2
  rw [List.mem_filter] at hmem
  refine countP_lt_of_witness (List.range vals.length) ?_ j.1 hmem.1
    (domE_irrefl vals j.1) hmem.2
  intro x _ hx
  exact domE_trans vals hx hmem.2

theorem height_def (vals : List Fitvals) (i : ℕ) :
    height vals i =
      ((((List.range vals.length).filter fun j =>
        domE vals j i).attach).map fun j => height vals j.1 + 1).foldr max 0 := by
  rw [height]

theorem le_foldr_max {l : List ℕ} {x : ℕ} (hx : x ∈ l) : x ≤ l.foldr max 0 := by
  induction l with
  | nil => simp at hx
  | cons a t ih =>
    rw [List.foldr_cons]
    rcases List.mem_cons.mp hx with rfl | h
    · exact le_max_left _ _
    · exact le_trans (ih h) (le_max_right _ _)

theorem foldr_max_le {l : List ℕ} {c : ℕ} (h : ∀ x ∈ l, x ≤ c) :
    l.foldr max 0 ≤ c := by
  induction l with
  | nil => simpa using Nat.zero_le c
  | cons a t ih =>
    rw [List.foldr_cons]
    exact max_le (h a (List.mem_cons_self _ _))
      (ih fun x hx => h x (List.mem_cons_of_mem _ hx))

theorem height_lt_of_domE {vals : List Fitvals} {j i : ℕ}
    (h : domE vals j i = true) : height vals j < height vals i := by
  have hj : j < vals.length := by
    unfold domE at h
    rw [Bool.and_eq_true] at h
    exact (domB_oob h.1).1
  have hmem : j ∈ (List.range vals.length).filter fun j => domE vals j i := by
    rw [List.mem_filter]
    exact ⟨List.mem_range.mpr hj, h⟩
  have hm2 : height vals j + 1 ∈
      ((((List.range vals.length).filter fun j =>
        domE vals j i).attach).map fun j => height vals j.1 + 1) :=
    List.mem_map_of_mem _ (List.mem_attach _ ⟨j, hmem⟩)
  have := le_foldr_max hm2
  rw [← height_def] at this
  omega

theorem height_zero_of_no_dom {vals : List Fitvals} {i : ℕ}
    (h : ∀ j, domE vals j i = false) : height vals i = 0 := by
  rw [height_def]
  have he : (List.range vals.length).filter (fun j => domE vals j i) = [] := by
    rw [List.filter_eq_nil_iff]
    intro j _
    rw [h j]
    simp
  rw [he]
  rfl

theorem height_le_succ_of {vals : List Fitvals} {i t : ℕ}
    (h : ∀ j, domE vals j i = true → height vals j ≤ t) :
    height vals i ≤ t + 1 := by
  rw [height_def]
  refine foldr_max_le ?_
  intro x hx
  obtain ⟨j, hjmem, hjx⟩ := List.mem_map.mp hx
  have hdom : domE vals j.1 i = true := by
    have := j.2
    rw [List.mem_filter] at this
    exact this.2
  have := h j.1 hdom
  omega

theorem height_exists_of_pos {vals : List Fitvals} {i t : ℕ}
    (h : height vals i = t + 1) :
    ∃ j, domE vals j i = true ∧ height vals j = t := by
  by_contra hc
  push_neg at hc
  have hdom_ex : ∃ j, domE vals j i = true := by
    by_contra hne
    push_neg at hne
    have hall : ∀ j, domE vals j i = false := by
      intro j
      have := hne j
      simp only [ne_eq, Bool.not_eq_true] at this
      exact this
    rw [height_zero_of_no_dom hall] at h
    omega
  obtain ⟨j0, hj0⟩ := hdom_ex
  have hlt0 := height_lt_of_domE hj0
  rcases Nat.eq_zero_or_pos t with rfl | ht
  · exact hc j0 hj0 (by omega)
  · have hle : ∀ j, domE vals j i = true → height vals j ≤ t - 1 := by
      intro j hj
      have h1 := height_lt_of_domE hj
      have h2 := hc j hj
      omega
    have := height_le_succ_of hle
    omega

theorem height_zero_iff {vals : List Fitvals} {i : ℕ} :
    height vals i = 0 ↔ ∀ j, domE vals j i = false := by
  constructor
  · intro h j
    by_contra hc
    rw [Bool.not_eq_false] at hc
    have := height_lt_of_domE hc
    omega
  · exact height_zero_of_no_dom

theorem height_eq_succ_iff {vals : List Fitvals} {i t : ℕ} :
    height vals i = t + 1 ↔
      (∃ j, domE vals j i = true ∧ height vals j = t) ∧
      (∀ j, domE vals j i = true → height vals j ≤ t) := by
  constructor
  · intro h
    refine ⟨height_exists_of_pos h, ?_⟩
    intro j hj
    have := height_lt_of_domE hj
    omega
  · rintro ⟨⟨j0, hj0, hj0h⟩, hall⟩
    have h1 : height vals i ≤ t + 1 := height_le_succ_of hall
    have h2 := height_lt_of_domE hj0
    omega

/-- The members of layer `t`: indices whose height is exactly `t` (ascending). -/
def layer (vals : List Fitvals) (t : ℕ) : List ℕ :=
  (List.range vals.length).filter fun i => height vals i == t

/-! #### The decrement fold of one front-expansion iteration -/

theorem decFold_spec :
    ∀ (ds : List ℕ) (c : List ℤ) (nf : List ℕ) (s : ℕ),
      (∀ d ∈ ds, d < c.length) →
      (∀ d, (ds.count d : ℤ) ≤ c.getD d 0) →
      (ds.foldl decStep (c, nf, s)).1.length = c.length ∧
      (∀ k, (ds.foldl decStep (c, nf, s)).1.getD k 0 =
          c.getD k 0 - (ds.count k : ℤ)) ∧
      ∃ newl : List ℕ,
        (ds.foldl decStep (c, nf, s)).2.1 = nf ++ newl ∧
        newl.Nodup ∧
        (∀ d, d ∈ newl ↔ 0 < ds.count d ∧ c.getD d 0 = (ds.count d : ℤ)) ∧
        (ds.foldl decStep (c, nf, s)).2.2 = s + newl.length := by
  intro ds
  induction ds with
  | nil =>
    intro c nf s _ _
    exact ⟨rfl, fun k => by simp, [], by simp, List.nodup_nil,
      fun d => by simp, by simp⟩
  | cons d0 ds ih =>
    intro c nf s hbound hcount
    have hd0 : d0 < c.length := hbound d0 (List.mem_cons_self _ _)
    rw [List.foldl_cons]
    set c1 : List ℤ := c.set d0 (c.getD d0 0 - 1) with hc1
    have hc1len : c1.length = c.length := by rw [hc1, List.length_set]
    have hc1get : ∀ k, c1.getD k 0 =
        c.getD k 0 - (if k = d0 then 1 else 0) := by
      intro k
      rcases eq_or_ne k d0 with rfl | hk
      · rw [hc1, getD_set_eq _ hd0]
        simp
      · rw [hc1, getD_set_ne2 _ (Ne.symm hk)]
        simp [hk]
    have hcount1 : ∀ d, (ds.count d : ℤ) ≤ c1.getD d 0 := by
      intro d
      rw [hc1get d]
      have := hcount d
      rcases eq_or_ne d d0 with rfl | hd
      · rw [List.count_cons_self] at this
        simp only [if_pos rfl]
        push_cast at this ⊢
        omega
      · rw [List.count_cons_of_ne hd] at this
        simp only [if_neg hd]
        omega
    have hbound1 : ∀ d ∈ ds, d < c1.length := by
      rw [hc1len]
      exact fun d hd => hbound d (List.mem_cons_of_mem _ hd)
    by_cases hz : c1.getD d0 0 = 0
    · have hstep : decStep (c, nf, s) d0 = (c1, nf ++ [d0], s + 1) := by
        unfold decStep
        dsimp only
        rw [← hc1, if_pos (beq_iff_eq.mpr hz)]
      rw [hstep]
      obtain ⟨ihlen, ihget, newl, ihnf, ihnd, ihiff, ihs⟩ :=
        ih c1 (nf ++ [d0]) (s + 1) hbound1 hcount1
      have hd0notin : d0 ∉ newl := by
        intro hmem
        have := (ihiff d0).mp hmem
        omega
      refine ⟨by omega, ?_, d0 :: newl, ?_, ?_, ?_, ?_⟩
      · intro k
        rw [ihget k, hc1get k]
        rcases eq_or_ne k d0 with rfl | hk
        · rw [List.count_cons_self]
          simp only [if_pos rfl]
          push_cast
          omega
        · rw [List.count_cons_of_ne hk]
          simp only [if_neg hk]
          omega
      · rw [ihnf, List.append_assoc]
        rfl
      · exact List.nodup_cons.mpr ⟨hd0notin, ihnd⟩
      · intro d
        rcases eq_or_ne d d0 with rfl | hd
        · simp only [List.mem_cons, true_or, true_iff]
          have hcd0 := hcount d
          rw [List.count_cons_self] at hcd0 ⊢
          have hc1d0 := hc1get d
          rw [if_pos rfl] at hc1d0
          constructor
          · omega
          · push_cast at hcd0 ⊢
            omega
        · rw [List.mem_cons]
          have : ¬d = d0 := hd
          simp only [this, false_or]
          rw [ihiff d, hc1get d, List.count_cons_of_ne hd]
          simp [hd]
      · rw [ihs]
        simp
        omega
    · have hstep : decStep (c, nf, s) d0 = (c1, nf, s) := by
        unfold decStep
        dsimp only
        rw [← hc1, if_neg (by simpa using hz)]
      rw [hstep]
      obtain ⟨ihlen, ihget, newl, ihnf, ihnd, ihiff, ihs⟩ :=
        ih c1 nf s hbound1 hcount1
      refine ⟨by omega, ?_, newl, ihnf, ihnd, ?_, ihs⟩
      · intro k
        rw [ihget k, hc1get k]
        rcases eq_or_ne k d0 with rfl | hk
        · rw [List.count_cons_self]
          simp only [if_pos rfl]
          push_cast
          omega
        · rw [List.count_cons_of_ne hk]
          simp only [if_neg hk]
          omega
      · intro d
        rw [ihiff d]
        rcases eq_or_ne d d0 with rfl | hd
        · have hc1d0 := hc1get d
          rw [if_pos rfl] at hc1d0
          rw [List.count_cons_self]
          constructor
          · rintro ⟨h1, h2⟩
            refine ⟨by omega, ?_⟩
            push_cast at h2 ⊢
            omega
          · rintro ⟨h1, h2⟩
            push_cast at h2
            constructor
            · by_contra hcz
              push_neg at hcz
              interval_cases hds : ds.count d
              all_goals omega
            · push_cast
              omega
        · rw [List.count_cons_of_ne hd, hc1get d]
          simp [hd]

theorem count_flatMap {α : Type} (g : α → List ℕ) (k : ℕ) :
    ∀ l : List α,
      (l.flatMap g).count k = (l.map fun p => (g p).count k).sum := by
  intro l
  induction l with
  | nil => rfl
  | cons a t ih =>
    rw [List.flatMap_cons, List.count_append, List.map_cons, List.sum_cons, ih]

theorem domB_asymm (vals : List Fitvals) : ∀ p q,
    domB vals p q = true → domB vals q p = false := by
  intro p q h
  unfold domB at h ⊢
  exact isDominated_asymm h

theorem pairPhase_fst_length (A : ℕ → ℕ → Bool) (N : ℕ) :
    (pairPhase A N).1.length = N := by
  rw [pairPhase_eq_allPairs]
  have hfold : ∀ (ps : List (ℕ × ℕ)) (st : List ℕ × List (List ℕ)),
      (ps.foldl (pairStep A) st).1.length = st.1.length := by
    intro ps
    induction ps with
    | nil => intro st; rfl
    | cons pq ps ih =>
      intro st
      rw [List.foldl_cons, ih, pairStep_fst_length]
  rw [hfold]
  simp

theorem pairPhase_snd_length (A : ℕ → ℕ → Bool) (N : ℕ) :
    (pairPhase A N).2.length = N := by
  rw [pairPhase_eq_allPairs]
  have hfold : ∀ (ps : List (ℕ × ℕ)) (st : List ℕ × List (List ℕ)),
      (ps.foldl (pairStep A) st).2.length = st.2.length := by
    intro ps
    induction ps with
    | nil => intro st; rfl
    | cons pq ps ih =>
      intro st
      rw [List.foldl_cons, ih, pairStep_snd_length]
  rw [hfold]
  simp

/-- The `dominated_inds` list of `p`: the ascending indices `p` dominates. -/
theorem sfndPhase1_lists {vals : List Fitvals} {p : ℕ} (hp : p < vals.length) :
    (sfndPhase1 vals).2.getD p [] =
      (List.range vals.length).filter fun m => domB vals p m :=
  pairPhase_lists _ (domB_asymm vals) hp

theorem sfndPhase1_counts {vals : List Fitvals} {k : ℕ} (hk : k < vals.length) :
    (sfndPhase1 vals).1.getD k 0 =
      (List.range vals.length).countP fun m => domB vals m k :=
  pairPhase_counts _ (domB_asymm vals) hk

theorem mem_layer {vals : List Fitvals} {t i : ℕ} :
    i ∈ layer vals t ↔ i < vals.length ∧ height vals i = t := by
  unfold layer
  rw [List.mem_filter, List.mem_range, beq_iff_eq]

theorem layer_nodup (vals : List Fitvals) (t : ℕ) : (layer vals t).Nodup :=
  List.Nodup.filter _ (List.nodup_range _)

theorem countP_split (q q1 q2 : ℕ → Bool) :
    ∀ l : List ℕ,
      (∀ x ∈ l, (q x = true ↔ (q1 x = true ∨ q2 x = true)) ∧
        ¬(q1 x = true ∧ q2 x = true)) →
      l.countP q = l.countP q1 + l.countP q2 := by
  intro l
  induction l with
  | nil => intro _; rfl
  | cons a t ih =>
    intro h
    rw [List.countP_cons, List.countP_cons, List.countP_cons,
      ih fun x hx => h x (List.mem_cons_of_mem _ hx)]
    have ha := h a (List.mem_cons_self _ _)
    by_cases h1 : q1 a = true
    · have hq : q a = true := ha.1.mpr (Or.inl h1)
      have h2 : q2 a ≠ true := fun hc => ha.2 ⟨h1, hc⟩
      simp only [ne_eq, Bool.not_eq_true] at h2
      simp [hq, h1, h2]
      omega
    · rw [Bool.not_eq_true] at h1
      by_cases h2 : q2 a = true
      · have hq : q a = true := ha.1.mpr (Or.inr h2)
        simp [hq, h1, h2]
        omega
      · rw [Bool.not_eq_true] at h2
        have hq : q a = false := by
          rw [← Bool.not_eq_true]
          intro hc
          rcases ha.1.mp hc with hx | hx
          · rw [h1] at hx; exact absurd hx (by simp)
          · rw [h2] at hx; exact absurd hx (by simp)
        simp [hq, h1, h2]

/-- The multiset of counter decrements performed while processing a front
permutation of layer `t`: index `k` is decremented once for each of its
dominators of height exactly `t`. -/
theorem sfnd_ds_count (vals : List Fitvals) {t : ℕ} {prev : List ℕ}
    (hprev : prev.Perm (layer vals t)) (k : ℕ) :
    ((prev.flatMap fun p => (sfndPhase1 vals).2.getD p []).count k) =
      if k < vals.length then
        (List.range vals.length).countP fun p =>
          domB vals p k && decide (height vals p = t)
      else 0 := by
  rw [count_flatMap]
  have hmem : ∀ p ∈ prev, p < vals.length ∧ height vals p = t := by
    intro p hp
    exact mem_layer.mp (hprev.mem_iff.mp hp)
  have hmap : ∀ p ∈ prev, ((sfndPhase1 vals).2.getD p []).count k =
      if domB vals p k && decide (k < vals.length) then 1 else 0 := by
    intro p hp
    rw [sfndPhase1_lists (hmem p hp).1]
    by_cases hk : k < vals.length
    · by_cases hd : domB vals p k = true
      · rw [List.count_eq_one_of_mem
          (List.Nodup.filter _ (List.nodup_range _))
          (by rw [List.mem_filter, List.mem_range]; exact ⟨hk, hd⟩)]
        simp [hd, hk]
      · rw [Bool.not_eq_true] at hd
        rw [List.count_eq_zero_of_not_mem
          (by rw [List.mem_filter]; rintro ⟨-, hc⟩; rw [hd] at hc; simp at hc)]
        simp [hd]
    · rw [List.count_eq_zero_of_not_mem
        (by rw [List.mem_filter, List.mem_range]; rintro ⟨hc, -⟩; omega)]
      simp [hk]
  rw [List.map_congr_left hmap, sum_map_ite]
  by_cases hk : k < vals.length
  · rw [if_pos hk]
    have heq : prev.countP (fun p => domB vals p k && decide (k < vals.length)) =
        prev.countP fun p => domB vals p k :=
      List.countP_congr fun p _ => by simp [hk]
    rw [heq, hprev.countP_eq]
    unfold layer
    rw [List.countP_filter]
    refine List.countP_congr ?_
    intro p _
    simp [Bool.and_eq_true, beq_iff_eq, decide_eq_true_eq, and_comm]
  · rw [if_neg hk]
    rw [List.countP_eq_zero]
    intro p _
    simp [hk]

/-- The counter invariant carried through the front-expansion loop. -/
def CountsInv (vals : List Fitvals) (t : ℕ) (counts : List ℤ) : Prop :=
  counts.length = vals.length ∧
  ∀ k, k < vals.length → counts.getD k 0 =
    (((List.range vals.length).countP fun p =>
      domB vals p k && decide (t ≤ height vals p) : ℕ) : ℤ)

/-- One front-expansion iteration advances the counter invariant one layer
and produces exactly layer `t+1` as the new front. -/
theorem sfndIter_spec (vals : List Fitvals) {L : ℕ}
    (harity : ∀ v ∈ vals, v.length = L)
    {t : ℕ} {counts : List ℤ} {prev : List ℕ} (sorted : ℕ)
    (hcounts : CountsInv vals t counts)
    (hprev : prev.Perm (layer vals t)) :
    CountsInv vals (t + 1)
      ((prev.foldl (sfndExpand (sfndPhase1 vals).2) (counts, [], sorted)).1) ∧
    ((prev.foldl (sfndExpand (sfndPhase1 vals).2)
      (counts, [], sorted)).2.1).Perm (layer vals (t + 1)) ∧
    (prev.foldl (sfndExpand (sfndPhase1 vals).2) (counts, [], sorted)).2.2 =
      sorted + (layer vals (t + 1)).length := by
  obtain ⟨hclen, hcget⟩ := hcounts
  have hdomEB : domE vals = domB vals := domE_eq_domB harity
  have hfold : prev.foldl (sfndExpand (sfndPhase1 vals).2)
      (counts, [], sorted) =
      (prev.flatMap fun p => (sfndPhase1 vals).2.getD p []).foldl decStep
        (counts, [], sorted) :=
    (foldl_flatMap _ _ prev _).symm
  set ds := prev.flatMap fun p => (sfndPhase1 vals).2.getD p [] with hds
  have hdscount := sfnd_ds_count vals hprev
  -- bounds on the decremented indices
  have hbound : ∀ d ∈ ds, d < counts.length := by
    intro d hd
    rw [hds, List.mem_flatMap] at hd
    obtain ⟨p, hp, hdp⟩ := hd
    have hpN := (mem_layer.mp (hprev.mem_iff.mp hp)).1
    rw [sfndPhase1_lists hpN, List.mem_filter, List.mem_range] at hdp
    omega
  -- the split of "dominators of height ≥ t" into "= t" and "≥ t + 1"
  have hsplit : ∀ k, ((List.range vals.length).countP fun p =>
      domB vals p k && decide (t ≤ height vals p)) =
      ((List.range vals.length).countP fun p =>
        domB vals p k && decide (height vals p = t)) +
      ((List.range vals.length).countP fun p =>
        domB vals p k && decide (t + 1 ≤ height vals p)) := by
    intro k
    refine countP_split _ _ _ _ ?_
    intro x _
    constructor
    · constructor
      · intro h
        rw [Bool.and_eq_true, decide_eq_true_eq] at h
        rcases Nat.lt_or_ge (height vals x) (t + 1) with hlt | hge
        · left
          rw [Bool.and_eq_true, decide_eq_true_eq]
          exact ⟨h.1, by omega⟩
        · right
          rw [Bool.and_eq_true, decide_eq_true_eq]
          exact ⟨h.1, hge⟩
      · intro h
        rcases h with h | h <;>
          rw [Bool.and_eq_true, decide_eq_true_eq] at h ⊢ <;>
          exact ⟨h.1, by omega⟩
    · rintro ⟨h1, h2⟩
      rw [Bool.and_eq_true, decide_eq_true_eq] at h1 h2
      omega
  have hcountbound : ∀ d, ((ds.count d : ℤ)) ≤ counts.getD d 0 := by
    intro d
    rw [hdscount d]
    by_cases hd : d < vals.length
    · rw [if_pos hd, hcget d hd]
      have := hsplit d
      push_cast
      omega
    · rw [if_neg hd]
      have : counts.getD d 0 = 0 := by
        rw [List.getD_eq_getElem?_getD, List.getElem?_eq_none (by omega)]
        rfl
      rw [this]
      simp
  obtain ⟨hrlen, hrget, newl, hnf, hnd, hiff, hsorted⟩ :=
    decFold_spec ds counts [] sorted hbound hcountbound
  rw [hfold]
  -- membership in the new front is exactly height = t + 1
  have hmem_iff : ∀ d, d ∈ newl ↔ d < vals.length ∧ height vals d = t + 1 := by
    intro d
    rw [hiff d, hdscount d]
    by_cases hd : d < vals.length
    · rw [if_pos hd, hcget d hd]
      constructor
      · rintro ⟨hpos, heqc⟩
        refine ⟨hd, ?_⟩
        -- some dominator has height t, and none has height ≥ t+1
        obtain ⟨p, hp, hpdom⟩ := List.countP_pos.mp hpos
        rw [Bool.and_eq_true, decide_eq_true_eq] at hpdom
        have hge0 : ((List.range vals.length).countP fun p =>
            domB vals p d && decide (t + 1 ≤ height vals p)) = 0 := by
          have := hsplit d
          have hcast : ((List.range vals.length).countP fun p =>
              domB vals p d && decide (t ≤ height vals p)) =
              ((List.range vals.length).countP fun p =>
                domB vals p d && decide (height vals p = t)) := by
            push_cast at heqc
            omega
          omega
        rw [height_eq_succ_iff]
        constructor
        · refine ⟨p, ?_, hpdom.2⟩
          rw [hdomEB]
          exact hpdom.1
        · intro j hj
          rw [hdomEB] at hj
          by_contra hc
          push_neg at hc
          have hjN := (domB_oob hj).1
          rw [List.countP_eq_zero] at hge0
          refine hge0 j (List.mem_range.mpr hjN) ?_
          rw [Bool.and_eq_true, decide_eq_true_eq]
          exact ⟨hj, by omega⟩
      · rintro ⟨-, hh⟩
        rw [height_eq_succ_iff] at hh
        obtain ⟨⟨j0, hj0d, hj0h⟩, hall⟩ := hh
        rw [hdomEB] at hj0d
        constructor
        · rw [List.countP_pos]
          refine ⟨j0, List.mem_range.mpr (domB_oob hj0d).1, ?_⟩
          rw [Bool.and_eq_true, decide_eq_true_eq]
          exact ⟨hj0d, hj0h⟩
        · have hge0 : ((List.range vals.length).countP fun p =>
              domB vals p d && decide (t + 1 ≤ height vals p)) = 0 := by
            rw [List.countP_eq_zero]
            intro j hjr hjc
            rw [Bool.and_eq_true, decide_eq_true_eq] at hjc
            have := hall j (by rw [hdomEB]; exact hjc.1)
            omega
          have := hsplit d
          push_cast
          omega
    · rw [if_neg hd]
      simp [hd]
  have hperm : newl.Perm (layer vals (t + 1)) := by
    rw [List.perm_ext_iff_of_nodup hnd (layer_nodup vals (t + 1))]
    intro a
    rw [hmem_iff a, mem_layer]
  refine ⟨⟨by rw [hrlen, hclen], ?_⟩, ?_, ?_⟩
  · intro k hk
    rw [hrget k, hcget k hk, hdscount k, if_pos hk]
    have := hsplit k
    push_cast
    omega
  · rw [hnf]
    simpa using hperm
  · rw [hsorted, hperm.length_eq]

/-! #### List helpers for the front-expansion loop -/

theorem dropLast_map {α β : Type} (f : α → β) :
    ∀ l : List α, (l.map f).dropLast = l.dropLast.map f := by
  intro l
  induction l with
  | nil => rfl
  | cons a t ih =>
    cases t with
    | nil => rfl
    | cons b u =>
      simp only [List.map_cons, List.dropLast_cons₂] at ih ⊢
      rw [show (f b :: List.map f u).dropLast = List.map f (b :: u).dropLast from ih]

theorem subperm_map {α β : Type} (f : α → β) {l l' : List α}
    (h : l.Subperm l') : (l.map f).Subperm (l'.map f) := by
  obtain ⟨l₁, hp, hs⟩ := h
  exact ⟨l₁.map f, hp.map f, hs.map f⟩

theorem flatten_eq_dropLast {α : Type} :
    ∀ L : List (List α), L ≠ [] →
      L.flatten = L.dropLast.flatten ++ L.getLastD [] := by
  intro L
  induction L with
  | nil => intro h; exact absurd rfl h
  | cons a t ih =>
    intro _
    cases t with
    | nil => simp
    | cons b u =>
      have := ih (by simp)
      simp only [List.flatten_cons, List.dropLast_cons₂, List.getLastD_cons]
        at this ⊢
      rw [this, List.append_assoc]

theorem getLastD_map {α β : Type} (f : α → β) (d : α) :
    ∀ l : List α, l ≠ [] → (l.map f).getLastD (f d) = f (l.getLastD d) := by
  intro l
  induction l with
  | nil => intro h; exact absurd rfl h
  | cons a t ih =>
    intro _
    cases t with
    | nil => rfl
    | cons b u =>
      simp only [List.map_cons, List.getLastD_cons] at ih ⊢
      exact ih (by simp)

theorem filter_or_perm {α : Type} (p q : α → Bool) :
    ∀ l : List α, (∀ x ∈ l, ¬(p x = true ∧ q x = true)) →
      (l.filter fun x => p x || q x).Perm (l.filter p ++ l.filter q) := by
  intro l
  induction l with
  | nil => intro _; exact List.Perm.refl _
  | cons a t ih =>
    intro h
    have hih := ih fun x hx => h x (List.mem_cons_of_mem a hx)
    by_cases hp : p a = true
    · have hq : q a = false := by
        rcases Bool.eq_false_or_eq_true (q a) with h' | h'
        · exact absurd (And.intro hp h') (h a (List.mem_cons_self a t))
        · exact h'
      rw [List.filter_cons, List.filter_cons, List.filter_cons]
      simp only [hp, hq, Bool.true_or, if_true, if_false, Bool.false_eq_true]
      exact hih.cons a
    · rw [List.filter_cons, List.filter_cons, List.filter_cons]
      rw [Bool.not_eq_true] at hp
      by_cases hq : q a = true
      · simp only [hp, hq, Bool.false_or, if_true, Bool.false_eq_true, if_false]
        exact (hih.cons a).trans List.perm_middle.symm
      · rw [Bool.not_eq_true] at hq
        simp only [hp, hq, Bool.false_or, Bool.false_eq_true, if_false]
        exact hih

theorem getD_map_lt {α β : Type} (f : α → β) {l : List α} {k : ℕ}
    (h : k < l.length) (d₁ : α) (d₂ : β) :
    (l.map f).getD k d₂ = f (l.getD k d₁) := by
  rw [List.getD_eq_getElem?_getD, List.getElem?_map, List.getElem?_eq_getElem h]
  simp [List.getD_eq_getElem?_getD, List.getElem?_eq_getElem h]

theorem map_getD_range {α : Type} (l : List α) (d : α) :
    (List.range l.length).map (fun i => l.getD i d) = l := by
  refine List.ext_getElem (by simp) ?_
  intro i h1 h2
  simp only [List.getElem_map, List.getElem_range]
  rw [List.getD_eq_getElem?_getD, List.getElem?_eq_getElem h2]
  rfl

/-! #### The layers are gap-free -/

/-- Descending the dominator chain from an individual of height at least `s`
reaches an individual of height exactly `s`: the layer structure has no
gaps. -/
theorem exists_height_eq (vals : List Fitvals) :
    ∀ (k p s : ℕ), p < vals.length → height vals p = s + k →
      ∃ q, q < vals.length ∧ height vals q = s := by
  intro k
  induction k with
  | zero =>
    intro p s hp h
    exact ⟨p, hp, by omega⟩
  | succ k ih =>
    intro p s hp h
    obtain ⟨j, hj, hjh⟩ :=
      height_exists_of_pos (show height vals p = (s + k) + 1 by omega)
    have hjN : j < vals.length := by
      unfold domE at hj
      rw [Bool.and_eq_true] at hj
      exact (domB_oob hj.1).1
    exact ih j s hjN hjh

/-- The individuals of height at most `t+1` are, up to order, those of height
at most `t` together with layer `t+1`. -/
theorem filter_le_succ_perm (vals : List Fitvals) (t : ℕ) :
    ((List.range vals.length).filter fun i =>
      decide (height vals i ≤ t + 1)).Perm
      (((List.range vals.length).filter fun i =>
        decide (height vals i ≤ t)) ++ layer vals (t + 1)) := by
  have hpt : ((List.range vals.length).filter fun i =>
      decide (height vals i ≤ t + 1)) =
      (List.range vals.length).filter fun i =>
        decide (height vals i ≤ t) || (height vals i == t + 1) := by
    refine List.filter_congr ?_
    intro x _
    by_cases h : height vals x ≤ t
    · simp [h, Nat.le_succ_of_le h]
    · by_cases h2 : height vals x = t + 1
      · simp [h2]
      · simp [h, h2, show ¬height vals x ≤ t + 1 by omega]
  rw [hpt]
  unfold layer
  refine filter_or_perm _ _ _ ?_
  intro x _
  rintro ⟨h1, h2⟩
  rw [decide_eq_true_eq] at h1
  rw [beq_iff_eq] at h2
  omega

theorem filter_le_zero_eq_layer (vals : List Fitvals) :
    ((List.range vals.length).filter fun i => decide (height vals i ≤ 0)) =
      layer vals 0 := by
  unfold layer
  refine List.filter_congr ?_
  intro x _
  generalize height vals x = m
  cases m with
  | zero => rfl
  | succ m => rfl

/-! #### The state entering the front-expansion loop -/

/-- The phase-1 counters satisfy the counter invariant at layer 0. -/
theorem countsInv_init (vals : List Fitvals) :
    CountsInv vals 0 ((sfndPhase1 vals).1.map Int.ofNat) := by
  constructor
  · rw [List.length_map]
    exact pairPhase_fst_length _ _
  · intro k hk
    have hlen : k < (sfndPhase1 vals).1.length := by
      rw [show (sfndPhase1 vals).1.length = vals.length from
        pairPhase_fst_length _ _]
      exact hk
    rw [getD_map_lt Int.ofNat hlen 0 0, sfndPhase1_counts hk]
    have hc : ((List.range vals.length).countP fun p =>
        domB vals p k && decide (0 ≤ height vals p)) =
        (List.range vals.length).countP fun m => domB vals m k := by
      refine List.countP_congr ?_
      intro x _
      simp
    rw [hc]
    rfl

/-- The first front built by phase 1 is exactly layer 0 (the individuals
with zero dominators). -/
theorem front0_eq_layer_zero (vals : List Fitvals) {L : ℕ}
    (harity : ∀ v ∈ vals, v.length = L) :
    ((List.range vals.length).filter fun i =>
      (sfndPhase1 vals).1.getD i 0 == 0) = layer vals 0 := by
  have hdomEB : domE vals = domB vals := domE_eq_domB harity
  unfold layer
  refine List.filter_congr ?_
  intro i hi
  rw [List.mem_range] at hi
  rw [sfndPhase1_counts hi]
  have h1 : ((List.range vals.length).countP fun m => domB vals m i) = 0 ↔
      height vals i = 0 := by
    rw [List.countP_eq_zero, height_zero_iff]
    constructor
    · intro h j
      rw [hdomEB]
      by_cases hjN : j < vals.length
      · have := h j (List.mem_range.mpr hjN)
        rw [Bool.not_eq_true] at this
        exact this
      · by_contra hc
        rw [Bool.not_eq_false] at hc
        exact hjN (domB_oob hc).1
    · intro h j _
      rw [Bool.not_eq_true, ← hdomEB]
      exact h j
  rw [Bool.eq_iff_iff, beq_iff_eq, beq_iff_eq]
  exact h1

/-- The indices whose layer height is at most `t`; `pareto_sorted` equals its
length throughout the loop. -/
def belowLayer (vals : List Fitvals) (t : ℕ) : List ℕ :=
  (List.range vals.length).filter fun i => decide (height vals i ≤ t)

theorem belowLayer_succ_perm (vals : List Fitvals) (t : ℕ) :
    (belowLayer vals (t + 1)).Perm (belowLayer vals t ++ layer vals (t + 1)) :=
  filter_le_succ_perm vals t

theorem belowLayer_succ_length (vals : List Fitvals) (t : ℕ) :
    (belowLayer vals (t + 1)).length =
      (belowLayer vals t).length + (layer vals (t + 1)).length := by
  have := (belowLayer_succ_perm vals t).length_eq
  rw [List.length_append] at this
  exact this

theorem belowLayer_zero (vals : List Fitvals) :
    belowLayer vals 0 = layer vals 0 :=
  filter_le_zero_eq_layer vals

/-- The front-expansion loop, run with enough fuel, extends the accumulated
fronts with one front per layer until at least `target` individuals are
sorted; the final layer index `T` is minimal with that property. -/
theorem sfndLoop_spec (vals : List Fitvals) {L : ℕ}
    (harity : ∀ v ∈ vals, v.length = L) :
    ∀ (fuel t : ℕ) (counts : List ℤ) (fronts : List (List ℕ)) (target : ℕ),
      CountsInv vals t counts →
      (fronts.getLastD []).Perm (layer vals t) →
      fronts.flatten.Perm (belowLayer vals t) →
      target ≤ vals.length →
      target ≤ (belowLayer vals t).length + fuel →
      ∃ T : ℕ, t ≤ T ∧
        (∃ rest, sfndLoop (sfndPhase1 vals).2 fuel counts fronts
            (belowLayer vals t).length target = fronts ++ rest) ∧
        (sfndLoop (sfndPhase1 vals).2 fuel counts fronts
            (belowLayer vals t).length target).flatten.Perm
          (belowLayer vals T) ∧
        ((sfndLoop (sfndPhase1 vals).2 fuel counts fronts
            (belowLayer vals t).length target).getLastD []).Perm
          (layer vals T) ∧
        target ≤ (belowLayer vals T).length ∧
        (T = t ∨ (belowLayer vals (T - 1)).length < target) := by
  intro fuel
  induction fuel with
  | zero =>
    intro t counts fronts target hc hlast hflat htN hfuel
    have hloop : sfndLoop (sfndPhase1 vals).2 0 counts fronts
        (belowLayer vals t).length target = fronts := rfl
    rw [hloop]
    exact ⟨t, le_refl t, ⟨[], (List.append_nil fronts).symm⟩, hflat, hlast,
      by omega, Or.inl rfl⟩
  | succ fuel ih =>
    intro t counts fronts target hc hlast hflat htN hfuel
    by_cases hlt : (belowLayer vals t).length < target
    · obtain ⟨hc', hf', hs'⟩ :=
        sfndIter_spec vals harity ((belowLayer vals t).length) hc hlast
      set st := (fronts.getLastD []).foldl (sfndExpand (sfndPhase1 vals).2)
        (counts, [], (belowLayer vals t).length) with hst
      have hlay : 1 ≤ (layer vals (t + 1)).length := by
        have hflt : (belowLayer vals t).length < vals.length :=
          lt_of_lt_of_le hlt htN
        have hex : ∃ p, p < vals.length ∧ t + 1 ≤ height vals p := by
          by_contra hcon
          push_neg at hcon
          have hall : belowLayer vals t = List.range vals.length := by
            unfold belowLayer
            refine List.filter_eq_self.mpr ?_
            intro a ha
            rw [List.mem_range] at ha
            rw [decide_eq_true_eq]
            have := hcon a ha
            omega
          rw [hall, List.length_range] at hflt
          omega
        obtain ⟨p, hpN, hph⟩ := hex
        obtain ⟨q, hqN, hqh⟩ := exists_height_eq vals
          (height vals p - (t + 1)) p (t + 1) hpN (by omega)
        have hqmem : q ∈ layer vals (t + 1) := mem_layer.mpr ⟨hqN, hqh⟩
        have := List.length_pos.mpr (List.ne_nil_of_mem hqmem)
        omega
      have hsorted : st.2.2 = (belowLayer vals (t + 1)).length := by
        rw [hs', belowLayer_succ_length]
      have hstep : sfndLoop (sfndPhase1 vals).2 (fuel + 1) counts fronts
          (belowLayer vals t).length target =
          sfndLoop (sfndPhase1 vals).2 fuel st.1 (fronts ++ [st.2.1])
            (belowLayer vals (t + 1)).length target := by
        rw [sfndLoop, if_pos hlt, ← hsorted]
      have hlast' : ((fronts ++ [st.2.1]).getLastD []).Perm
          (layer vals (t + 1)) := by
        have he : (fronts ++ [st.2.1]).getLastD [] = st.2.1 := by simp
        rw [he]
        exact hf'
      have hflat' : (fronts ++ [st.2.1]).flatten.Perm
          (belowLayer vals (t + 1)) := by
        simp only [List.flatten_append, List.flatten_cons, List.flatten_nil,
          List.append_nil]
        exact (hflat.append hf').trans (belowLayer_succ_perm vals t).symm
      have hfuel' : target ≤ (belowLayer vals (t + 1)).length + fuel := by
        rw [belowLayer_succ_length]
        omega
      obtain ⟨T, hTt, ⟨rest, hrest⟩, hflatT, hlastT, htarT, hminT⟩ :=
        ih (t + 1) st.1 (fronts ++ [st.2.1]) target hc' hlast' hflat' htN hfuel'
      rw [hstep]
      refine ⟨T, by omega, ⟨[st.2.1] ++ rest, ?_⟩, hflatT, hlastT, htarT, ?_⟩
      · rw [hrest, List.append_assoc]
      · rcases hminT with hTe | hTlt
        · right
          rw [show T - 1 = t by omega]
          exact hlt
        · right
          exact hTlt
    · have hloop : sfndLoop (sfndPhase1 vals).2 (fuel + 1) counts fronts
          (belowLayer vals t).length target = fronts := by
        rw [sfndLoop, if_neg hlt]
      rw [hloop]
      exact ⟨t, le_refl t, ⟨[], (List.append_nil fronts).symm⟩, hflat, hlast,
        by omega, Or.inl rfl⟩

/-- Unfolding `sortFastND` on a nonempty population with `n ≠ 0` and the
default `first_front_only = False`. -/
theorem sortFastND_cons_eq {α : Type} (fit : α → List ℚ) (i0 : α)
    (rest : List α) (n : ℕ) (hn : n ≠ 0) :
    sortFastND fit (i0 :: rest) n =
      (sfndLoop (sfndPhase1 ((i0 :: rest).map fit)).2 (i0 :: rest).length
          ((sfndPhase1 ((i0 :: rest).map fit)).1.map Int.ofNat)
          [(List.range (i0 :: rest).length).filter fun i =>
            (sfndPhase1 ((i0 :: rest).map fit)).1.getD i 0 == 0]
          ((List.range (i0 :: rest).length).filter fun i =>
            (sfndPhase1 ((i0 :: rest).map fit)).1.getD i 0 == 0).length
          (min (i0 :: rest).length n)).map
        fun fr => fr.map fun idx => (i0 :: rest).getD idx i0 := by
  unfold sortFastND
  rw [if_neg hn]
  rfl

/-- Layer 0 is exactly the set of indices whose fitness is dominated by no
fitness in the population. -/
theorem layer_zero_eq_nondominated (vals : List Fitvals) {L : ℕ}
    (harity : ∀ v ∈ vals, v.length = L) :
    layer vals 0 = (List.range vals.length).filter fun i =>
      (List.range vals.length).all fun j =>
        !(isDominated (vals.getD i []) (vals.getD j [])) := by
  have hdomEB := domE_eq_domB harity
  unfold layer
  refine List.filter_congr ?_
  intro i hi
  rw [List.mem_range] at hi
  rw [Bool.eq_iff_iff, beq_iff_eq, List.all_eq_true, height_zero_iff]
  constructor
  · intro h j _
    have hj := h j
    rw [hdomEB] at hj
    unfold domB at hj
    simp only [Bool.not_eq_true']
    exact hj
  · intro h j
    rw [hdomEB]
    by_cases hjN : j < vals.length
    · have := h j (List.mem_range.mpr hjN)
      simp only [Bool.not_eq_true'] at this
      unfold domB
      exact this
    · by_contra hc
      rw [Bool.not_eq_false] at hc
      exact hjN (domB_oob hc).1

/-- The index-level behaviour of `sortFastND` on a nonempty population:
the result is an index skeleton `fl` mapped to individuals, whose head is
layer 0, whose flattening is (a permutation of) everything of height at most
`T`, whose last front is layer `T`, where `T` is the least layer index whose
cumulative size reaches `min N n`. -/
theorem sortFastND_spec {α : Type} (fit : α → List ℚ) (i0 : α)
    (rest : List α) {L : ℕ}
    (harity : ∀ a ∈ (i0 :: rest), (fit a).length = L) (n : ℕ) (hn : n ≠ 0) :
    ∃ (T : ℕ) (fl : List (List ℕ)),
      sortFastND fit (i0 :: rest) n =
        fl.map (fun fr => fr.map fun idx => (i0 :: rest).getD idx i0) ∧
      fl ≠ [] ∧
      fl.getD 0 [] = layer ((i0 :: rest).map fit) 0 ∧
      fl.flatten.Perm (belowLayer ((i0 :: rest).map fit) T) ∧
      (fl.getLastD []).Perm (layer ((i0 :: rest).map fit) T) ∧
      min (i0 :: rest).length n ≤ (belowLayer ((i0 :: rest).map fit) T).length ∧
      (T = 0 ∨ (belowLayer ((i0 :: rest).map fit) (T - 1)).length <
        min (i0 :: rest).length n) := by
  have harity' : ∀ v ∈ (i0 :: rest).map fit, v.length = L := by
    intro v hv
    obtain ⟨a, ha, hav⟩ := List.mem_map.mp hv
    rw [← hav]
    exact harity a ha
  set vals := (i0 :: rest).map fit with hvals
  have hlen : vals.length = (i0 :: rest).length := List.length_map _ _
  have hfront0 : ((List.range (i0 :: rest).length).filter fun i =>
      (sfndPhase1 vals).1.getD i 0 == 0) = layer vals 0 := by
    rw [← hlen]
    exact front0_eq_layer_zero vals harity'
  have htarN : min (i0 :: rest).length n ≤ vals.length := by
    rw [hlen]
    exact Nat.min_le_left _ _
  have hlast0 : (([(List.range (i0 :: rest).length).filter fun i =>
      (sfndPhase1 vals).1.getD i 0 == 0] : List (List ℕ)).getLastD []).Perm
      (layer vals 0) := by
    rw [show ([(List.range (i0 :: rest).length).filter fun i =>
      (sfndPhase1 vals).1.getD i 0 == 0] : List (List ℕ)).getLastD [] =
      (List.range (i0 :: rest).length).filter fun i =>
        (sfndPhase1 vals).1.getD i 0 == 0 from rfl, hfront0]
  have hflat0 : ([(List.range (i0 :: rest).length).filter fun i =>
      (sfndPhase1 vals).1.getD i 0 == 0] : List (List ℕ)).flatten.Perm
      (belowLayer vals 0) := by
    rw [show ([(List.range (i0 :: rest).length).filter fun i =>
      (sfndPhase1 vals).1.getD i 0 == 0] : List (List ℕ)).flatten =
      (List.range (i0 :: rest).length).filter fun i =>
        (sfndPhase1 vals).1.getD i 0 == 0 by simp, hfront0, belowLayer_zero]
  have hfuel : min (i0 :: rest).length n ≤
      (belowLayer vals 0).length + (i0 :: rest).length := by
    have := Nat.min_le_left (i0 :: rest).length n
    omega
  obtain ⟨T, hT0, ⟨restFr, hrest⟩, hflatT, hlastT, htarT, hminT⟩ :=
    sfndLoop_spec vals harity' (i0 :: rest).length 0
      ((sfndPhase1 vals).1.map Int.ofNat)
      [(List.range (i0 :: rest).length).filter fun i =>
        (sfndPhase1 vals).1.getD i 0 == 0]
      (min (i0 :: rest).length n) (countsInv_init vals) hlast0 hflat0
      htarN hfuel
  rw [show (belowLayer vals 0).length =
      ((List.range (i0 :: rest).length).filter fun i =>
        (sfndPhase1 vals).1.getD i 0 == 0).length by
    rw [hfront0, belowLayer_zero]] at hflatT hlastT hrest
  refine ⟨T, sfndLoop (sfndPhase1 vals).2 (i0 :: rest).length
      ((sfndPhase1 vals).1.map Int.ofNat)
      [(List.range (i0 :: rest).length).filter fun i =>
        (sfndPhase1 vals).1.getD i 0 == 0]
      ((List.range (i0 :: rest).length).filter fun i =>
        (sfndPhase1 vals).1.getD i 0 == 0).length
      (min (i0 :: rest).length n),
    sortFastND_cons_eq fit i0 rest n hn, ?_, ?_, hflatT, hlastT, htarT, hminT⟩
  · rw [hrest]
    simp
  · rw [hrest]
    rw [show ([(List.range (i0 :: rest).length).filter fun i =>
      (sfndPhase1 vals).1.getD i 0 == 0] : List (List ℕ)) ++ restFr =
      ((List.range (i0 :: rest).length).filter fun i =>
        (sfndPhase1 vals).1.getD i 0 == 0) :: restFr from rfl]
    rw [List.getD_cons_zero, hfront0]

/-- C7: for every population whose fitnesses all have the same arity (so
that dominance is a strict partial order), `sortFastND(pop, N)` with
`N = len(pop)` returns fronts whose concatenation contains each input
individual exactly once, and the first front is exactly the set of
individuals dominated by no individual of the population. -/
theorem sortFastND_complete {α : Type} (fit : α → List ℚ)
    (individuals : List α) {L : ℕ}
    (harity : ∀ a ∈ individuals, (fit a).length = L) :
    (sortFastND fit individuals individuals.length).flatten.Perm individuals ∧
    ∀ i0 rest, individuals = i0 :: rest →
      (sortFastND fit individuals individuals.length).getD 0 [] =
        ((List.range individuals.length).filter fun i =>
          (List.range individuals.length).all fun j =>
            !(isDominated ((individuals.map fit).getD i [])
              ((individuals.map fit).getD j []))).map
          fun i => individuals.getD i i0 := by
  cases individuals with
  | nil =>
    constructor
    · rw [show sortFastND fit ([] : List α) ([] : List α).length = []
        from rfl]
      exact List.Perm.refl _
    · intro i0 rest h
      cases h
  | cons j0 jrest =>
    have harity' : ∀ v ∈ (j0 :: jrest).map fit, v.length = L := by
      intro v hv
      obtain ⟨a, ha, hav⟩ := List.mem_map.mp hv
      rw [← hav]
      exact harity a ha
    obtain ⟨T, fl, hout, hflnil, hhead, hflat, hlast, htar, hmin⟩ :=
      sortFastND_spec fit j0 jrest harity (j0 :: jrest).length (by simp)
    set vals := (j0 :: jrest).map fit with hvals
    have hlen : vals.length = (j0 :: jrest).length := List.length_map _ _
    rw [Nat.min_self] at htar
    have hsub : (belowLayer vals T).Sublist (List.range vals.length) :=
      List.filter_sublist _
    have hble : (belowLayer vals T).length ≤ vals.length := by
      have := hsub.length_le
      rw [List.length_range] at this
      exact this
    have hbeq : belowLayer vals T = List.range vals.length := by
      refine hsub.eq_of_length ?_
      rw [List.length_range]
      omega
    constructor
    · rw [hout]
      rw [show ((fl.map fun fr =>
          fr.map fun idx => (j0 :: jrest).getD idx j0).flatten) =
          fl.flatten.map fun idx => (j0 :: jrest).getD idx j0 from
        (List.map_flatten _ fl).symm]
      have h2 := hflat.map fun idx => (j0 :: jrest).getD idx j0
      rw [hbeq] at h2
      refine h2.trans ?_
      rw [hlen, map_getD_range]
    · intro i0 rest heq
      injection heq with h1 h2
      subst h1
      subst h2
      rw [hout]
      cases fl with
      | nil => exact absurd rfl hflnil
      | cons f0 frest =>
        rw [show (((f0 :: frest).map fun fr =>
            fr.map fun idx => (j0 :: jrest).getD idx j0).getD 0 []) =
            f0.map fun idx => (j0 :: jrest).getD idx j0 from rfl]
        rw [show f0 = layer vals 0 from by simpa using hhead]
        rw [layer_zero_eq_nondominated vals harity', hlen]

/-- Witness for C7 at a concrete four-individual bi-objective population. -/
theorem sortFastND_complete_witness :
    (∀ a ∈ ([[1,4],[2,3],[3,2],[4,1]] : List (List ℚ)),
      ((fun v : List ℚ => v) a).length = 2) ∧
    ((sortFastND (fun v : List ℚ => v)
        ([[1,4],[2,3],[3,2],[4,1]] : List (List ℚ))
        ([[1,4],[2,3],[3,2],[4,1]] : List (List ℚ)).length).flatten.Perm
      ([[1,4],[2,3],[3,2],[4,1]] : List (List ℚ)) ∧
    (sortFastND (fun v : List ℚ => v)
        ([[1,4],[2,3],[3,2],[4,1]] : List (List ℚ))
        ([[1,4],[2,3],[3,2],[4,1]] : List (List ℚ)).length).getD 0 [] =
      ((List.range ([[1,4],[2,3],[3,2],[4,1]] : List (List ℚ)).length).filter
        fun i =>
          (List.range ([[1,4],[2,3],[3,2],[4,1]] : List (List ℚ)).length).all
          fun j => !(isDominated
            ((([[1,4],[2,3],[3,2],[4,1]] : List (List ℚ)).map
              fun v : List ℚ => v).getD i [])
            ((([[1,4],[2,3],[3,2],[4,1]] : List (List ℚ)).map
              fun v : List ℚ => v).getD j []))).map
        fun i => ([[1,4],[2,3],[3,2],[4,1]] : List (List ℚ)).getD i [1,4]) := by
  have harity : ∀ a ∈ ([[1,4],[2,3],[3,2],[4,1]] : List (List ℚ)),
      ((fun v : List ℚ => v) a).length = 2 := by
    intro a ha
    fin_cases ha <;> rfl
  have h := sortFastND_complete (fun v : List ℚ => v)
    ([[1,4],[2,3],[3,2],[4,1]] : List (List ℚ)) harity
  exact ⟨harity, h.1, h.2 [1,4] [[2,3],[3,2],[4,1]] rfl⟩

/-! ### `selNSGA2` (claim C3) -/

/-- `selNSGA2(individuals, n)`: non-dominated sort, keep every complete
front, and fill the remainder from the last front by descending crowding
distance.  `n - len(chosen)` can only be inspected through `> 0`, so the
truncated subtraction is faithful to the source; `pareto_fronts[-1]` is
only read under that guard, which implies the fronts list is nonempty. -/
def selNSGA2 {α : Type} (fit : α → List ℚ) (individuals : List α) (n : ℕ) :
    List α :=
  let pareto_fronts := sortFastND fit individuals n
  let chosen := pareto_fronts.dropLast.flatten
  let k := n - chosen.length
  if 0 < k then chosen ++ sortCrowdingDist fit (pareto_fronts.getLastD []) k
  else chosen

theorem nodup_getD_map {α : Type} [Inhabited α] (l : List α) (d : α)
    (idxs : List ℕ) (hl : l.Nodup) (hi : idxs.Nodup)
    (hb : ∀ i ∈ idxs, i < l.length) :
    (idxs.map fun i => l.getD i d).Nodup := by
  refine List.Nodup.map_on ?_ hi
  intro x hx y hy hxy
  have hxl := hb x hx
  have hyl := hb y hy
  rw [List.getD_eq_getElem?_getD, List.getElem?_eq_getElem hxl,
    List.getD_eq_getElem?_getD, List.getElem?_eq_getElem hyl] at hxy
  simp only [Option.getD_some] at hxy
  exact (List.Nodup.getElem_inj_iff hl).mp hxy

/-- The output of `sortCrowdingDist` on a nonempty front is the image of a
duplicate-free list of `min n len` valid indices. -/
theorem sortCrowdingDist_spec {α : Type} (fit : α → List ℚ) (i0 : α)
    (rest : List α) (n : ℕ) :
    ∃ idxs : List ℕ, idxs.Nodup ∧ (∀ i ∈ idxs, i < (i0 :: rest).length) ∧
      idxs.length = min n (i0 :: rest).length ∧
      sortCrowdingDist fit (i0 :: rest) n =
        idxs.map fun i => (i0 :: rest).getD i i0 := by
  have hout : sortCrowdingDist fit (i0 :: rest) n =
      ((((withIdx (crowdingState fit (i0 :: rest)
          (numberObjectives fit (i0 :: rest))).1).mergeSort
        fun x y => decide (y.1 ≤ x.1)).take n).map
        fun p => (i0 :: rest).getD p.2 i0) := rfl
  set dists := (crowdingState fit (i0 :: rest)
    (numberObjectives fit (i0 :: rest))).1 with hdists
  have hdlen : dists.length = (i0 :: rest).length :=
    crowdingState_fst_length fit (i0 :: rest) _
  set sorted_dist := (withIdx dists).mergeSort
    fun x y => decide (y.1 ≤ x.1) with hsd
  have hperm : sorted_dist.Perm (withIdx dists) :=
    List.mergeSort_perm (withIdx dists) _
  have hwlen : (withIdx dists).length = dists.length := by
    unfold withIdx
    rw [List.length_map, List.enum_length]
  have hsnd : (sorted_dist.map Prod.snd).Perm (List.range dists.length) := by
    have := hperm.map Prod.snd
    rw [withIdx_map_snd] at this
    exact this
  have hsndnd : (sorted_dist.map Prod.snd).Nodup :=
    hsnd.symm.nodup (List.nodup_range _)
  refine ⟨(sorted_dist.take n).map Prod.snd, ?_, ?_, ?_, ?_⟩
  · exact hsndnd.sublist ((List.take_sublist n sorted_dist).map Prod.snd)
  · intro i hi
    have : i ∈ sorted_dist.map Prod.snd :=
      ((List.take_sublist n sorted_dist).map Prod.snd).mem hi
    have := hsnd.mem_iff.mp this
    rw [List.mem_range] at this
    rw [← hdlen]
    exact this
  · rw [List.length_map, List.length_take, hperm.length_eq, hwlen, hdlen]
  · rw [hout, List.map_map]
    rfl

theorem belowLayer_nodup (vals : List Fitvals) (t : ℕ) :
    (belowLayer vals t).Nodup :=
  List.Nodup.filter _ (List.nodup_range _)

theorem mem_belowLayer {vals : List Fitvals} {t i : ℕ} :
    i ∈ belowLayer vals t ↔ i < vals.length ∧ height vals i ≤ t := by
  unfold belowLayer
  rw [List.mem_filter, List.mem_range, decide_eq_true_eq]

theorem belowLayer_length_le (vals : List Fitvals) (t : ℕ) :
    (belowLayer vals t).length ≤ vals.length := by
  have := (List.filter_sublist (l := List.range vals.length)
    (p := fun i => decide (height vals i ≤ t))).length_le
  rw [List.length_range] at this
  exact this

/-- C3: for every population of consistent fitness arity and every `n`,
`selNSGA2(pop, n)` returns exactly `min n (len pop)` individuals, and the
returned list is a sub-permutation of the population: every returned
individual is drawn from the input, repeated no more often than there. -/
theorem selNSGA2_spec {α : Type} (fit : α → List ℚ) (individuals : List α)
    (n : ℕ) {L : ℕ} (harity : ∀ a ∈ individuals, (fit a).length = L) :
    (selNSGA2 fit individuals n).length = min n individuals.length ∧
    (selNSGA2 fit individuals n).Subperm individuals := by
  by_cases hn : n = 0
  · subst hn
    have hres : selNSGA2 fit individuals 0 = [] := rfl
    rw [hres]
    exact ⟨(Nat.zero_min _).symm, List.nil_subperm⟩
  cases individuals with
  | nil =>
    have hsf : sortFastND fit ([] : List α) n = [[]] := by
      unfold sortFastND
      rw [if_neg hn]
    have hres : selNSGA2 fit ([] : List α) n = [] := by
      unfold selNSGA2
      dsimp only
      rw [hsf]
      have hcond : 0 <
          n - ([([] : List α)] : List (List α)).dropLast.flatten.length := by
        simp [Nat.pos_of_ne_zero hn]
      rw [if_pos hcond]
      rfl
    rw [hres]
    exact ⟨by simp, List.nil_subperm⟩
  | cons j0 jrest =>
    obtain ⟨T, fl, hout, hflnil, hhead, hflat, hlast, htar, hmin⟩ :=
      sortFastND_spec fit j0 jrest harity n hn
    set vals := (j0 :: jrest).map fit with hvals
    have hlen : vals.length = (j0 :: jrest).length := List.length_map _ _
    have hN1 : 1 ≤ (j0 :: jrest).length := by simp
    have hn1 : 1 ≤ n := Nat.pos_of_ne_zero hn
    set g : ℕ → α := fun idx => (j0 :: jrest).getD idx j0 with hg
    set C := fl.dropLast.flatten with hCdef
    set lastIdx := fl.getLastD [] with hLI
    have hsplit : fl.flatten = C ++ lastIdx := flatten_eq_dropLast fl hflnil
    have hbll : (belowLayer vals T).length ≤ vals.length :=
      belowLayer_length_le vals T
    have hlenflat : C.length + lastIdx.length = (belowLayer vals T).length := by
      have := hflat.length_eq
      rw [hsplit, List.length_append] at this
      exact this
    have hCfacts : C.Nodup ∧ (∀ i ∈ C, i < vals.length ∧ height vals i < T) ∧
        C.length < min (j0 :: jrest).length n := by
      cases T with
      | zero =>
        have hm : lastIdx.length = (layer vals 0).length := hlast.length_eq
        have hb0 : (belowLayer vals 0).length = (layer vals 0).length := by
          rw [belowLayer_zero]
        have hc0 : C.length = 0 := by omega
        have hCnil : C = [] := List.length_eq_zero.mp hc0
        refine ⟨by rw [hCnil]; exact List.nodup_nil, ?_, ?_⟩
        · intro i hi
          rw [hCnil] at hi
          cases hi
        · rw [hc0]
          omega
      | succ T' =>
        have hBsucc := belowLayer_succ_perm vals T'
        have h3 : (C ++ lastIdx).Perm
            (belowLayer vals T' ++ layer vals (T' + 1)) := by
          rw [← hsplit]
          exact hflat.trans hBsucc
        have h4 : (C ++ layer vals (T' + 1)).Perm (C ++ lastIdx) :=
          List.Perm.append_left C hlast.symm
        have h6 : C.Perm (belowLayer vals T') :=
          (List.perm_append_right_iff _).mp (h4.trans h3)
        have hmin' : (belowLayer vals T').length <
            min (j0 :: jrest).length n := by
          rcases hmin with h | h
          · exact absurd h (Nat.succ_ne_zero T')
          · simpa using h
        refine ⟨h6.symm.nodup (belowLayer_nodup vals T'), ?_, ?_⟩
        · intro i hi
          have := mem_belowLayer.mp (h6.subset hi)
          exact ⟨this.1, by omega⟩
        · rw [h6.length_eq]
          exact hmin'
    obtain ⟨hCnd, hCmem, hckm⟩ := hCfacts
    have hml : lastIdx.length = (layer vals T).length := hlast.length_eq
    have hmT : 0 < lastIdx.length := by omega
    have hLInil : lastIdx ≠ [] := by
      intro h
      rw [h] at hmT
      exact absurd hmT (by simp)
    have hchosen : (sortFastND fit (j0 :: jrest) n).dropLast.flatten =
        C.map g := by
      rw [hout, dropLast_map]
      exact (List.map_flatten g fl.dropLast).symm
    have hlastFr : (sortFastND fit (j0 :: jrest) n).getLastD [] =
        lastIdx.map g := by
      rw [hout]
      exact getLastD_map (List.map g) [] fl hflnil
    have hklen : (C.map g).length = C.length := List.length_map _ _
    have hcn : C.length < n := by omega
    have hres : selNSGA2 fit (j0 :: jrest) n =
        C.map g ++ sortCrowdingDist fit (lastIdx.map g) (n - C.length) := by
      unfold selNSGA2
      dsimp only
      rw [hchosen, hlastFr, hklen, if_pos (by omega : 0 < n - C.length)]
    rw [hres]
    obtain ⟨c0, crest, hcons⟩ : ∃ c0 crest, lastIdx.map g = c0 :: crest := by
      cases hml2 : lastIdx.map g with
      | nil => exact absurd (List.map_eq_nil_iff.mp hml2) hLInil
      | cons a b => exact ⟨a, b, rfl⟩
    rw [hcons]
    obtain ⟨idxs, hidnd, hidb, hidlen, hcrowd⟩ :=
      sortCrowdingDist_spec fit c0 crest (n - C.length)
    have hclen : (c0 :: crest).length = lastIdx.length := by
      rw [← hcons, List.length_map]
    have hgetd : ∀ i ∈ idxs, (c0 :: crest).getD i c0 =
        g (lastIdx.getD i 0) := by
      intro i hi
      have hib : i < lastIdx.length := by
        have := hidb i hi
        omega
      rw [← hcons]
      exact getD_map_lt g hib 0 c0
    have hcrowd2 : sortCrowdingDist fit (c0 :: crest) (n - C.length) =
        (idxs.map fun i => lastIdx.getD i 0).map g := by
      rw [hcrowd, List.map_map]
      exact List.map_congr_left hgetd
    rw [hcrowd2, ← List.map_append]
    set S := idxs.map fun i => lastIdx.getD i 0 with hS
    have hLInd : lastIdx.Nodup := hlast.symm.nodup (layer_nodup vals T)
    have hSnd : S.Nodup := by
      refine nodup_getD_map lastIdx 0 idxs hLInd hidnd ?_
      intro i hi
      have := hidb i hi
      omega
    have hSmem : ∀ x ∈ S, x < vals.length ∧ height vals x = T := by
      intro x hx
      obtain ⟨i, hi, hix⟩ := List.mem_map.mp hx
      have hib : i < lastIdx.length := by
        have := hidb i hi
        omega
      have hmem : lastIdx.getD i 0 ∈ lastIdx := by
        rw [List.getD_eq_getElem?_getD, List.getElem?_eq_getElem hib]
        exact List.getElem_mem hib
      rw [← hix]
      exact mem_layer.mp (hlast.subset hmem)
    have hdisj : ∀ a ∈ C, a ∉ S := by
      intro a ha hs
      have h1 := (hCmem a ha).2
      have h2 := (hSmem a hs).2
      omega
    have hnd : (C ++ S).Nodup := by
      rw [List.nodup_append]
      exact ⟨hCnd, hSnd, fun a ha hs => hdisj a ha hs⟩
    have hmemN : ∀ x ∈ C ++ S, x < (j0 :: jrest).length := by
      intro x hx
      rw [← hlen]
      rcases List.mem_append.mp hx with h | h
      · exact (hCmem x h).1
      · exact (hSmem x h).1
    constructor
    · rw [List.length_map, List.length_append]
      have hSlen : S.length = min (n - C.length) lastIdx.length := by
        rw [hS, List.length_map, hidlen, hclen]
      omega
    · have hsub : (C ++ S).Subperm (List.range (j0 :: jrest).length) := by
        refine List.Nodup.subperm hnd ?_
        intro x hx
        rw [List.mem_range]
        exact hmemN x hx
      have hfinal := subperm_map g hsub
      rw [hg] at hfinal
      rw [map_getD_range] at hfinal
      exact hfinal

/-- Witness for C3 on a two-individual population with `n = 1`. -/
theorem selNSGA2_spec_witness :
    (∀ a ∈ ([[1,4],[2,3],[5,5]] : List (List ℚ)),
      ((fun v : List ℚ => v) a).length = 2) ∧
    ((selNSGA2 (fun v : List ℚ => v)
        ([[1,4],[2,3],[5,5]] : List (List ℚ)) 2).length =
      min 2 ([[1,4],[2,3],[5,5]] : List (List ℚ)).length ∧
    (selNSGA2 (fun v : List ℚ => v)
        ([[1,4],[2,3],[5,5]] : List (List ℚ)) 2).Subperm
      ([[1,4],[2,3],[5,5]] : List (List ℚ))) := by
  have harity : ∀ a ∈ ([[1,4],[2,3],[5,5]] : List (List ℚ)),
      ((fun v : List ℚ => v) a).length = 2 := by
    intro a ha
    fin_cases ha <;> rfl
  exact ⟨harity, selNSGA2_spec (fun v : List ℚ => v)
    ([[1,4],[2,3],[5,5]] : List (List ℚ)) 2 harity⟩

/-! ### `_randomizedSelect` / `_partition` (claim C6) -/

/-- Read `array[i]` for an integer index.  Python indexes negatively from the
end; the partition scans are proven to stay within `[begin, end]`, where
`toNat` agrees with Python indexing. -/
def pget (a : List ℚ) (i : ℤ) : ℚ := a.getD i.toNat 0

def window (a : List ℚ) (b e : ℕ) : List ℚ := (a.drop b).take (e + 1 - b)

def sortedAsc (l : List ℚ) : List ℚ := l.mergeSort fun u v => decide (u ≤ v)

theorem cons_set_perm {α : Type} (d : α) :
    ∀ (t : List α) (s : ℕ) (a : α), s < t.length →
      (t.getD s d :: t.set s a).Perm (a :: t) := by
  intro t
  induction t with
  | nil =>
    intro s a hs
    exact absurd hs (by simp)
  | cons b u ih =>
    intro s a hs
    cases s with
    | zero =>
      rw [List.getD_cons_zero, List.set_cons_zero]
      exact List.Perm.swap a b u
    | succ s' =>
      rw [List.getD_cons_succ, List.set_cons_succ]
      have hs' : s' < u.length := by
        rw [List.length_cons] at hs
        omega
      refine List.Perm.trans (List.Perm.swap b (u.getD s' d) (u.set s' a)) ?_
      exact List.Perm.trans (((ih s' a hs').cons b)) (List.Perm.swap a b u)

theorem set_set_perm {α : Type} (d : α) :
    ∀ (l : List α) (p q : ℕ), p < l.length → q < l.length →
      ((l.set p (l.getD q d)).set q (l.getD p d)).Perm l := by
  intro l
  induction l with
  | nil =>
    intro p q hp _
    exact absurd hp (by simp)
  | cons x t ih =>
    intro p q hp hq
    cases p with
    | zero =>
      cases q with
      | zero => simp
      | succ r =>
        rw [List.getD_cons_succ, List.set_cons_zero, List.getD_cons_zero,
          List.set_cons_succ]
        have hr : r < t.length := by
          rw [List.length_cons] at hq
          omega
        exact cons_set_perm d t r x hr
    | succ s =>
      cases q with
      | zero =>
        rw [List.getD_cons_zero, List.set_cons_succ, List.getD_cons_succ,
          List.set_cons_zero]
        have hs : s < t.length := by
          rw [List.length_cons] at hp
          omega
        exact cons_set_perm d t s x hs
      | succ r =>
        rw [List.getD_cons_succ, List.getD_cons_succ, List.set_cons_succ,
          List.set_cons_succ]
        have hs : s < t.length := by
          rw [List.length_cons] at hp
          omega
        have hr : r < t.length := by
          rw [List.length_cons] at hq
          omega
        exact (ih s r hs hr).cons x

theorem window_length {a : List ℚ} {b e : ℕ} (hb : b ≤ e) (he : e < a.length) :
    (window a b e).length = e + 1 - b := by
  unfold window
  rw [List.length_take, List.length_drop]
  omega

theorem window_getD {a : List ℚ} {b e o : ℕ} (ho : o < e + 1 - b)
    (he : e < a.length) :
    (window a b e).getD o 0 = a.getD (b + o) 0 := by
  have hlt : o < (window a b e).length := by
    rw [window_length (by omega) he]
    exact ho
  unfold window at hlt ⊢
  rw [List.getD_eq_getElem?_getD, List.getElem?_eq_getElem hlt]
  rw [List.getElem_take, List.getElem_drop]
  rw [List.getD_eq_getElem?_getD, List.getElem?_eq_getElem (by
    rw [List.length_take, List.length_drop] at hlt
    omega)]

theorem window_split {a : List ℚ} {b e : ℕ} (q : ℕ) (hbq : b ≤ q) (hqe : q < e) :
    window a b e = window a b q ++ window a (q + 1) e := by
  unfold window
  have h1 : e + 1 - b = (q + 1 - b) + (e - q) := by omega
  rw [h1, List.take_add]
  congr 1
  rw [List.drop_drop]
  have h2 : b + (q + 1 - b) = q + 1 := by omega
  rw [h2]
  congr 1
  omega

theorem window_singleton {a : List ℚ} {b : ℕ} (hb : b < a.length) :
    window a b b = [a.getD b 0] := by
  have h1 : (window a b b).length = 1 := by
    rw [window_length (le_refl b) hb]
    omega
  cases hw : window a b b with
  | nil => rw [hw] at h1; simp at h1
  | cons v rest =>
    rw [hw] at h1
    rw [List.length_cons] at h1
    have : rest = [] := List.length_eq_zero.mp (by omega)
    subst this
    have := window_getD (a := a) (show 0 < b + 1 - b by omega) hb
    rw [hw] at this
    rw [List.getD_cons_zero] at this
    rw [this]
    rfl

theorem mem_window {a : List ℚ} {b e : ℕ} (he : e < a.length) {v : ℚ} :
    v ∈ window a b e ↔ ∃ m : ℕ, b ≤ m ∧ m ≤ e ∧ a.getD m 0 = v := by
  constructor
  · intro hv
    obtain ⟨o, ho, hov⟩ := List.getElem_of_mem hv
    have hol : o < e + 1 - b := by
      unfold window at ho
      rw [List.length_take, List.length_drop] at ho
      omega
    refine ⟨b + o, by omega, by omega, ?_⟩
    rw [← window_getD hol he]
    rw [List.getD_eq_getElem?_getD, List.getElem?_eq_getElem ho]
    rw [hov]
    rfl
  · rintro ⟨m, hbm, hme, hmv⟩
    rw [← hmv]
    have hgd := window_getD (a := a) (show m - b < e + 1 - b by omega) he
    rw [show b + (m - b) = m by omega] at hgd
    rw [← hgd]
    have hlt : m - b < (window a b e).length := by
      rw [window_length (by omega) he]
      omega
    rw [List.getD_eq_getElem?_getD, List.getElem?_eq_getElem hlt]
    exact List.getElem_mem hlt

theorem sortedAsc_perm (l : List ℚ) : (sortedAsc l).Perm l :=
  List.mergeSort_perm l _

theorem sortedAsc_sorted (l : List ℚ) :
    (sortedAsc l).Pairwise (· ≤ ·) := by
  have h : (sortedAsc l).Pairwise (fun u v => decide (u ≤ v) = true) := by
    refine List.sorted_mergeSort ?_ ?_ l
    · intro a b c hab hbc
      rw [decide_eq_true_eq] at hab hbc ⊢
      exact le_trans hab hbc
    · intro a b
      rcases le_total a b with h | h <;> simp [h]
  exact h.imp fun hab => by rwa [decide_eq_true_eq] at hab

theorem sortedAsc_congr {l l' : List ℚ} (h : l.Perm l') :
    sortedAsc l = sortedAsc l' := by
  refine List.eq_of_perm_of_sorted ?_ (sortedAsc_sorted l) (sortedAsc_sorted l')
  exact (sortedAsc_perm l).trans (h.trans (sortedAsc_perm l').symm)

theorem sortedAsc_append {l h : List ℚ}
    (hle : ∀ u ∈ l, ∀ v ∈ h, u ≤ v) :
    sortedAsc (l ++ h) = sortedAsc l ++ sortedAsc h := by
  refine List.eq_of_perm_of_sorted ?_ (sortedAsc_sorted (l ++ h)) ?_
  · exact (sortedAsc_perm (l ++ h)).trans
      (((sortedAsc_perm l).append (sortedAsc_perm h)).symm)
  · rw [List.Sorted, List.pairwise_append]
    refine ⟨sortedAsc_sorted l, sortedAsc_sorted h, ?_⟩
    intro u hu v hv
    exact hle u ((sortedAsc_perm l).subset hu) v ((sortedAsc_perm h).subset hv)

theorem getD_append_left {l h : List ℚ} {i : ℕ} (hi : i < l.length) :
    (l ++ h).getD i 0 = l.getD i 0 := by
  rw [List.getD_eq_getElem?_getD, List.getElem?_append_left hi,
    List.getD_eq_getElem?_getD]

theorem getD_append_right' (l h : List ℚ) (o : ℕ) :
    (l ++ h).getD (l.length + o) 0 = h.getD o 0 := by
  rw [List.getD_eq_getElem?_getD, List.getElem?_append_right (by omega),
    show l.length + o - l.length = o by omega, List.getD_eq_getElem?_getD]

theorem getD_append_right2 (l h : List ℚ) (i : ℕ) (hi : l.length ≤ i) :
    (l ++ h).getD i 0 = h.getD (i - l.length) 0 := by
  have := getD_append_right' l h (i - l.length)
  rwa [show l.length + (i - l.length) = i from by omega] at this

def scanDownZ (a : List ℚ) (x : ℚ) : ℕ → ℤ → ℤ
  | 0, j => j
  | fuel + 1, j => if x < pget a j then scanDownZ a x fuel (j - 1) else j

def scanUpZ (a : List ℚ) (x : ℚ) : ℕ → ℤ → ℤ
  | 0, i => i
  | fuel + 1, i => if pget a i < x then scanUpZ a x fuel (i + 1) else i

def partLoop (x : ℚ) : ℕ → List ℚ → ℤ → ℤ → List ℚ × ℤ
  | 0, a, _, j => (a, j)
  | fuel + 1, a, i, j =>
    let j' := scanDownZ a x (a.length + 1) (j - 1)
    let i' := scanUpZ a x (a.length + 1) (i + 1)
    if i' < j' then
      partLoop x fuel ((a.set i'.toNat (pget a j')).set j'.toNat (pget a i'))
        i' j'
    else (a, j')

def _partition (a : List ℚ) (b e : ℕ) : List ℚ × ℤ :=
  partLoop (a.getD b 0) (e + 2 - b) a ((b : ℤ) - 1) ((e : ℤ) + 1)

def _randomizedPartition (rand : ℕ → ℕ) (t : ℕ) (a : List ℚ) (b e : ℕ) :
    List ℚ × ℤ :=
  let p := b + rand t % (e - b + 1)
  _partition ((a.set b (a.getD p 0)).set p (a.getD b 0)) b e

def _randomizedSelect {R : Type} (ltN : R → ℕ → Bool) (subN : R → ℕ → R)
    (rand : ℕ → ℕ) : ℕ → ℕ → List ℚ → ℕ → ℕ → R → Option ℚ
  | 0, _, _, _, _, _ => none
  | fuel + 1, t, a, b, e, i =>
    if b = e then some (a.getD b 0)
    else
      let pr := _randomizedPartition rand t a b e
      let k := (pr.2 - b + 1).toNat
      if ltN i k then
        _randomizedSelect ltN subN rand fuel (t + 1) pr.1 b pr.2.toNat i
      else
        _randomizedSelect ltN subN rand fuel (t + 1) pr.1 (pr.2.toNat + 1) e
          (subN i k)

theorem scanDownZ_spec (a : List ℚ) (x : ℚ) :
    ∀ (fuel : ℕ) (j sd : ℤ), sd ≤ j → ¬(x < pget a sd) →
      (j - sd).toNat < fuel →
      sd ≤ scanDownZ a x fuel j ∧ scanDownZ a x fuel j ≤ j ∧
      ¬(x < pget a (scanDownZ a x fuel j)) ∧
      ∀ m : ℤ, scanDownZ a x fuel j < m → m ≤ j → x < pget a m := by
  intro fuel
  induction fuel with
  | zero =>
    intro j sd _ _ hf
    omega
  | succ fuel ih =>
    intro j sd hsd hstop hf
    rw [scanDownZ]
    by_cases hj : x < pget a j
    · rw [if_pos hj]
      have hne : sd ≠ j := by
        intro h
        rw [h] at hstop
        exact hstop hj
      obtain ⟨h1, h2, h3, h4⟩ := ih (j - 1) sd (by omega) hstop (by omega)
      refine ⟨h1, by omega, h3, ?_⟩
      intro m hm1 hm2
      rcases eq_or_lt_of_le hm2 with he | hlt
      · rw [he]; exact hj
      · exact h4 m hm1 (by omega)
    · rw [if_neg hj]
      exact ⟨hsd, le_refl j, hj, fun m hm1 hm2 => by omega⟩

theorem scanUpZ_spec (a : List ℚ) (x : ℚ) :
    ∀ (fuel : ℕ) (i su : ℤ), i ≤ su → ¬(pget a su < x) →
      (su - i).toNat < fuel →
      i ≤ scanUpZ a x fuel i ∧ scanUpZ a x fuel i ≤ su ∧
      ¬(pget a (scanUpZ a x fuel i) < x) ∧
      ∀ m : ℤ, i ≤ m → m < scanUpZ a x fuel i → pget a m < x := by
  intro fuel
  induction fuel with
  | zero =>
    intro i su _ _ hf
    omega
  | succ fuel ih =>
    intro i su hsu hstop hf
    rw [scanUpZ]
    by_cases hi : pget a i < x
    · rw [if_pos hi]
      have hne : i ≠ su := by
        intro h
        rw [h] at hi
        exact hstop hi
      obtain ⟨h1, h2, h3, h4⟩ := ih (i + 1) su (by omega) hstop (by omega)
      refine ⟨by omega, h2, h3, ?_⟩
      intro m hm1 hm2
      rcases eq_or_lt_of_le hm1 with he | hlt
      · rw [← he]; exact hi
      · exact h4 m (by omega) hm2
    · rw [if_neg hi]
      exact ⟨le_refl i, hsu, hi, fun m hm1 hm2 => by omega⟩

theorem pget_set {a : List ℚ} {p : ℕ} (v : ℚ) (m : ℤ) (hp : p < a.length) :
    pget (a.set p v) m = if m.toNat = p then v else pget a m := by
  unfold pget
  by_cases h : m.toNat = p
  · rw [if_pos h, h, List.getD_eq_getElem?_getD, List.getElem?_set_self hp]
    rfl
  · rw [if_neg h, List.getD_eq_getElem?_getD,
      List.getElem?_set_ne (fun he => h he.symm), ← List.getD_eq_getElem?_getD]

theorem window_set {a : List ℚ} {b e p : ℕ} (v : ℚ) (hbp : b ≤ p) :
    window (a.set p v) b e = (window a b e).set (p - b) v := by
  unfold window
  rw [List.drop_set, if_neg (by omega), List.set_take]

/-- The invariant of the Hoare partition loop: `i` and `j` are the Python
loop variables between iterations, `x` the pivot value, the prefix up to `i`
is at most `x`, the suffix from `j` is at least `x`, and each scan has a
stopper ahead of it. -/
def PartInv (x : ℚ) (b e len : ℕ) (a : List ℚ) (i j : ℤ) : Prop :=
  a.length = len ∧ (b : ℤ) - 1 ≤ i ∧ i < j ∧
  (i = (b : ℤ) - 1 → pget a b = x ∧ j = (e : ℤ) + 1) ∧
  ((b : ℤ) ≤ i → j ≤ (e : ℤ)) ∧
  (∀ m : ℤ, (b : ℤ) ≤ m → m ≤ i → pget a m ≤ x) ∧
  (∀ m : ℤ, j ≤ m → m ≤ (e : ℤ) → x ≤ pget a m) ∧
  (∃ sd : ℤ, (b : ℤ) ≤ sd ∧ sd ≤ j - 1 ∧ pget a sd ≤ x) ∧
  (∃ su : ℤ, i + 1 ≤ su ∧ su ≤ (e : ℤ) ∧ x ≤ pget a su)

theorem partLoop_spec (x : ℚ) (b e len : ℕ) (hbe : b < e) (helen : e < len) :
    ∀ (fuel : ℕ) (a : List ℚ) (i j : ℤ), PartInv x b e len a i j →
      (j - (b : ℤ)).toNat < fuel →
      (partLoop x fuel a i j).1.length = len ∧
      (window (partLoop x fuel a i j).1 b e).Perm (window a b e) ∧
      (b : ℤ) ≤ (partLoop x fuel a i j).2 ∧
      (partLoop x fuel a i j).2 < (e : ℤ) ∧
      (∀ m : ℤ, (b : ℤ) ≤ m → m ≤ (partLoop x fuel a i j).2 →
        pget (partLoop x fuel a i j).1 m ≤ x) ∧
      (∀ m : ℤ, (partLoop x fuel a i j).2 < m → m ≤ (e : ℤ) →
        x ≤ pget (partLoop x fuel a i j).1 m) := by
  intro fuel
  induction fuel with
  | zero =>
    intro a i j hinv hf
    omega
  | succ fuel ih =>
    intro a i j hinv hf
    obtain ⟨hlen, hbi, hij, hfirst, hlater, hlow, hhigh,
      ⟨sd, hsd1, hsd2, hsd3⟩, ⟨su, hsu1, hsu2, hsu3⟩⟩ := hinv
    rw [partLoop]
    obtain ⟨hd1, hd2, hd3, hd4⟩ := scanDownZ_spec a x (a.length + 1) (j - 1)
      sd hsd2 (not_lt.mpr hsd3) (by
        have hje : j ≤ (e : ℤ) + 1 := by
          by_cases hi0 : i = (b : ℤ) - 1
          · exact le_of_eq (hfirst hi0).2
          · exact le_trans (hlater (by omega)) (by omega)
        omega)
    obtain ⟨hu1, hu2, hu3, hu4⟩ := scanUpZ_spec a x (a.length + 1) (i + 1)
      su hsu1 (not_lt.mpr hsu3) (by omega)
    set j' := scanDownZ a x (a.length + 1) (j - 1) with hj'
    set i' := scanUpZ a x (a.length + 1) (i + 1) with hi'
    have hje : j ≤ (e : ℤ) + 1 := by
      by_cases hi0 : i = (b : ℤ) - 1
      · exact le_of_eq (hfirst hi0).2
      · exact le_trans (hlater (by omega)) (by omega)
    have hj'e : j' ≤ (e : ℤ) := by
      by_cases hi0 : i = (b : ℤ) - 1
      · have := (hfirst hi0).2
        omega
      · have := hlater (by omega)
        omega
    have hi'b : (b : ℤ) ≤ i' := by omega
    by_cases hij' : i' < j'
    · rw [if_pos hij']
      have hi'len : i'.toNat < a.length := by
        rw [hlen]
        omega
      have hj'len : j'.toNat < a.length := by
        rw [hlen]
        omega
      have hii'ne : i'.toNat ≠ j'.toNat := by omega
      set a' := (a.set i'.toNat (pget a j')).set j'.toNat (pget a i') with ha'
      have ha'len : a'.length = len := by
        rw [ha', List.length_set, List.length_set, hlen]
      have hpa' : ∀ m : ℤ, pget a' m =
          if m.toNat = j'.toNat then pget a i'
          else if m.toNat = i'.toNat then pget a j' else pget a m := by
        intro m
        rw [ha', pget_set _ m (by rw [List.length_set]; exact hj'len)]
        by_cases h1 : m.toNat = j'.toNat
        · rw [if_pos h1, if_pos h1]
        · rw [if_neg h1, if_neg h1, pget_set _ m hi'len]
      have hinv' : PartInv x b e len a' i' j' := by
        refine ⟨ha'len, by omega, hij', by omega, fun _ => hj'e, ?_, ?_, ?_, ?_⟩
        · intro m hm1 hm2
          rw [hpa' m]
          rcases lt_or_eq_of_le hm2 with hmlt | hmeq
          · rw [if_neg (by omega), if_neg (by omega)]
            rcases le_or_lt m i with hmi | hmi
            · exact hlow m hm1 hmi
            · exact le_of_lt (hu4 m (by omega) hmlt)
          · rw [hmeq]
            rw [if_neg (by omega), if_pos rfl]
            exact not_lt.mp hd3
        · intro m hm1 hm2
          rw [hpa' m]
          rcases lt_or_eq_of_le hm1 with hmlt | hmeq
          · rw [if_neg (by omega), if_neg (by omega)]
            rcases lt_or_le m j with hmj | hmj
            · exact le_of_lt (hd4 m hmlt (by omega))
            · exact hhigh m hmj hm2
          · rw [← hmeq]
            rw [if_pos rfl]
            exact not_lt.mp hu3
        · exact ⟨i', hi'b, by omega, by
            rw [hpa' i', if_neg (by omega), if_pos rfl]
            exact not_lt.mp hd3⟩
        · exact ⟨j', by omega, hj'e, by
            rw [hpa' j', if_pos rfl]
            exact not_lt.mp hu3⟩
      obtain ⟨hr1, hr2, hr3, hr4, hr5, hr6⟩ := ih a' i' j' hinv' (by omega)
      refine ⟨hr1, ?_, hr3, hr4, hr5, hr6⟩
      refine hr2.trans ?_
      have healen : e < a.length := by omega
      have hwin : window a' b e =
          ((window a b e).set (i'.toNat - b) (pget a j')).set
            (j'.toNat - b) (pget a i') := by
        rw [ha', window_set _ (by omega), window_set _ (by omega)]
      have hwl : (window a b e).length = e + 1 - b :=
        window_length (le_of_lt hbe) healen
      have hg1 : (window a b e).getD (j'.toNat - b) 0 = pget a j' := by
        rw [window_getD (show j'.toNat - b < e + 1 - b by omega) healen]
        unfold pget
        rw [show b + (j'.toNat - b) = j'.toNat by omega]
      have hg2 : (window a b e).getD (i'.toNat - b) 0 = pget a i' := by
        rw [window_getD (show i'.toNat - b < e + 1 - b by omega) healen]
        unfold pget
        rw [show b + (i'.toNat - b) = i'.toNat by omega]
      rw [hwin, ← hg1, ← hg2]
      exact set_set_perm 0 (window a b e) (i'.toNat - b) (j'.toNat - b)
        (by rw [hwl]; omega) (by rw [hwl]; omega)
    · rw [if_neg hij']
      have hq : (b : ℤ) ≤ j' := by
        by_cases hi0 : i = (b : ℤ) - 1
        · -- first iteration: i' = b, so j' ≤ i' = b and j' ≥ sd ≥ b
          omega
        · omega
      have hqe : j' < (e : ℤ) := by
        by_cases hi0 : i = (b : ℤ) - 1
        · -- i' = b since pget a b = x stops the upward scan at once
          have hxb : ¬(pget a b < x) := by
            rw [(hfirst hi0).1]
            exact lt_irrefl x
          have hi'eq : i' = (b : ℤ) := by
            by_contra hne
            have hblt : (b : ℤ) < i' := by omega
            have := hu4 b (by omega) hblt
            exact hxb this
          have : j' ≤ (b : ℤ) := by omega
          omega
        · have := hlater (by omega)
          omega
      refine ⟨hlen, List.Perm.refl _, hq, hqe, ?_, ?_⟩
      · intro m hm1 hm2
        rcases le_or_lt m i with hmi | hmi
        · exact hlow m hm1 hmi
        · rcases lt_or_eq_of_le (show m ≤ i' by omega) with hmlt | hmeq
          · exact le_of_lt (hu4 m (by omega) hmlt)
          · -- m = i' ≥ j' and m ≤ j', so m = j' : the down-scan stop
            have : m = j' := by omega
            rw [this]
            exact not_lt.mp hd3
      · intro m hm1 hm2
        rcases lt_or_le m j with hmj | hmj
        · exact le_of_lt (hd4 m hm1 (by omega))
        · exact hhigh m hmj hm2

theorem partition_spec (a : List ℚ) (b e : ℕ) (hbe : b < e)
    (he : e < a.length) :
    (_partition a b e).1.length = a.length ∧
    (window (_partition a b e).1 b e).Perm (window a b e) ∧
    (b : ℤ) ≤ (_partition a b e).2 ∧ (_partition a b e).2 < (e : ℤ) ∧
    (∀ m : ℤ, (b : ℤ) ≤ m → m ≤ (_partition a b e).2 →
      pget (_partition a b e).1 m ≤ a.getD b 0) ∧
    (∀ m : ℤ, (_partition a b e).2 < m → m ≤ (e : ℤ) →
      a.getD b 0 ≤ pget (_partition a b e).1 m) := by
  have hpb : pget a (b : ℤ) = a.getD b 0 := by
    unfold pget
    rw [Int.toNat_natCast]
  unfold _partition
  exact partLoop_spec (a.getD b 0) b e a.length hbe he (e + 2 - b) a
    ((b : ℤ) - 1) ((e : ℤ) + 1)
    ⟨rfl, by omega, by omega, fun _ => ⟨hpb, rfl⟩, by omega,
      fun m h1 h2 => by omega,
      fun m h1 h2 => by omega,
      ⟨(b : ℤ), le_refl _, by omega, le_of_eq hpb⟩,
      ⟨(b : ℤ), by omega, by omega, le_of_eq hpb.symm⟩⟩
    (by omega)

theorem randomizedPartition_spec (rand : ℕ → ℕ) (t : ℕ) (a : List ℚ)
    (b e : ℕ) (hbe : b < e) (he : e < a.length) :
    (_randomizedPartition rand t a b e).1.length = a.length ∧
    (window (_randomizedPartition rand t a b e).1 b e).Perm (window a b e) ∧
    (b : ℤ) ≤ (_randomizedPartition rand t a b e).2 ∧
    (_randomizedPartition rand t a b e).2 < (e : ℤ) ∧
    ∃ x : ℚ,
      (∀ m : ℤ, (b : ℤ) ≤ m → m ≤ (_randomizedPartition rand t a b e).2 →
        pget (_randomizedPartition rand t a b e).1 m ≤ x) ∧
      (∀ m : ℤ, (_randomizedPartition rand t a b e).2 < m → m ≤ (e : ℤ) →
        x ≤ pget (_randomizedPartition rand t a b e).1 m) := by
  unfold _randomizedPartition
  dsimp only
  set p := b + rand t % (e - b + 1) with hp
  have hpe : p ≤ e := by
    have := Nat.mod_lt (rand t) (show 0 < e - b + 1 by omega)
    omega
  set a1 := (a.set b (a.getD p 0)).set p (a.getD b 0) with ha1
  have ha1len : a1.length = a.length := by
    rw [ha1, List.length_set, List.length_set]
  have he1 : e < a1.length := by omega
  obtain ⟨h1, h2, h3, h4, h5, h6⟩ := partition_spec a1 b e hbe he1
  refine ⟨by omega, ?_, h3, h4, a1.getD b 0, h5, h6⟩
  refine h2.trans ?_
  have hwin : window a1 b e =
      ((window a b e).set (b - b) (a.getD p 0)).set (p - b) (a.getD b 0) := by
    rw [ha1, window_set _ (show b ≤ p by omega), window_set _ (le_refl b)]
  have hwl : (window a b e).length = e + 1 - b :=
    window_length (le_of_lt hbe) he
  have hg1 : (window a b e).getD (p - b) 0 = a.getD p 0 := by
    rw [window_getD (show p - b < e + 1 - b by omega) he,
      show b + (p - b) = p by omega]
  have hg2 : (window a b e).getD (b - b) 0 = a.getD b 0 := by
    rw [window_getD (show b - b < e + 1 - b by omega) he,
      show b + (b - b) = b by omega]
  rw [hwin, ← hg1, ← hg2]
  exact set_set_perm 0 (window a b e) (b - b) (p - b)
    (by rw [hwl]; omega) (by rw [hwl]; omega)

theorem randomizedSelect_correct (rand : ℕ → ℕ) :
    ∀ (fuel t : ℕ) (a : List ℚ) (b e i : ℕ),
      b ≤ e → e < a.length → i ≤ e - b → e - b < fuel →
      _randomizedSelect (fun (r : ℕ) k => decide (r < k)) (fun r k => r - k)
        rand fuel t a b e i = some ((sortedAsc (window a b e)).getD i 0) := by
  intro fuel
  induction fuel with
  | zero =>
    intro t a b e i hbe he hi hf
    omega
  | succ fuel ih =>
    intro t a b e i hbe he hi hf
    rw [_randomizedSelect]
    by_cases heq : b = e
    · rw [if_pos heq]
      subst heq
      rw [window_singleton he]
      rw [List.perm_singleton.mp (sortedAsc_perm [a.getD b 0])]
      rw [show i = 0 by omega]
      rfl
    · rw [if_neg heq]
      have hbe' : b < e := by omega
      obtain ⟨hp1, hp2, hp3, hp4, x, hlow, hhigh⟩ :=
        randomizedPartition_spec rand t a b e hbe' he
      dsimp only
      set pr := _randomizedPartition rand t a b e with hpr
      set q : ℕ := pr.2.toNat with hq
      have hqz : pr.2 = (q : ℤ) := by omega
      have hbq : b ≤ q := by omega
      have hqe : q < e := by omega
      have hk : (pr.2 - (b : ℤ) + 1).toNat = q + 1 - b := by omega
      have heq1 : e < pr.1.length := by omega
      have hq1 : q < pr.1.length := by omega
      have hsplit := window_split q hbq hqe (a := pr.1)
      have hcross : ∀ u ∈ window pr.1 b q, ∀ v ∈ window pr.1 (q + 1) e,
          u ≤ v := by
        intro u hu v hv
        obtain ⟨mu, h1, h2, h3⟩ := (mem_window hq1).mp hu
        obtain ⟨mv, h4, h5, h6⟩ := (mem_window heq1).mp hv
        have hux : u ≤ x := by
          rw [← h3]
          have := hlow (mu : ℤ) (by omega) (by omega)
          unfold pget at this
          rw [Int.toNat_natCast] at this
          exact this
        have hxv : x ≤ v := by
          rw [← h6]
          have := hhigh (mv : ℤ) (by omega) (by omega)
          unfold pget at this
          rw [Int.toNat_natCast] at this
          exact this
        exact le_trans hux hxv
      have hsorteq : sortedAsc (window a b e) =
          sortedAsc (window pr.1 b q) ++ sortedAsc (window pr.1 (q + 1) e) := by
        rw [← sortedAsc_append hcross, ← hsplit]
        exact sortedAsc_congr hp2.symm
      rw [hsorteq]
      have hlen1 : (sortedAsc (window pr.1 b q)).length = q + 1 - b := by
        rw [(sortedAsc_perm _).length_eq, window_length hbq hq1]
      by_cases hik : i < q + 1 - b
      · rw [if_pos (by rw [hk]; exact decide_eq_true hik)]
        rw [ih (t + 1) pr.1 b q i (by omega) hq1 (by omega) (by omega)]
        rw [getD_append_left (by rw [hlen1]; omega)]
      · rw [if_neg (by rw [hk]; simp [hik])]
        rw [hk]
        rw [ih (t + 1) pr.1 (q + 1) e (i - (q + 1 - b)) (by omega) heq1
          (by omega) (by omega)]
        rw [getD_append_right2 _ _ i (by rw [hlen1]; omega), hlen1]

theorem randomizedSelect_rank_three (rand : ℕ → ℕ) (fuel : ℕ)
    (hfuel : 4 < fuel) :
    _randomizedSelect (fun (r : ℕ) k => decide (r < k)) (fun r k => r - k)
      rand fuel 0 [9,1,5,3,7] 0 4 3 = some 7 ∧
    _randomizedSelect (fun (r : ℕ) k => decide (r < k)) (fun r k => r - k)
      rand fuel 0 [9,1,5,3,7] 0 4 2 = some 5 := by
  have hsort : sortedAsc (window [9,1,5,3,7] 0 4) = [1,3,5,7,9] := by
    refine List.eq_of_perm_of_sorted ?_ (sortedAsc_sorted _) (by decide)
    refine (sortedAsc_perm _).trans ?_
    rw [show window [9,1,5,3,7] 0 4 = [9,1,5,3,7] from rfl]
    decide
  constructor
  · rw [randomizedSelect_correct rand fuel 0 [9,1,5,3,7] 0 4 3 (by omega)
      (by norm_num) (by omega) (by omega), hsort]
    rfl
  · rw [randomizedSelect_correct rand fuel 0 [9,1,5,3,7] 0 4 2 (by omega)
      (by norm_num) (by omega) (by omega), hsort]
    rfl

theorem randomizedSelect_rank_three_witness :
    4 < 5 ∧
    (_randomizedSelect (fun (r : ℕ) k => decide (r < k)) (fun r k => r - k)
      (fun _ => 0) 5 0 [9,1,5,3,7] 0 4 3 = some 7 ∧
    _randomizedSelect (fun (r : ℕ) k => decide (r < k)) (fun r k => r - k)
      (fun _ => 0) 5 0 [9,1,5,3,7] 0 4 2 = some 5) :=
  ⟨by decide, randomizedSelect_rank_three (fun _ => 0) 5 (by decide)⟩

theorem randomizedSelect_claim_counterexample :
    _randomizedSelect (fun (r : ℕ) k => decide (r < k)) (fun r k => r - k)
      (fun _ => 0) 5 0 [9,1,5,3,7] 0 4 3 = some 7 ∧ (7 : ℚ) ≠ 5 := by
  constructor
  · decide
  · decide

/-! ### `selSPEA2` (claim C2) -/

/-- Set entry `(i, j)` of a matrix stored as a list of rows. -/
def mset {β : Type} (M : List (List β)) (i j : ℕ) (v : β) : List (List β) :=
  M.set i ((M.getD i []).set j v)

/-- `dist = Σ_k (vals[i][k] - vals[j][k])²`, the accumulation loop over the
`L` objectives. -/
def spea2Dist (vals : List Fitvals) (Lnum i j : ℕ) : ℚ :=
  (List.range Lnum).foldl
    (fun d k =>
      let v := (vals.getD i []).getD k 0 - (vals.getD j []).getD k 0
      d + v * v) 0

/-- The `distances` array built for row `i` of the density loop. -/
def spea2DistRow (vals : List Fitvals) (Lnum N i : ℕ) : List ℚ :=
  (List.range' (i + 1) (N - (i + 1))).foldl
    (fun ds j => ds.set j (spea2Dist vals Lnum i j)) (List.replicate N 0)

/-- The rank argument `K = math.sqrt(N)` of the k-th-distance selection,
represented exactly: the pair `(N, m)` stands for `√N - m`, and the only
operations the selection performs on it are `K < k` (an integer comparison,
`N < (k+m)²`) and `K - k`. -/
def sqrtLt : ℕ × ℕ → ℕ → Bool := fun r k => decide (r.1 < (k + r.2) * (k + r.2))

def sqrtSub : ℕ × ℕ → ℕ → ℕ × ℕ := fun r k => (r.1, r.2 + k)

/-- `density = 1.0 / (kth_dist + 2.0)` for individual `i`. -/
def spea2Density (rand : ℕ → ℕ) (vals : List Fitvals) (Lnum N i : ℕ) : ℚ :=
  let distances := spea2DistRow vals Lnum N i
  let kth_dist := (_randomizedSelect sqrtLt sqrtSub rand (N + 1) 0 distances
    0 (N - 1) (N, 0)).getD 0
  1 / (kth_dist + 2)

/-- The density-augmented fitness values of the under-full branch; the random
source is modelled with one pivot stream per selection call. -/
def spea2NewFits (rand : ℕ → ℕ → ℕ) (vals : List Fitvals) (Lnum : ℕ) :
    List ℚ :=
  (List.range vals.length).foldl
    (fun fs i => fs.set i
      (fs.getD i 0 + spea2Density (rand i) vals Lnum vals.length i))
    ((spea2Fits vals).map fun m => (m : ℚ))

/-- Python tuple comparison on `(fits[i], i)` pairs. -/
def pairLe : ℚ × ℕ → ℚ × ℕ → Bool := fun u v =>
  decide (u.1 < v.1 ∨ (u.1 = v.1 ∧ u.2 ≤ v.2))

/-- The indices appended in the under-full branch: the non-chosen indices
sorted by density-augmented fitness, cut to the missing count. -/
def spea2Next (rand : ℕ → ℕ → ℕ) (vals : List Fitvals) (Lnum n : ℕ) :
    List ℕ :=
  let fits := spea2NewFits rand vals Lnum
  let chosen := spea2ChosenIndices vals
  let next_indices := ((List.range vals.length).filter fun i =>
    !(chosen.contains i)).map fun i => (fits.getD i 0, i)
  ((next_indices.mergeSort pairLe).take (n - chosen.length)).map Prod.snd

/-- The symmetric distance matrix of the over-full branch, with `-1` on the
diagonal; `float("inf")` markers appear later, so entries live in
`WithTop ℚ`. -/
def spea2Distances (vals : List Fitvals) (Lnum : ℕ) (ch : List ℕ) :
    List (List (WithTop ℚ)) :=
  let N' := ch.length
  (List.range N').foldl
    (fun D i =>
      let D := (List.range' (i + 1) (N' - (i + 1))).foldl
        (fun D j =>
          let dist : WithTop ℚ :=
            ((spea2Dist vals Lnum (ch.getD i 0) (ch.getD j 0) : ℚ) : WithTop ℚ)
          mset (mset D i j dist) j i dist) D
      mset D i i (((-1 : ℚ) : WithTop ℚ)))
    (List.replicate N' (List.replicate N' ((0 : ℚ) : WithTop ℚ)))

/-- The inner `while k > 0 and distances[i][j] < distances[i][s[k-1]]` shift
loop of the insertion sort; the argument of the recursion is the running
`k`. -/
def insShift (key : ℕ → WithTop ℚ) (j : ℕ) : ℕ → List ℕ → List ℕ
  | 0, Si => Si.set 0 j
  | k + 1, Si =>
    if key j < key (Si.getD k 0) then
      insShift key j k (Si.set (k + 1) (Si.getD k 0))
    else Si.set (k + 1) j

/-- `sorted_indices`: each row insertion-sorted by the distances of its
row. -/
def spea2SortedIndices (D : List (List (WithTop ℚ))) (N' : ℕ) :
    List (List ℕ) :=
  (List.range N').foldl
    (fun S i =>
      let row := (List.range' 1 (N' - 1)).foldl
        (fun Si j => insShift (fun p => (D.getD i []).getD p 0) j j Si)
        (List.replicate N' 0)
      S.set i row)
    (List.replicate N' (List.replicate N' 0))

/-- The inner comparison loop of the minimal-distance search: does row `i`
beat the current `min_pos` row `m` at the first differing sorted column? -/
def spea2Beats (D : List (List (WithTop ℚ))) (S : List (List ℕ)) (i m : ℕ) :
    List ℕ → Bool
  | [] => false
  | j :: rest =>
    let di := (D.getD i []).getD ((S.getD i []).getD j 0) 0
    let dm := (D.getD m []).getD ((S.getD m []).getD j 0) 0
    if di < dm then true
    else if dm < di then false
    else spea2Beats D S i m rest

/-- The minimal-distance search over rows `1 .. N'-1`. -/
def spea2MinPos (D : List (List (WithTop ℚ))) (S : List (List ℕ))
    (N' size : ℕ) : ℕ :=
  (List.range' 1 (N' - 1)).foldl
    (fun m i =>
      if spea2Beats D S i m (List.range' 1 (size - 1)) then i else m) 0

/-- One step of the loop that bubbles the removed index to the end of the
active window of a `sorted_indices` row. -/
def bubbleStep (m : ℕ) (Si : List ℕ) (j : ℕ) : List ℕ :=
  if Si.getD j 0 == m then (Si.set j (Si.getD (j + 1) 0)).set (j + 1) m else Si

/-- The removal pass: mark row and column `m` of `distances` with infinity
and bubble `m` past the active window in every `sorted_indices` row. -/
def spea2Remove (D : List (List (WithTop ℚ))) (S : List (List ℕ))
    (N' size m : ℕ) : List (List (WithTop ℚ)) × List (List ℕ) :=
  (List.range N').foldl
    (fun DS i =>
      (mset (mset DS.1 i m ⊤) m i ⊤,
       DS.2.set i ((List.range' 1 (size - 2)).foldl
         (fun Si j => bubbleStep m Si j) (DS.2.getD i []))))
    (D, S)

/-- The `while size > n` trimming loop; one iteration removes one index, so
the initial fuel `N'` always suffices. -/
def spea2TrimLoop (n N' : ℕ) :
    ℕ → List (List (WithTop ℚ)) × List (List ℕ) → ℕ → List ℕ → List ℕ
  | 0, _, _, tr => tr
  | fuel + 1, DS, size, tr =>
    if n < size then
      let m := spea2MinPos DS.1 DS.2 N' size
      spea2TrimLoop n N' fuel (spea2Remove DS.1 DS.2 N' size m) (size - 1)
        (tr ++ [m])
    else tr

/-- The over-full branch: build the matrices, remove nearest neighbours
until `n` remain, and delete the removed positions in descending order. -/
def spea2Trim (vals : List Fitvals) (Lnum : ℕ) (ch : List ℕ) (n : ℕ) :
    List ℕ :=
  let N' := ch.length
  let D := spea2Distances vals Lnum ch
  let S := spea2SortedIndices D N'
  let to_remove := spea2TrimLoop n N' N' (D, S) N' []
  ((to_remove.mergeSort fun u v => decide (u ≤ v)).reverse).foldl
    (fun l (idx : ℕ) => pyDel l (idx : ℤ)) ch

/-- `selSPEA2(individuals, n)`.  The source reads `individuals[0]` before
anything else, so an empty population raises; the claims only concern
`1 ≤ n ≤ len(individuals)`, and the empty case is mapped to `[]`. -/
def selSPEA2 {α : Type} (rand : ℕ → ℕ → ℕ) (fit : α → List ℚ)
    (individuals : List α) (n : ℕ) : List α :=
  match individuals with
  | [] => []
  | i0 :: _ =>
    let vals := individuals.map fit
    let Lnum := (fit i0).length
    let chosen := spea2ChosenIndices vals
    let chosen_indices :=
      if chosen.length < n then chosen ++ spea2Next rand vals Lnum n
      else if n < chosen.length then spea2Trim vals Lnum chosen n
      else chosen
    chosen_indices.map fun i => individuals.getD i i0

theorem length_filter_not {β : Type} (p : β → Bool) :
    ∀ l : List β, (l.filter p).length + (l.filter fun x => !(p x)).length =
      l.length := by
  intro l
  induction l with
  | nil => rfl
  | cons a t ih =>
    rw [List.filter_cons, List.filter_cons]
    by_cases h : p a = true
    · simp only [h, if_true, Bool.not_true, Bool.false_eq_true, if_false]
      rw [List.length_cons, List.length_cons]
      omega
    · rw [Bool.not_eq_true] at h
      simp only [h, Bool.false_eq_true, if_false, Bool.not_false, if_true]
      rw [List.length_cons, List.length_cons]
      omega

theorem spea2Chosen_nodup (vals : List Fitvals) :
    (spea2ChosenIndices vals).Nodup :=
  List.Nodup.filter _ (List.nodup_range _)

theorem spea2Chosen_lt {vals : List Fitvals} {i : ℕ}
    (h : i ∈ spea2ChosenIndices vals) : i < vals.length := by
  unfold spea2ChosenIndices at h
  rw [List.mem_filter, List.mem_range] at h
  exact h.1

/-- The under-full branch appends exactly `n - c` fresh valid indices. -/
theorem spea2Next_spec (rand : ℕ → ℕ → ℕ) (vals : List Fitvals) (Lnum n : ℕ)
    (hcn : (spea2ChosenIndices vals).length < n) (hnN : n ≤ vals.length) :
    (spea2Next rand vals Lnum n).Nodup ∧
    (∀ i ∈ spea2Next rand vals Lnum n,
      i < vals.length ∧ i ∉ spea2ChosenIndices vals) ∧
    (spea2Next rand vals Lnum n).length =
      n - (spea2ChosenIndices vals).length := by
  have hout : spea2Next rand vals Lnum n =
      (((((List.range vals.length).filter fun i =>
        !((spea2ChosenIndices vals).contains i)).map fun i =>
          ((spea2NewFits rand vals Lnum).getD i 0, i)).mergeSort
        pairLe).take (n - (spea2ChosenIndices vals).length)).map
        Prod.snd := rfl
  set base := (List.range vals.length).filter fun i =>
    !((spea2ChosenIndices vals).contains i) with hbase
  set pairs := base.map fun i =>
    ((spea2NewFits rand vals Lnum).getD i 0, i) with hpairs
  have hsnd : (pairs.map Prod.snd) = base := by
    rw [hpairs, List.map_map]
    have hcomp : (Prod.snd ∘ fun i : ℕ =>
        ((spea2NewFits rand vals Lnum).getD i 0, i)) = fun i : ℕ => i := rfl
    rw [hcomp]
    exact List.map_id' base
  have hbnd : base.Nodup := List.Nodup.filter _ (List.nodup_range _)
  have hbmem : ∀ i ∈ base, i < vals.length ∧ i ∉ spea2ChosenIndices vals := by
    intro i hi
    rw [hbase, List.mem_filter, List.mem_range] at hi
    refine ⟨hi.1, ?_⟩
    intro hmem
    have := hi.2
    rw [Bool.not_eq_true', ← Bool.not_eq_true] at this
    exact this (List.elem_iff.mpr hmem)
  have hch : spea2ChosenIndices vals = (List.range vals.length).filter
      fun i => decide ((spea2Fits vals).getD i 0 < 1) := rfl
  have hq : ∀ i ∈ List.range vals.length,
      ((!((spea2ChosenIndices vals).contains i)) =
        (!(decide ((spea2Fits vals).getD i 0 < 1)))) := by
    intro i hi
    congr 1
    rw [Bool.eq_iff_iff]
    constructor
    · intro h
      have hm := List.elem_iff.mp h
      rw [hch, List.mem_filter] at hm
      exact hm.2
    · intro h
      refine List.elem_iff.mpr ?_
      rw [hch, List.mem_filter]
      exact ⟨hi, h⟩
  have hcongr : base = (List.range vals.length).filter fun i =>
      !(decide ((spea2Fits vals).getD i 0 < 1)) := by
    rw [hbase]
    exact List.filter_congr hq
  have hblen : base.length =
      vals.length - (spea2ChosenIndices vals).length := by
    have htot := length_filter_not
      (fun i => decide ((spea2Fits vals).getD i 0 < 1))
      (List.range vals.length)
    rw [← hch, List.length_range] at htot
    rw [hcongr]
    omega
  set sorted := pairs.mergeSort pairLe with hsortdef
  have hperm : sorted.Perm pairs := List.mergeSort_perm pairs pairLe
  have hsndperm : (sorted.map Prod.snd).Perm base := by
    rw [← hsnd]
    exact hperm.map _
  have hsndnd : (sorted.map Prod.snd).Nodup :=
    hsndperm.symm.nodup hbnd
  have hnexteq : spea2Next rand vals Lnum n =
      (sorted.map Prod.snd).take
        (n - (spea2ChosenIndices vals).length) := by
    rw [hout, ← List.map_take]
  rw [hnexteq]
  refine ⟨?_, ?_, ?_⟩
  · exact hsndnd.sublist (List.take_sublist _ _)
  · intro i hi
    have : i ∈ sorted.map Prod.snd := (List.take_sublist _ _).mem hi
    exact hbmem i (hsndperm.subset this)
  · rw [List.length_take, List.length_map, hperm.length_eq, hpairs,
      List.length_map, hblen]
    omega

/-! #### The trimming matrices -/

/-- Entry `(p, q)` of a distance matrix. -/
def ent (D : List (List (WithTop ℚ))) (p q : ℕ) : WithTop ℚ :=
  (D.getD p []).getD q 0

/-- A well-formed `N' × N'` matrix. -/
def MatDim {β : Type} (M : List (List β)) (N' : ℕ) : Prop :=
  M.length = N' ∧ ∀ r ∈ M, r.length = N'

theorem mset_dim {β : Type} {M : List (List β)} {N' i j : ℕ} {v : β}
    (hdim : MatDim M N') (hi : i < N') : MatDim (mset M i j v) N' := by
  obtain ⟨hlen, hrows⟩ := hdim
  constructor
  · rw [mset, List.length_set, hlen]
  · intro r hr
    rcases List.mem_or_eq_of_mem_set hr with h | h
    · exact hrows r h
    · rw [h, List.length_set]
      refine hrows _ ?_
      rw [List.getD_eq_getElem?_getD, List.getElem?_eq_getElem
        (by rw [hlen]; exact hi)]
      exact List.getElem_mem _

theorem getD_row {β : Type} {M : List (List β)} {N' : ℕ}
    (hdim : MatDim M N') {p : ℕ} (hp : p < N') :
    (M.getD p []).length = N' := by
  obtain ⟨hlen, hrows⟩ := hdim
  rw [List.getD_eq_getElem?_getD, List.getElem?_eq_getElem
    (by rw [hlen]; exact hp)]
  exact hrows _ (List.getElem_mem _)

theorem ent_mset {M : List (List (WithTop ℚ))} {N' i j : ℕ}
    {v : WithTop ℚ} (hdim : MatDim M N') (hi : i < N') (hj : j < N')
    (p q : ℕ) :
    ent (mset M i j v) p q = if p = i ∧ q = j then v else ent M p q := by
  unfold ent mset
  by_cases hp : p = i
  · subst hp
    rw [getD_set_eq _ (by rw [hdim.1]; exact hi)]
    by_cases hq : q = j
    · subst hq
      rw [if_pos ⟨rfl, rfl⟩]
      exact getD_set_eq _ (by rw [getD_row hdim hi]; exact hj) _ _
    · rw [if_neg (by tauto)]
      exact getD_set_ne2 _ (fun h => hq h.symm) _ _
  · rw [if_neg (by tauto)]
    rw [getD_set_ne2 _ (fun h => hp h.symm)]

theorem spea2Dist_nonneg (vals : List Fitvals) (Lnum i j : ℕ) :
    0 ≤ spea2Dist vals Lnum i j := by
  unfold spea2Dist
  refine foldl_preserve _ _ _ ?_ (le_refl 0)
  intro d k _ hd
  have : 0 ≤ ((vals.getD i []).getD k 0 - (vals.getD j []).getD k 0) *
      ((vals.getD i []).getD k 0 - (vals.getD j []).getD k 0) :=
    mul_self_nonneg _
  dsimp only
  linarith

/-- The distance-matrix invariant: well-formed, every entry finite,
off-diagonal entries nonnegative, diagonal `-1` on the first `t` rows. -/
def DInv (N' t : ℕ) (D : List (List (WithTop ℚ))) : Prop :=
  MatDim D N' ∧ ∀ p, p < N' → ∀ q, q < N' →
    ent D p q < ⊤ ∧ (p ≠ q → 0 ≤ ent D p q) ∧
    (p = q → p < t → ent D p q = ((-1 : ℚ) : WithTop ℚ))

theorem spea2Distances_spec (vals : List Fitvals) (Lnum : ℕ) (ch : List ℕ) :
    DInv ch.length ch.length (spea2Distances vals Lnum ch) := by
  set N' := ch.length with hN'
  have hstep : ∀ (t : ℕ) (D : List (List (WithTop ℚ))), t < N' → DInv N' t D →
      DInv N' (t + 1)
        (mset ((List.range' (t + 1) (N' - (t + 1))).foldl
          (fun D j =>
            let dist : WithTop ℚ :=
              ((spea2Dist vals Lnum (ch.getD t 0) (ch.getD j 0) : ℚ) :
                WithTop ℚ)
            mset (mset D t j dist) j t dist) D) t t
          (((-1 : ℚ) : WithTop ℚ))) := by
    intro t D ht hD
    have hjfold : DInv N' t ((List.range' (t + 1) (N' - (t + 1))).foldl
        (fun D j =>
          let dist : WithTop ℚ :=
            ((spea2Dist vals Lnum (ch.getD t 0) (ch.getD j 0) : ℚ) :
              WithTop ℚ)
          mset (mset D t j dist) j t dist) D) := by
      refine foldl_preserve (P := DInv N' t) _ _ _ ?_ hD
      intro D j hj hDt
      rw [List.mem_range'_1] at hj
      have hjN : j < N' := by omega
      have htj : t ≠ j := by omega
      obtain ⟨hdim, hent⟩ := hDt
      have hdim1 : MatDim (mset D t j
          (((spea2Dist vals Lnum (ch.getD t 0) (ch.getD j 0) : ℚ) :
            WithTop ℚ))) N' := mset_dim hdim ht
      dsimp only
      refine ⟨mset_dim hdim1 hjN, ?_⟩
      intro p hp q hq
      rw [ent_mset hdim1 hjN ht p q, ent_mset hdim ht hjN p q]
      have hnn : (0 : WithTop ℚ) ≤
          ((spea2Dist vals Lnum (ch.getD t 0) (ch.getD j 0) : ℚ) :
            WithTop ℚ) := by
        exact_mod_cast spea2Dist_nonneg vals Lnum _ _
      by_cases h1 : p = j ∧ q = t
      · rw [if_pos h1]
        refine ⟨WithTop.coe_lt_top _, fun _ => hnn, ?_⟩
        intro hpq _
        exact absurd (h1.1 ▸ h1.2 ▸ hpq : j = t) (fun h => htj h.symm)
      · rw [if_neg h1]
        by_cases h2 : p = t ∧ q = j
        · rw [if_pos h2]
          refine ⟨WithTop.coe_lt_top _, fun _ => hnn, ?_⟩
          intro hpq _
          exact absurd (h2.1 ▸ h2.2 ▸ hpq : t = j) htj
        · rw [if_neg h2]
          exact hent p hp q hq
    obtain ⟨hdim, hent⟩ := hjfold
    refine ⟨mset_dim hdim ht, ?_⟩
    intro p hp q hq
    rw [ent_mset hdim ht ht p q]
    by_cases h1 : p = t ∧ q = t
    · rw [if_pos h1]
      refine ⟨WithTop.coe_lt_top _, ?_, fun _ _ => rfl⟩
      intro hpq
      exact absurd (h1.1.trans h1.2.symm) hpq
    · rw [if_neg h1]
      obtain ⟨he1, he2, he3⟩ := hent p hp q hq
      refine ⟨he1, he2, ?_⟩
      intro hpq hpt
      rcases Nat.lt_or_ge p t with hlt | hge
      · exact he3 hpq hlt
      · exact absurd ⟨by omega, by omega⟩ h1
  have hfold : ∀ (cnt t : ℕ) (D : List (List (WithTop ℚ))),
      t + cnt ≤ N' → DInv N' t D →
      DInv N' (t + cnt) ((List.range' t cnt).foldl
        (fun D i =>
          mset ((List.range' (i + 1) (N' - (i + 1))).foldl
            (fun D j =>
              let dist : WithTop ℚ :=
                ((spea2Dist vals Lnum (ch.getD i 0) (ch.getD j 0) : ℚ) :
                  WithTop ℚ)
              mset (mset D i j dist) j i dist) D) i i
            (((-1 : ℚ) : WithTop ℚ))) D) := by
    intro cnt
    induction cnt with
    | zero =>
      intro t D _ hD
      exact hD
    | succ cnt ih =>
      intro t D hcnt hD
      rw [List.range'_succ, List.foldl_cons]
      have h1 := hstep t D (by omega) hD
      have := ih (t + 1) _ (by omega) h1
      rw [show t + (cnt + 1) = t + 1 + cnt by omega]
      exact this
  have hinit : DInv N' 0
      (List.replicate N' (List.replicate N' ((0 : ℚ) : WithTop ℚ))) := by
    constructor
    · constructor
      · rw [List.length_replicate]
      · intro r hr
        rw [List.eq_of_mem_replicate hr, List.length_replicate]
    · intro p hp q hq
      have hrow : (List.replicate N'
          (List.replicate N' ((0 : ℚ) : WithTop ℚ))).getD p [] =
          List.replicate N' ((0 : ℚ) : WithTop ℚ) := by
        rw [getD_of_lt _ _ (by rw [List.length_replicate]; exact hp),
          List.getElem_replicate]
      have hent : ent (List.replicate N'
          (List.replicate N' ((0 : ℚ) : WithTop ℚ))) p q =
          ((0 : ℚ) : WithTop ℚ) := by
        unfold ent
        rw [hrow, getD_of_lt _ _ (by rw [List.length_replicate]; exact hq),
          List.getElem_replicate]
      rw [hent]
      refine ⟨WithTop.coe_lt_top _, fun _ => le_refl _, ?_⟩
      intro _ h
      omega
  have := hfold N' 0 _ (by omega) hinit
  rw [← List.range_eq_range', Nat.zero_add] at this
  unfold spea2Distances
  dsimp only
  exact this

/-! #### The insertion sort of `sorted_indices` rows -/

theorem insShift_spec (key : ℕ → WithTop ℚ) (j : ℕ) :
    ∀ (k : ℕ) (Si : List ℕ), k < Si.length →
      ∃ t, t ≤ k ∧
        insShift key j k Si =
          Si.take t ++ j :: ((Si.drop t).take (k - t)) ++ Si.drop (k + 1) ∧
        (t = 0 → k = 0 ∨ key j < key (Si.getD 0 0)) := by
  intro k
  induction k with
  | zero =>
    intro Si hk
    refine ⟨0, le_refl 0, ?_, fun _ => Or.inl rfl⟩
    rw [insShift, List.set_eq_take_append_cons_drop, if_pos hk]
    simp
  | succ k ih =>
    intro Si hk
    rw [insShift]
    by_cases hc : key j < key (Si.getD k 0)
    · rw [if_pos hc]
      have hlen : k < (Si.set (k + 1) (Si.getD k 0)).length := by
        rw [List.length_set]
        omega
      obtain ⟨t, ht, heq, ht0⟩ := ih (Si.set (k + 1) (Si.getD k 0)) hlen
      refine ⟨t, by omega, ?_, ?_⟩
      · rw [heq]
        have h1 : (Si.set (k + 1) (Si.getD k 0)).take t = Si.take t := by
          rw [List.set_take, List.set_eq_of_length_le]
          rw [List.length_take]
          omega
        have h2 : ((Si.set (k + 1) (Si.getD k 0)).drop t).take (k - t) =
            (Si.drop t).take (k - t) := by
          rw [List.drop_set, if_neg (by omega), List.set_take,
            List.set_eq_of_length_le]
          rw [List.length_take]
          omega
        have h3 : (Si.set (k + 1) (Si.getD k 0)).drop (k + 1) =
            Si.getD k 0 :: Si.drop (k + 2) := by
          rw [List.drop_set, if_neg (by omega)]
          rw [show k + 1 - (k + 1) = 0 by omega]
          have hne : Si.drop (k + 1) ≠ [] := by
            intro h
            have hl := List.length_drop (k + 1) Si
            rw [h] at hl
            simp at hl
            omega
          cases hd : Si.drop (k + 1) with
          | nil => exact absurd hd hne
          | cons a rest =>
            rw [List.set_cons_zero]
            congr 1
            have hrest : (Si.drop (k + 1)).drop 1 = rest := by
              rw [hd]
              rfl
            rw [List.drop_drop] at hrest
            exact hrest.symm
        rw [h1, h2, h3]
        have h4 : (Si.drop t).take (k + 1 - t) =
            (Si.drop t).take (k - t) ++ [Si.getD k 0] := by
          rw [show k + 1 - t = (k - t) + 1 by omega, List.take_succ]
          congr 1
          rw [List.getElem?_drop, show t + (k - t) = k by omega,
            List.getElem?_eq_getElem (show k < Si.length by omega),
            getD_of_lt _ _ (show k < Si.length by omega)]
          rfl
        rw [h4]
        simp [List.append_assoc]
      · intro h0
        rcases ht0 h0 with h | h
        · subst h
          exact Or.inr hc
        · right
          rwa [getD_set_ne2 _ (by omega)] at h
    · rw [if_neg hc]
      refine ⟨k + 1, le_refl _, ?_, by omega⟩
      rw [List.set_eq_take_append_cons_drop, if_pos hk]
      rw [show k + 1 - (k + 1) = 0 by omega]
      simp

theorem insShift_all (key : ℕ → WithTop ℚ) (j : ℕ) :
    ∀ (k : ℕ) (Si : List ℕ), 0 < Si.length →
      (∀ p, p < k → key j < key (Si.getD p 0)) →
      (insShift key j k Si).getD 0 0 = j := by
  intro k
  induction k with
  | zero =>
    intro Si h0 _
    rw [insShift]
    exact getD_set_eq _ h0 _ _
  | succ k ih =>
    intro Si h0 hall
    rw [insShift, if_pos (hall k (by omega))]
    refine ih _ (by rw [List.length_set]; exact h0) ?_
    intro p hp
    rw [getD_set_ne2 _ (by omega)]
    exact hall p (by omega)

theorem getD_take {α : Type} {l : List α} {t p : ℕ} (h : p < t) (d : α) :
    (l.take t).getD p d = l.getD p d := by
  rw [List.getD_eq_getElem?_getD, List.getElem?_take_of_lt h,
    ← List.getD_eq_getElem?_getD]

theorem insRow_spec (key : ℕ → WithTop ℚ) (N' i : ℕ) (hi : i < N')
    (hself : key i = ((-1 : ℚ) : WithTop ℚ))
    (hother : ∀ p, p < N' → p ≠ i → 0 ≤ key p) :
    ((List.range' 1 (N' - 1)).foldl
      (fun Si j => insShift key j j Si) (List.replicate N' 0)).Perm
        (List.range N') ∧
    ((List.range' 1 (N' - 1)).foldl
      (fun Si j => insShift key j j Si) (List.replicate N' 0)).getD 0 0 = i ∧
    ((List.range' 1 (N' - 1)).foldl
      (fun Si j => insShift key j j Si) (List.replicate N' 0)).length = N' := by
  have hm1 : ((-1 : ℚ) : WithTop ℚ) < (0 : WithTop ℚ) := by
    exact_mod_cast (by norm_num : (-1 : ℚ) < 0)
  have hkeylt : ∀ v, v < N' → v ≠ i → key i < key v := by
    intro v hv hvi
    rw [hself]
    exact lt_of_lt_of_le hm1 (hother v hv hvi)
  have hmain : ∀ (cnt j₀ : ℕ) (Si : List ℕ), 1 ≤ j₀ → j₀ + cnt ≤ N' →
      Si.length = N' → (Si.take j₀).Perm (List.range j₀) →
      (i < j₀ → Si.getD 0 0 = i) →
      ((List.range' j₀ cnt).foldl (fun Si j => insShift key j j Si) Si).length
        = N' ∧
      (((List.range' j₀ cnt).foldl (fun Si j => insShift key j j Si) Si).take
        (j₀ + cnt)).Perm (List.range (j₀ + cnt)) ∧
      (i < j₀ + cnt →
        ((List.range' j₀ cnt).foldl
          (fun Si j => insShift key j j Si) Si).getD 0 0 = i) := by
    intro cnt
    induction cnt with
    | zero =>
      intro j₀ Si h1 hle hlen hperm hhead
      rw [show List.range' j₀ 0 = [] from rfl, List.foldl_nil, Nat.add_zero]
      exact ⟨hlen, hperm, hhead⟩
    | succ cnt ih =>
      intro j₀ Si h1 hle hlen hperm hhead
      rw [List.range'_succ, List.foldl_cons]
      have hjlt : j₀ < Si.length := by omega
      obtain ⟨t, ht, heq, ht0⟩ := insShift_spec key j₀ j₀ Si hjlt
      have hlen' : (insShift key j₀ j₀ Si).length = N' := by
        rw [heq]
        rw [List.length_append, List.length_append, List.length_cons,
          List.length_take, List.length_take, List.length_drop,
          List.length_drop]
        omega
      have hA : (insShift key j₀ j₀ Si).take (j₀ + 1) =
          Si.take t ++ j₀ :: (Si.drop t).take (j₀ - t) := by
        rw [heq, show Si.take t ++ j₀ ::
          ((Si.drop t).take (j₀ - t)) ++ Si.drop (j₀ + 1) =
          (Si.take t ++ j₀ :: (Si.drop t).take (j₀ - t)) ++
            Si.drop (j₀ + 1) by rw [List.append_assoc]]
        have hlA : (Si.take t ++ j₀ :: (Si.drop t).take (j₀ - t)).length =
            j₀ + 1 := by
          rw [List.length_append, List.length_cons, List.length_take,
            List.length_take, List.length_drop]
          omega
        rw [← hlA]
        exact List.take_left _ _
      have hperm' : ((insShift key j₀ j₀ Si).take (j₀ + 1)).Perm (List.range (j₀ + 1)) := by
        rw [hA]
        refine List.Perm.trans List.perm_middle ?_
        rw [show Si.take t ++ (Si.drop t).take (j₀ - t) =
          Si.take j₀ by
            rw [← List.take_add, show t + (j₀ - t) = j₀ by omega]]
        rw [List.range_succ]
        exact (hperm.cons j₀).trans
          (List.perm_append_singleton j₀ (List.range j₀)).symm
      have hhead' : i < j₀ + 1 → (insShift key j₀ j₀ Si).getD 0 0 = i := by
        intro hij
        rcases Nat.lt_or_ge i j₀ with hilt | hige
        · have hne0 : t ≠ 0 := by
            intro h0
            rcases ht0 h0 with hj0 | hkey
            · omega
            · rw [hhead hilt, hself] at hkey
              have h0le : (0 : WithTop ℚ) ≤ key j₀ :=
                hother j₀ (by omega) (by omega)
              exact absurd (lt_of_le_of_lt h0le (lt_trans hkey hm1))
                (lt_irrefl _)
          rw [heq]
          have h0 : (Si.take t ++ j₀ :: (Si.drop t).take (j₀ - t) ++
              Si.drop (j₀ + 1)).getD 0 0 = (Si.take t).getD 0 0 := by
            cases hct : Si.take t with
            | nil =>
              exfalso
              have := List.length_take t Si
              rw [hct] at this
              simp at this
              omega
            | cons a rest => rfl
          rw [h0, getD_take (by omega) 0]
          exact hhead hilt
        · have hieq : i = j₀ := by omega
          rw [← hieq]
          refine insShift_all key i i Si (by omega) ?_
          intro p hp
          have hpl : (Si.take j₀).getD p 0 = Si.getD p 0 :=
            getD_take (by omega) 0
          have hmem : Si.getD p 0 ∈ Si.take j₀ := by
            rw [← hpl]
            rw [List.getD_eq_getElem?_getD, List.getElem?_eq_getElem
              (by rw [List.length_take]; omega : p < (Si.take j₀).length)]
            exact List.getElem_mem _
          have hval : Si.getD p 0 ∈ List.range j₀ := hperm.subset hmem
          rw [List.mem_range] at hval
          refine hkeylt _ (by omega) ?_
          omega
      have hres := ih (j₀ + 1) (insShift key j₀ j₀ Si) (by omega) (by omega) hlen' hperm' hhead'
      rw [show j₀ + (cnt + 1) = j₀ + 1 + cnt by omega]
      exact hres
  have hN1 : 1 ≤ N' := by omega
  have hbase1 : ((List.replicate N' (0 : ℕ)).take 1).Perm (List.range 1) := by
    rw [List.take_replicate, show min 1 N' = 1 by omega,
      show List.replicate 1 (0 : ℕ) = List.range 1 from rfl]
  have hbaseh : i < 1 → (List.replicate N' (0 : ℕ)).getD 0 0 = i := by
    intro h
    rw [getD_replicate N' 0 0]
    omega
  obtain ⟨hl, hp, hh⟩ := hmain (N' - 1) 1 (List.replicate N' 0) (le_refl 1)
    (by omega) (List.length_replicate _ _) hbase1 hbaseh
  rw [show 1 + (N' - 1) = N' by omega] at hp hh
  rw [List.take_of_length_le (le_of_eq hl)] at hp
  exact ⟨hp, hh hi, hl⟩

/-- What the insertion sort guarantees about each `sorted_indices` row:
a permutation of the column indices with the row's own index first. -/
theorem spea2SortedIndices_spec (vals : List Fitvals) (Lnum : ℕ)
    (ch : List ℕ) :
    (spea2SortedIndices (spea2Distances vals Lnum ch) ch.length).length =
      ch.length ∧
    ∀ i, i < ch.length →
      ((spea2SortedIndices (spea2Distances vals Lnum ch) ch.length).getD
        i []).Perm (List.range ch.length) ∧
      ((spea2SortedIndices (spea2Distances vals Lnum ch) ch.length).getD
        i []).getD 0 0 = i ∧
      ((spea2SortedIndices (spea2Distances vals Lnum ch) ch.length).getD
        i []).length = ch.length := by
  set N' := ch.length with hN'
  set D := spea2Distances vals Lnum ch with hD
  obtain ⟨hdim, hent⟩ := spea2Distances_spec vals Lnum ch
  have hrow : ∀ i, i < N' →
      (((List.range' 1 (N' - 1)).foldl
        (fun Si j => insShift (fun p => (D.getD i []).getD p 0) j j Si)
        (List.replicate N' 0)).Perm (List.range N') ∧
      ((List.range' 1 (N' - 1)).foldl
        (fun Si j => insShift (fun p => (D.getD i []).getD p 0) j j Si)
        (List.replicate N' 0)).getD 0 0 = i ∧
      ((List.range' 1 (N' - 1)).foldl
        (fun Si j => insShift (fun p => (D.getD i []).getD p 0) j j Si)
        (List.replicate N' 0)).length = N') := by
    intro i hi
    refine insRow_spec _ N' i hi ?_ ?_
    · exact (hent i hi i hi).2.2 rfl hi
    · intro p hp hpi
      exact (hent i hi p hp).2.1 (fun h => hpi h.symm)
  have hsetfold : ∀ (cnt t : ℕ) (S : List (List ℕ)), t + cnt ≤ N' →
      S.length = N' →
      ((List.range' t cnt).foldl
        (fun S i => S.set i ((List.range' 1 (N' - 1)).foldl
          (fun Si j => insShift (fun p => (D.getD i []).getD p 0) j j Si)
          (List.replicate N' 0))) S).length = N' ∧
      ∀ i, t ≤ i → i < t + cnt →
        ((List.range' t cnt).foldl
          (fun S i => S.set i ((List.range' 1 (N' - 1)).foldl
            (fun Si j => insShift (fun p => (D.getD i []).getD p 0) j j Si)
            (List.replicate N' 0))) S).getD i [] =
          (List.range' 1 (N' - 1)).foldl
            (fun Si j => insShift (fun p => (D.getD i []).getD p 0) j j Si)
            (List.replicate N' 0) := by
    intro cnt
    induction cnt with
    | zero =>
      intro t S _ hS
      refine ⟨hS, ?_⟩
      intro i h1 h2
      omega
    | succ cnt ih =>
      intro t S htc hS
      rw [List.range'_succ, List.foldl_cons]
      obtain ⟨hl, hg⟩ := ih (t + 1)
        (S.set t ((List.range' 1 (N' - 1)).foldl
          (fun Si j => insShift (fun p => (D.getD t []).getD p 0) j j Si)
          (List.replicate N' 0))) (by omega)
        (by rw [List.length_set]; exact hS)
      refine ⟨hl, ?_⟩
      intro i h1 h2
      rcases Nat.lt_or_ge i (t + 1) with hlt | hge
      · have hit : i = t := by omega
        subst hit
        -- the later sets do not touch row i
        have huntouched : ∀ (cnt' t' : ℕ) (S' : List (List ℕ)), i < t' →
            ((List.range' t' cnt').foldl
              (fun S i => S.set i ((List.range' 1 (N' - 1)).foldl
                (fun Si j => insShift (fun p => (D.getD i []).getD p 0) j j
                  Si) (List.replicate N' 0))) S').getD i [] =
              S'.getD i [] := by
          intro cnt'
          induction cnt' with
          | zero =>
            intro t' S' _
            rfl
          | succ cnt' ih' =>
            intro t' S' ht'
            rw [List.range'_succ, List.foldl_cons, ih' (t' + 1) _ (by omega)]
            exact getD_set_ne2 _ (by omega) _ _
        rw [huntouched cnt (i + 1) _ (by omega)]
        exact getD_set_eq _ (by rw [hS]; omega) _ _
      · exact hg i hge (by omega)
  obtain ⟨hlen, hget⟩ := hsetfold N' 0 _ (by omega)
    (List.length_replicate _ _)
  constructor
  · rw [show spea2SortedIndices D N' = (List.range' 0 N').foldl
      (fun S i => S.set i ((List.range' 1 (N' - 1)).foldl
        (fun Si j => insShift (fun p => (D.getD i []).getD p 0) j j Si)
        (List.replicate N' 0))) (List.replicate N' (List.replicate N' 0))
      from by rw [← List.range_eq_range']; rfl]
    exact hlen
  · intro i hi
    rw [show spea2SortedIndices D N' = (List.range' 0 N').foldl
      (fun S i => S.set i ((List.range' 1 (N' - 1)).foldl
        (fun Si j => insShift (fun p => (D.getD i []).getD p 0) j j Si)
        (List.replicate N' 0))) (List.replicate N' (List.replicate N' 0))
      from by rw [← List.range_eq_range']; rfl]
    rw [hget i (by omega) (by omega)]
    exact hrow i hi

/-- The invariant of the trimming loop.  `R` is the list of removed row
indices (`to_remove`); `size` counts the live rows.  Live `sorted_indices`
rows are permutations of the columns, start with their own index, and keep
all removed indices beyond the active window; removed `distances` rows and
columns are infinite while live pairs stay finite. -/
def TrimInv (N' size : ℕ) (R : List ℕ)
    (D : List (List (WithTop ℚ))) (S : List (List ℕ)) : Prop :=
  size + R.length = N' ∧ R.Nodup ∧ (∀ r ∈ R, r < N') ∧
  MatDim D N' ∧ S.length = N' ∧
  (∀ i, i < N' → (S.getD i []).length = N' ∧
    (∀ p, p < N' → (S.getD i []).getD p 0 < N')) ∧
  (∀ i, i < N' → i ∉ R →
    (S.getD i []).Perm (List.range N') ∧
    (S.getD i []).getD 0 0 = i ∧
    (∀ p, size ≤ p → p < N' → (S.getD i []).getD p 0 ∈ R)) ∧
  (∀ i ∈ R, ∀ j, j < N' → ent D i j = ⊤ ∧ ent D j i = ⊤) ∧
  (∀ i, i < N' → i ∉ R → ∀ j, j < N' → j ∉ R → ent D i j < ⊤)

/-- In a live row, every position of the active window holds a live index. -/
theorem trimInv_prefix_live {N' size : ℕ} {R : List ℕ}
    {D : List (List (WithTop ℚ))} {S : List (List ℕ)}
    (h : TrimInv N' size R D S) {i : ℕ} (hi : i < N') (hiR : i ∉ R)
    {p : ℕ} (hp : p < size) :
    (S.getD i []).getD p 0 < N' ∧ (S.getD i []).getD p 0 ∉ R := by
  obtain ⟨hsz, hRnd, hRlt, hDdim, hSlen, hrows, hlive, hrem, hfin⟩ := h
  obtain ⟨hperm, hhead, hsuf⟩ := hlive i hi hiR
  have hrl : (S.getD i []).length = N' := (hrows i hi).1
  have hnd : (S.getD i []).Nodup := hperm.symm.nodup (List.nodup_range _)
  have hpN : p < N' := by omega
  refine ⟨(hrows i hi).2 p hpN, ?_⟩
  intro hmem
  -- the suffix of the row is a permutation of R
  set row := S.getD i [] with hrowdef
  have hdlen : (row.drop size).length = R.length := by
    rw [List.length_drop, hrl]
    omega
  have hdnd : (row.drop size).Nodup := hnd.sublist (List.drop_sublist _ _)
  have hdsub : ∀ x ∈ row.drop size, x ∈ R := by
    intro x hx
    obtain ⟨q, hq, hqx⟩ := List.getElem_of_mem hx
    have hq' : size + q < N' := by
      rw [List.length_drop, hrl] at hq
      omega
    have : row.getD (size + q) 0 = x := by
      rw [getD_of_lt _ _ (by omega), ← hqx, List.getElem_drop]
    rw [← this]
    exact hsuf (size + q) (by omega) hq'
  have hdperm : (row.drop size).Perm R := by
    refine List.Subperm.perm_of_length_le (hdnd.subperm hdsub) ?_
    omega
  -- the window entry would then occur twice in the row
  have hintake : row.getD p 0 ∈ row.take size := by
    have hlt : p < (row.take size).length := by
      rw [List.length_take]
      omega
    rw [← getD_take hp 0, getD_of_lt _ _ hlt]
    exact List.getElem_mem hlt
  have hindrop : row.getD p 0 ∈ row.drop size := hdperm.symm.subset hmem
  have hnd2 := hnd
  rw [← List.take_append_drop size row, List.nodup_append] at hnd2
  exact hnd2.2.2 hintake hindrop

/-- A removed row never wins a comparison. -/
theorem spea2Beats_false {N' size : ℕ} {R : List ℕ}
    {D : List (List (WithTop ℚ))} {S : List (List ℕ)}
    (h : TrimInv N' size R D S) {i : ℕ} (hiR : i ∈ R) (m : ℕ) :
    ∀ js : List ℕ, (∀ j ∈ js, j < N') → spea2Beats D S i m js = false := by
  intro js
  induction js with
  | nil => intro _; rfl
  | cons j rest ih =>
    intro hjs
    obtain ⟨hsz, hRnd, hRlt, hDdim, hSlen, hrows, hlive, hrem, hfin⟩ := h
    have hiN : i < N' := hRlt i hiR
    have hcol : (S.getD i []).getD j 0 < N' :=
      (hrows i hiN).2 j (hjs j (List.mem_cons_self _ _))
    have hdi : ent D i ((S.getD i []).getD j 0) = ⊤ :=
      (hrem i hiR _ hcol).1
    rw [spea2Beats]
    rw [show (D.getD i []).getD ((S.getD i []).getD j 0) 0 =
      ent D i ((S.getD i []).getD j 0) from rfl, hdi]
    rw [if_neg (by exact not_top_lt)]
    by_cases hdm : (D.getD m []).getD ((S.getD m []).getD j 0) 0 < ⊤
    · rw [if_pos hdm]
    · rw [if_neg hdm]
      exact ih fun x hx => hjs x (List.mem_cons_of_mem _ hx)

/-- A live row beats a removed `min_pos` at the first window column. -/
theorem spea2Beats_true {N' size : ℕ} {R : List ℕ}
    {D : List (List (WithTop ℚ))} {S : List (List ℕ)}
    (h : TrimInv N' size R D S) {i m : ℕ} (hi : i < N') (hiR : i ∉ R)
    (hmR : m ∈ R) {j : ℕ} (hj : j < size) (rest : List ℕ) :
    spea2Beats D S i m (j :: rest) = true := by
  obtain ⟨hic, hicR⟩ := trimInv_prefix_live h hi hiR hj
  obtain ⟨hsz, hRnd, hRlt, hDdim, hSlen, hrows, hlive, hrem, hfin⟩ := h
  have hmN : m < N' := hRlt m hmR
  have hcolm : (S.getD m []).getD j 0 < N' :=
    (hrows m hmN).2 j (by omega)
  have hdm : ent D m ((S.getD m []).getD j 0) = ⊤ :=
    (hrem m hmR _ hcolm).1
  have hdi : ent D i ((S.getD i []).getD j 0) < ⊤ :=
    hfin i hi hiR _ hic hicR
  rw [spea2Beats]
  rw [show (D.getD i []).getD ((S.getD i []).getD j 0) 0 =
    ent D i ((S.getD i []).getD j 0) from rfl]
  rw [show (D.getD m []).getD ((S.getD m []).getD j 0) 0 =
    ent D m ((S.getD m []).getD j 0) from rfl, hdm]
  rw [if_pos hdi]

/-- The minimal-distance search lands on a live row. -/
theorem spea2MinPos_live {N' size : ℕ} {R : List ℕ}
    {D : List (List (WithTop ℚ))} {S : List (List ℕ)}
    (h : TrimInv N' size R D S) (hsz : 2 ≤ size) :
    spea2MinPos D S N' size < N' ∧ spea2MinPos D S N' size ∉ R := by
  have hN2 : 2 ≤ N' := by
    obtain ⟨hs, _⟩ := h
    omega
  have hjslt : ∀ j ∈ List.range' 1 (size - 1), j < N' := by
    intro j hj
    rw [List.mem_range'_1] at hj
    obtain ⟨hs, _⟩ := h
    omega
  have hjs1 : List.range' 1 (size - 1) =
      1 :: List.range' 2 (size - 2) := by
    rw [show size - 1 = (size - 2) + 1 by omega, List.range'_succ]
  have hfold : ∀ (cnt t m : ℕ), t + cnt ≤ N' → m < N' →
      (m ∉ R ∨ (m ∈ R ∧ ∀ l, l < t → l ∈ R)) →
      ((List.range' t cnt).foldl
        (fun m i =>
          if spea2Beats D S i m (List.range' 1 (size - 1)) then i else m)
        m) < N' ∧
      (((List.range' t cnt).foldl
        (fun m i =>
          if spea2Beats D S i m (List.range' 1 (size - 1)) then i else m)
        m) ∉ R ∨ ∀ l, l < t + cnt → l ∈ R) := by
    intro cnt
    induction cnt with
    | zero =>
      intro t m hle hm hinv
      rw [show List.range' t 0 = [] from rfl, List.foldl_nil]
      refine ⟨hm, ?_⟩
      rcases hinv with h1 | h1
      · exact Or.inl h1
      · exact Or.inr (by rw [Nat.add_zero]; exact h1.2)
    | succ cnt ih =>
      intro t m hle hm hinv
      rw [List.range'_succ, List.foldl_cons]
      by_cases htR : t ∈ R
      · rw [if_neg (by
          rw [spea2Beats_false h htR m _ hjslt]
          exact Bool.false_ne_true)]
        have := ih (t + 1) m (by omega) hm (by
          rcases hinv with h1 | h1
          · exact Or.inl h1
          · refine Or.inr ⟨h1.1, ?_⟩
            intro l hl
            rcases Nat.lt_or_ge l t with h2 | h2
            · exact h1.2 l h2
            · rw [show l = t by omega]
              exact htR)
        rw [show t + (cnt + 1) = t + 1 + cnt by omega]
        exact this
      · rcases hinv with h1 | h1
        · -- current accumulator live: new accumulator live either way
          have hnext : (if spea2Beats D S t m (List.range' 1 (size - 1))
              then t else m) < N' ∧
              (if spea2Beats D S t m (List.range' 1 (size - 1))
              then t else m) ∉ R := by
            by_cases hb : spea2Beats D S t m (List.range' 1 (size - 1)) = true
            · rw [if_pos hb]
              exact ⟨by omega, htR⟩
            · rw [if_neg hb]
              exact ⟨hm, h1⟩
          have := ih (t + 1) _ (by omega) hnext.1 (Or.inl hnext.2)
          rw [show t + (cnt + 1) = t + 1 + cnt by omega]
          exact this
        · -- current accumulator removed: the live row `t` wins
          have hmR : m ∈ R := h1.1
          have hb : spea2Beats D S t m (List.range' 1 (size - 1)) = true := by
            rw [hjs1]
            exact spea2Beats_true h (by omega) htR hmR (by omega) _
          rw [if_pos hb]
          have := ih (t + 1) t (by omega) (by omega) (Or.inl htR)
          rw [show t + (cnt + 1) = t + 1 + cnt by omega]
          exact this
  have hres := hfold (N' - 1) 1 0 (by omega) (by omega) (by
    by_cases h0 : 0 ∈ R
    · refine Or.inr ⟨h0, ?_⟩
      intro l hl
      rw [show l = 0 by omega]
      exact h0
    · exact Or.inl h0)
  rw [show 1 + (N' - 1) = N' by omega] at hres
  obtain ⟨hlt, hcase⟩ := hres
  refine ⟨hlt, ?_⟩
  rcases hcase with h1 | h1
  · exact h1
  · exfalso
    have hsub : (List.range N').Subperm R := by
      refine (List.nodup_range N').subperm ?_
      intro x hx
      rw [List.mem_range] at hx
      exact h1 x hx
    have := hsub.length_le
    rw [List.length_range] at this
    obtain ⟨hs, _⟩ := h
    omega

/-- The bubbling pass moves `m` from its position inside the window to the
window's last slot, permuting the row and leaving everything before the
window start and after the window end unchanged. -/
theorem bubble_spec (m : ℕ) :
    ∀ (cnt j₀ : ℕ) (Si : List ℕ) (p : ℕ), Si.Nodup →
      j₀ ≤ p → p ≤ j₀ + cnt → j₀ + cnt < Si.length →
      Si.getD p 0 = m →
      ((List.range' j₀ cnt).foldl (fun Si j => bubbleStep m Si j) Si).Perm
        Si ∧
      ((List.range' j₀ cnt).foldl (fun Si j => bubbleStep m Si j) Si).getD
        (j₀ + cnt) 0 = m ∧
      (∀ q, q < j₀ →
        ((List.range' j₀ cnt).foldl (fun Si j => bubbleStep m Si j)
          Si).getD q 0 = Si.getD q 0) ∧
      (∀ q, j₀ + cnt < q →
        ((List.range' j₀ cnt).foldl (fun Si j => bubbleStep m Si j)
          Si).getD q 0 = Si.getD q 0) ∧
      ((List.range' j₀ cnt).foldl (fun Si j => bubbleStep m Si j)
        Si).length = Si.length := by
  intro cnt
  induction cnt with
  | zero =>
    intro j₀ Si p hnd h1 h2 h3 h4
    rw [show List.range' j₀ 0 = [] from rfl, List.foldl_nil, Nat.add_zero]
    refine ⟨List.Perm.refl _, ?_, fun q _ => rfl, fun q _ => rfl, rfl⟩
    rw [show j₀ = p by omega]
    exact h4
  | succ cnt ih =>
    intro j₀ Si p hnd h1 h2 h3 h4
    rw [List.range'_succ, List.foldl_cons]
    by_cases hj0 : Si.getD j₀ 0 = m
    · have hstepeq : bubbleStep m Si j₀ =
          (Si.set j₀ (Si.getD (j₀ + 1) 0)).set (j₀ + 1) m := by
        unfold bubbleStep
        rw [if_pos (beq_iff_eq.mpr hj0)]
      have hlen2 : ((Si.set j₀ (Si.getD (j₀ + 1) 0)).set (j₀ + 1) m).length
          = Si.length := by
        rw [List.length_set, List.length_set]
      have hstepperm : (bubbleStep m Si j₀).Perm Si := by
        rw [hstepeq, ← hj0]
        exact set_set_perm 0 Si j₀ (j₀ + 1) (by omega) (by omega)
      have hstepnd : (bubbleStep m Si j₀).Nodup := hstepperm.symm.nodup hnd
      have hsteplen : (bubbleStep m Si j₀).length = Si.length := by
        rw [hstepeq]
        exact hlen2
      have hstepm : (bubbleStep m Si j₀).getD (j₀ + 1) 0 = m := by
        rw [hstepeq]
        exact getD_set_eq _ (by rw [List.length_set]; omega) _ _
      obtain ⟨ip, im, ilo, ihi, ilen⟩ := ih (j₀ + 1) (bubbleStep m Si j₀)
        (j₀ + 1) hstepnd (le_refl _) (by omega) (by omega) hstepm
      refine ⟨ip.trans hstepperm, ?_, ?_, ?_, ?_⟩
      · rw [show j₀ + (cnt + 1) = j₀ + 1 + cnt by omega]
        exact im
      · intro q hq
        rw [ilo q (by omega), hstepeq,
          getD_set_ne2 _ (by omega), getD_set_ne2 _ (by omega)]
      · intro q hq
        rw [ihi q (by omega), hstepeq,
          getD_set_ne2 _ (by omega), getD_set_ne2 _ (by omega)]
      · rw [ilen, hsteplen]
    · have hstepeq : bubbleStep m Si j₀ = Si := by
        unfold bubbleStep
        rw [if_neg (fun hc => hj0 (beq_iff_eq.mp hc))]
      rw [hstepeq]
      have hpj : p ≠ j₀ := by
        intro h
        rw [h] at h4
        exact hj0 h4
      obtain ⟨ip, im, ilo, ihi, ilen⟩ := ih (j₀ + 1) Si p hnd (by omega)
        (by omega) (by omega) h4
      refine ⟨ip, ?_, ?_, ?_, ilen⟩
      · rw [show j₀ + (cnt + 1) = j₀ + 1 + cnt by omega]
        exact im
      · intro q hq
        exact ilo q (by omega)
      · intro q hq
        exact ihi q (by omega)

/-- The bubbling pass keeps rows well-formed, whatever their contents. -/
theorem bubble_bounds (m N' : ℕ) (hm : m < N') (js : List ℕ)
    (Si : List ℕ) (hlen : Si.length = N')
    (hb : ∀ p, p < N' → Si.getD p 0 < N') :
    (js.foldl (fun Si j => bubbleStep m Si j) Si).length = N' ∧
    (∀ p, p < N' →
      (js.foldl (fun Si j => bubbleStep m Si j) Si).getD p 0 < N') := by
  have := foldl_preserve (P := fun Si : List ℕ => Si.length = N' ∧
    ∀ p, p < N' → Si.getD p 0 < N') (fun Si j => bubbleStep m Si j) js Si
    ?_ ⟨hlen, hb⟩
  · exact this
  · intro Si j _ hP
    obtain ⟨hl, he⟩ := hP
    unfold bubbleStep
    dsimp only
    by_cases hc : (Si.getD j 0 == m) = true
    · rw [if_pos hc]
      refine ⟨by rw [List.length_set, List.length_set, hl], ?_⟩
      intro p hp
      by_cases hp1 : p = j + 1
      · rw [hp1]
        by_cases hjl : j + 1 < (Si.set j (Si.getD (j + 1) 0)).length
        · rw [getD_set_eq _ hjl]
          exact hm
        · rw [List.length_set] at hjl
          rw [List.set_eq_of_length_le (by rw [List.length_set]; omega),
            List.getD_eq_getElem?_getD,
            List.getElem?_eq_none (by rw [List.length_set]; omega),
            Option.getD_none]
          omega
      · rw [getD_set_ne2 _ (fun h => hp1 h.symm)]
        by_cases hp2 : p = j
        · rw [hp2]
          by_cases hplen : j < Si.length
          · rw [getD_set_eq _ hplen]
            by_cases hj1 : j + 1 < N'
            · exact he (j + 1) hj1
            · rw [List.getD_eq_getElem?_getD, List.getElem?_eq_none
                (by omega), Option.getD_none]
              omega
          · rw [List.set_eq_of_length_le (by omega)]
            rw [← hp2]
            exact he p hp
        · rw [getD_set_ne2 _ (fun h => hp2 h.symm)]
          exact he p hp
    · rw [if_neg hc]
      exact ⟨hl, he⟩

/-- What one removal pass computes: row and column `m` of the distance
matrix become infinite, everything else is unchanged, and every
`sorted_indices` row is bubbled once. -/
theorem spea2Remove_struct {N' m : ℕ} (size : ℕ)
    (D : List (List (WithTop ℚ))) (S : List (List ℕ))
    (hDdim : MatDim D N') (hSlen : S.length = N') (hm : m < N') :
    MatDim (spea2Remove D S N' size m).1 N' ∧
    (∀ p q, p < N' → q < N' →
      ent (spea2Remove D S N' size m).1 p q =
        if p = m ∨ q = m then ⊤ else ent D p q) ∧
    (spea2Remove D S N' size m).2.length = N' ∧
    (∀ i, i < N' → (spea2Remove D S N' size m).2.getD i [] =
      (List.range' 1 (size - 2)).foldl (fun Si j => bubbleStep m Si j)
        (S.getD i [])) := by
  have hfold : ∀ (cnt t : ℕ)
      (Dc : List (List (WithTop ℚ))) (Sc : List (List ℕ)),
      t + cnt ≤ N' → MatDim Dc N' →
      (∀ p q, p < N' → q < N' → ent Dc p q =
        if (p = m ∧ q < t) ∨ (q = m ∧ p < t) then ⊤ else ent D p q) →
      Sc.length = N' →
      (∀ i, i < N' → Sc.getD i [] =
        if i < t then (List.range' 1 (size - 2)).foldl
          (fun Si j => bubbleStep m Si j) (S.getD i [])
        else S.getD i []) →
      MatDim ((List.range' t cnt).foldl
        (fun DS i =>
          (mset (mset DS.1 i m ⊤) m i ⊤,
           DS.2.set i ((List.range' 1 (size - 2)).foldl
             (fun Si j => bubbleStep m Si j) (DS.2.getD i []))))
        (Dc, Sc)).1 N' ∧
      (∀ p q, p < N' → q < N' →
        ent ((List.range' t cnt).foldl
          (fun DS i =>
            (mset (mset DS.1 i m ⊤) m i ⊤,
             DS.2.set i ((List.range' 1 (size - 2)).foldl
               (fun Si j => bubbleStep m Si j) (DS.2.getD i []))))
          (Dc, Sc)).1 p q =
          if (p = m ∧ q < t + cnt) ∨ (q = m ∧ p < t + cnt) then ⊤
          else ent D p q) ∧
      ((List.range' t cnt).foldl
        (fun DS i =>
          (mset (mset DS.1 i m ⊤) m i ⊤,
           DS.2.set i ((List.range' 1 (size - 2)).foldl
             (fun Si j => bubbleStep m Si j) (DS.2.getD i []))))
        (Dc, Sc)).2.length = N' ∧
      (∀ i, i < N' →
        ((List.range' t cnt).foldl
          (fun DS i =>
            (mset (mset DS.1 i m ⊤) m i ⊤,
             DS.2.set i ((List.range' 1 (size - 2)).foldl
               (fun Si j => bubbleStep m Si j) (DS.2.getD i []))))
          (Dc, Sc)).2.getD i [] =
          if i < t + cnt then (List.range' 1 (size - 2)).foldl
            (fun Si j => bubbleStep m Si j) (S.getD i [])
          else S.getD i []) := by
    intro cnt
    induction cnt with
    | zero =>
      intro t Dc Sc hle hdim hent hslen hsrow
      rw [show List.range' t 0 = [] from rfl, List.foldl_nil, Nat.add_zero]
      exact ⟨hdim, hent, hslen, hsrow⟩
    | succ cnt ih =>
      intro t Dc Sc hle hdim hent hslen hsrow
      rw [List.range'_succ, List.foldl_cons]
      have htN : t < N' := by omega
      have hdim1 : MatDim (mset Dc t m ⊤) N' := mset_dim hdim htN
      have hdim2 : MatDim (mset (mset Dc t m ⊤) m t ⊤) N' :=
        mset_dim hdim1 hm
      have hent2 : ∀ p q, p < N' → q < N' →
          ent (mset (mset Dc t m ⊤) m t ⊤) p q =
          if (p = m ∧ q < t + 1) ∨ (q = m ∧ p < t + 1) then ⊤
          else ent D p q := by
        intro p q hp hq
        rw [ent_mset hdim1 hm htN p q, ent_mset hdim htN hm p q,
          hent p q hp hq]
        by_cases h1 : p = m ∧ q = t
        · rw [if_pos h1, if_pos (by omega)]
        · rw [if_neg h1]
          by_cases h2 : p = t ∧ q = m
          · rw [if_pos h2, if_pos (by omega)]
          · rw [if_neg h2]
            by_cases h3 : (p = m ∧ q < t) ∨ (q = m ∧ p < t)
            · rw [if_pos h3, if_pos (by omega)]
            · rw [if_neg h3, if_neg (by
                intro hcon
                rcases hcon with ⟨he1, he2⟩ | ⟨he1, he2⟩
                · rcases Nat.lt_or_ge q t with hq2 | hq2
                  · exact h3 (Or.inl ⟨he1, hq2⟩)
                  · exact h1 ⟨he1, by omega⟩
                · rcases Nat.lt_or_ge p t with hp2 | hp2
                  · exact h3 (Or.inr ⟨he1, hp2⟩)
                  · exact h2 ⟨by omega, he1⟩)]
      have hscur : Sc.getD t [] = S.getD t [] := by
        rw [hsrow t htN, if_neg (by omega)]
      have hslen1 : (Sc.set t ((List.range' 1 (size - 2)).foldl
          (fun Si j => bubbleStep m Si j) (Sc.getD t []))).length = N' := by
        rw [List.length_set, hslen]
      have hsrow1 : ∀ i, i < N' →
          (Sc.set t ((List.range' 1 (size - 2)).foldl
            (fun Si j => bubbleStep m Si j) (Sc.getD t []))).getD i [] =
          if i < t + 1 then (List.range' 1 (size - 2)).foldl
            (fun Si j => bubbleStep m Si j) (S.getD i [])
          else S.getD i [] := by
        intro i hi
        by_cases hit : i = t
        · rw [hit, getD_set_eq _ (by omega), hscur, if_pos (by omega)]
        · rw [getD_set_ne2 _ (fun h => hit h.symm), hsrow i hi]
          by_cases h2 : i < t
          · rw [if_pos h2, if_pos (by omega)]
          · rw [if_neg h2, if_neg (by omega)]
      have := ih (t + 1) _ _ (by omega) hdim2 hent2 hslen1 hsrow1
      rw [show t + (cnt + 1) = t + 1 + cnt by omega]
      exact this
  have hD0 : ∀ p q, p < N' → q < N' → ent D p q =
      if (p = m ∧ q < 0) ∨ (q = m ∧ p < 0) then ⊤ else ent D p q := by
    intro p q _ _
    rw [if_neg (by omega)]
  have hS0 : ∀ i, i < N' → S.getD i [] =
      if i < 0 then (List.range' 1 (size - 2)).foldl
        (fun Si j => bubbleStep m Si j) (S.getD i [])
      else S.getD i [] := by
    intro i _
    rw [if_neg (by omega)]
  have hres := hfold N' 0 D S (by omega) hDdim hD0 hSlen hS0
  rw [Nat.zero_add] at hres
  have hrw : spea2Remove D S N' size m = (List.range' 0 N').foldl
      (fun DS i =>
        (mset (mset DS.1 i m ⊤) m i ⊤,
         DS.2.set i ((List.range' 1 (size - 2)).foldl
           (fun Si j => bubbleStep m Si j) (DS.2.getD i []))))
      (D, S) := by
    rw [← List.range_eq_range']
    rfl
  rw [hrw]
  obtain ⟨h1, h2, h3, h4⟩ := hres
  refine ⟨h1, ?_, h3, ?_⟩
  · intro p q hp hq
    rw [h2 p q hp hq]
    by_cases hc : (p = m ∧ q < N') ∨ (q = m ∧ p < N')
    · rw [if_pos hc, if_pos (by tauto)]
    · rw [if_neg hc, if_neg (by
        intro hcon
        rcases hcon with h | h
        · exact hc (Or.inl ⟨h, hq⟩)
        · exact hc (Or.inr ⟨h, hp⟩))]
  · intro i hi
    rw [h4 i hi, if_pos (by omega)]

/-- Removing the minimal live index preserves the trimming invariant with
one fewer live slot. -/
theorem spea2Remove_inv {N' size : ℕ} {R : List ℕ}
    {D : List (List (WithTop ℚ))} {S : List (List ℕ)}
    (h : TrimInv N' size R D S) {m : ℕ} (hm : m < N') (hmR : m ∉ R)
    (hsz : 2 ≤ size) :
    TrimInv N' (size - 1) (R ++ [m])
      (spea2Remove D S N' size m).1 (spea2Remove D S N' size m).2 := by
  obtain ⟨hcnt, hRnd, hRlt, hDdim, hSlen, hrows, hlive, hrem, hfin⟩ := h
  obtain ⟨hdim', hent', hslen', hsrow'⟩ :=
    spea2Remove_struct size D S hDdim hSlen hm
  have hszN : size ≤ N' := by omega
  refine ⟨?_, ?_, ?_, hdim', hslen', ?_, ?_, ?_, ?_⟩
  · rw [List.length_append, List.length_singleton]
    omega
  · exact (List.perm_append_singleton m R).symm.nodup
      (List.nodup_cons.mpr ⟨hmR, hRnd⟩)
  · intro r hr
    rcases List.mem_append.mp hr with hr | hr
    · exact hRlt r hr
    · rw [List.mem_singleton] at hr
      omega
  · -- all-row bounds after one bubble pass
    intro i hi
    rw [hsrow' i hi]
    exact bubble_bounds m N' (by omega) _ _ (hrows i hi).1 (hrows i hi).2
  · -- live rows stay permutations with own head; suffix grows by m
    intro i hi hiR2
    have hmmem2 : m ∈ R ++ [m] :=
      List.mem_append.mpr (Or.inr (List.mem_singleton.mpr rfl))
    have hiR : i ∉ R := fun hc => hiR2 (List.mem_append.mpr (Or.inl hc))
    have him : i ≠ m := by
      intro hc
      rw [hc] at hiR2
      exact hiR2 hmmem2
    obtain ⟨hperm, hhead, hsuf⟩ := hlive i hi hiR
    have hrl : (S.getD i []).length = N' := (hrows i hi).1
    have hnd : (S.getD i []).Nodup := hperm.symm.nodup (List.nodup_range _)
    -- locate m inside the row
    have hmmem : m ∈ S.getD i [] := hperm.symm.mem_iff.mp
      (List.mem_range.mpr hm)
    obtain ⟨p, hp, hpe⟩ := List.mem_iff_getElem.mp hmmem
    have hpd : (S.getD i []).getD p 0 = m := by
      rw [List.getD_eq_getElem?_getD, List.getElem?_eq_getElem hp, hpe]
      rfl
    have hp1 : 1 ≤ p := by
      rcases Nat.eq_zero_or_pos p with h0 | h0
      · exfalso
        rw [h0] at hpd
        rw [hpd] at hhead
        exact him hhead.symm
      · omega
    have hplt : p < size := by
      by_contra hcon
      push_neg at hcon
      have := hsuf p hcon (by rw [hrl] at hp; exact hp)
      rw [hpd] at this
      exact hmR this
    have hwin : 1 + (size - 2) < (S.getD i []).length := by
      rw [hrl]
      omega
    obtain ⟨hbperm, hbend, hblo, hbhi, hblen⟩ :=
      bubble_spec m (size - 2) 1 (S.getD i []) p hnd hp1 (by omega) hwin hpd
    rw [hsrow' i hi]
    refine ⟨hbperm.trans hperm, ?_, ?_⟩
    · rw [hblo 0 (by omega)]
      exact hhead
    · intro q hq hqN
      by_cases hqe : q = size - 1
      · rw [hqe, show size - 1 = 1 + (size - 2) by omega, hbend]
        exact List.mem_append.mpr (Or.inr (List.mem_singleton.mpr rfl))
      · have hq2 : size ≤ q := by omega
        rw [hbhi q (by omega)]
        exact List.mem_append.mpr (Or.inl (hsuf q hq2 hqN))
  · -- removed rows/columns of the distance matrix are infinite
    intro i hi j hj
    have hiN : i < N' := by
      rcases List.mem_append.mp hi with hi2 | hi2
      · exact hRlt i hi2
      · rw [List.mem_singleton] at hi2
        omega
    rcases List.mem_append.mp hi with hi2 | hi2
    · constructor
      · rw [hent' i j hiN hj]
        by_cases hc : i = m ∨ j = m
        · rw [if_pos hc]
        · rw [if_neg hc]
          exact (hrem i hi2 j hj).1
      · rw [hent' j i hj hiN]
        by_cases hc : j = m ∨ i = m
        · rw [if_pos hc]
        · rw [if_neg hc]
          exact (hrem i hi2 j hj).2
    · rw [List.mem_singleton] at hi2
      subst hi2
      exact ⟨by rw [hent' i j hiN hj, if_pos (Or.inl rfl)],
        by rw [hent' j i hj hiN, if_pos (Or.inr rfl)]⟩
  · -- live-live distances stay finite
    intro i hi hiR2 j hj hjR2
    have hmmem2 : m ∈ R ++ [m] :=
      List.mem_append.mpr (Or.inr (List.mem_singleton.mpr rfl))
    have hiR : i ∉ R := fun hc => hiR2 (List.mem_append.mpr (Or.inl hc))
    have hjR : j ∉ R := fun hc => hjR2 (List.mem_append.mpr (Or.inl hc))
    have him : i ≠ m := by
      intro hc
      rw [hc] at hiR2
      exact hiR2 hmmem2
    have hjm : j ≠ m := by
      intro hc
      rw [hc] at hjR2
      exact hjR2 hmmem2
    rw [hent' i j hi hj, if_neg (by tauto)]
    exact hfin i hi hiR j hj hjR

/-- The trimming loop removes one live index per iteration until exactly
`n` remain, collecting distinct valid positions. -/
theorem spea2TrimLoop_spec {n N' : ℕ} (hn : 1 ≤ n) :
    ∀ (fuel size : ℕ)
      (DS : List (List (WithTop ℚ)) × List (List ℕ)) (tr : List ℕ),
      TrimInv N' size tr DS.1 DS.2 → size ≤ n + fuel →
      (spea2TrimLoop n N' fuel DS size tr).Nodup ∧
      (∀ r ∈ spea2TrimLoop n N' fuel DS size tr, r < N') ∧
      (spea2TrimLoop n N' fuel DS size tr).length =
        tr.length + (size - n) := by
  intro fuel
  induction fuel with
  | zero =>
    intro size DS tr hinv hle
    obtain ⟨hcnt, hRnd, hRlt, _⟩ := hinv
    rw [spea2TrimLoop]
    exact ⟨hRnd, hRlt, by omega⟩
  | succ fuel ih =>
    intro size DS tr hinv hle
    rw [spea2TrimLoop]
    by_cases hns : n < size
    · rw [if_pos hns]
      have hsz2 : 2 ≤ size := by omega
      obtain ⟨hmlt, hmR⟩ := spea2MinPos_live hinv hsz2
      have hinv' := spea2Remove_inv hinv hmlt hmR hsz2
      have := ih (size - 1) _ (tr ++ [spea2MinPos DS.1 DS.2 N' size])
        hinv' (by omega)
      refine ⟨this.1, this.2.1, ?_⟩
      rw [this.2.2, List.length_append, List.length_singleton]
      omega
    · rw [if_neg hns]
      obtain ⟨hcnt, hRnd, hRlt, _⟩ := hinv
      exact ⟨hRnd, hRlt, by omega⟩

/-- Python `del l[k]` at a nonnegative index is `eraseIdx`. -/
theorem pyDel_natCast {α : Type} (l : List α) (k : ℕ) :
    pyDel l (k : ℤ) = l.eraseIdx k := by
  unfold pyDel
  rw [if_neg (by omega : ¬((k : ℤ) < 0))]
  show l.eraseIdx ((k : ℤ)).toNat = l.eraseIdx k
  rw [Int.toNat_natCast]

/-- Deleting a strictly descending list of in-range positions removes
exactly one element per position. -/
theorem eraseFold_spec {α : Type} :
    ∀ (ds : List ℕ) (l : List α), List.Pairwise (fun a b => a > b) ds →
      (∀ d ∈ ds, d < l.length) →
      (ds.foldl (fun l i => l.eraseIdx i) l).Sublist l ∧
      (ds.foldl (fun l i => l.eraseIdx i) l).length =
        l.length - ds.length := by
  intro ds
  induction ds with
  | nil =>
    intro l _ _
    exact ⟨List.Sublist.refl l,
      by rw [List.foldl_nil, List.length_nil, Nat.sub_zero]⟩
  | cons d rest ih =>
    intro l hpw hbnd
    have hd : d < l.length := hbnd d (List.mem_cons_self _ _)
    have hlen1 : (l.eraseIdx d).length = l.length - 1 := by
      rw [List.length_eraseIdx]
      rw [if_pos hd]
    have hrest : ∀ r ∈ rest, r < (l.eraseIdx d).length := by
      intro r hr
      have := (List.pairwise_cons.mp hpw).1 r hr
      omega
    have := ih (l.eraseIdx d) (List.pairwise_cons.mp hpw).2 hrest
    rw [List.foldl_cons]
    refine ⟨this.1.trans (List.eraseIdx_sublist l d), ?_⟩
    rw [this.2, hlen1, List.length_cons]
    omega

theorem getD_mem_of_lt {β : Type} (l : List β) (d : β) (p : ℕ)
    (h : p < l.length) : l.getD p d ∈ l := by
  rw [List.getD_eq_getElem?_getD, List.getElem?_eq_getElem h]
  exact List.getElem_mem h

/-- The over-full branch keeps exactly `n` of the candidate indices, in
their original order. -/
theorem spea2Trim_spec (vals : List Fitvals) (Lnum : ℕ) (ch : List ℕ)
    {n : ℕ} (hn : 1 ≤ n) (hlt : n < ch.length) :
    (spea2Trim vals Lnum ch n).Sublist ch ∧
    (spea2Trim vals Lnum ch n).length = n := by
  obtain ⟨hdim, hent⟩ := spea2Distances_spec vals Lnum ch
  obtain ⟨hSlen, hSrows⟩ := spea2SortedIndices_spec vals Lnum ch
  set N' := ch.length with hN'
  set D := spea2Distances vals Lnum ch with hD
  set S := spea2SortedIndices D N' with hS
  have hinv0 : TrimInv N' N' [] D S := by
    refine ⟨(by simp), List.nodup_nil,
      (by intro r hr; cases hr), hdim, hSlen, ?_, ?_,
      (by intro i hi; cases hi), ?_⟩
    · intro i hi
      obtain ⟨hperm, hhead, hrl⟩ := hSrows i hi
      refine ⟨hrl, ?_⟩
      intro p hp
      have hmem : (S.getD i []).getD p 0 ∈ S.getD i [] :=
        getD_mem_of_lt _ _ _ (by omega)
      exact List.mem_range.mp (hperm.mem_iff.mp hmem)
    · intro i hi _
      obtain ⟨hperm, hhead, hrl⟩ := hSrows i hi
      exact ⟨hperm, hhead, fun p hp1 hp2 => absurd hp1 (by omega)⟩
    · intro i hi _ j hj _
      exact (hent i hi j hj).1
  have hloop := spea2TrimLoop_spec hn N' N' (D, S) [] hinv0 (by omega)
  set tor := spea2TrimLoop n N' N' (D, S) N' [] with htor
  obtain ⟨hnd, hbnd, hlen⟩ := hloop
  rw [List.length_nil] at hlen
  set sorted := tor.mergeSort fun u v => decide (u ≤ v) with hsorted
  have hsperm : sorted.Perm tor := List.mergeSort_perm tor _
  have hsnd : sorted.Nodup := hsperm.symm.nodup hnd
  have hsle : sorted.Pairwise (fun a b => a ≤ b) := by
    have h : sorted.Pairwise (fun u v => decide (u ≤ v) = true) := by
      refine List.sorted_mergeSort ?_ ?_ tor
      · intro a b c hab hbc
        rw [decide_eq_true_eq] at hab hbc ⊢
        omega
      · intro a b
        rcases Nat.le_total a b with h | h <;> simp [h]
    exact h.imp fun hab => by rwa [decide_eq_true_eq] at hab
  have hslt : sorted.Pairwise (fun a b => a < b) :=
    (hsle.and hsnd).imp fun hab => lt_of_le_of_ne hab.1 hab.2
  have hrdesc : sorted.reverse.Pairwise (fun a b => a > b) :=
    List.pairwise_reverse.mpr hslt
  have hrbnd : ∀ d ∈ sorted.reverse, d < ch.length := by
    intro d hd
    rw [List.mem_reverse] at hd
    exact hbnd d (hsperm.mem_iff.mp hd)
  have hrlen : sorted.reverse.length = N' - n := by
    rw [List.length_reverse, hsperm.length_eq, hlen]
    omega
  have herase := eraseFold_spec sorted.reverse ch hrdesc hrbnd
  have hfinal : spea2Trim vals Lnum ch n =
      sorted.reverse.foldl (fun l i => l.eraseIdx i) ch := by
    rw [spea2Trim]
    have hpd : ∀ (ds : List ℕ) (l : List ℕ),
        ds.foldl (fun l (idx : ℕ) => pyDel l (idx : ℤ)) l =
        ds.foldl (fun l i => l.eraseIdx i) l := by
      intro ds
      induction ds with
      | nil => intro l; rfl
      | cons a t ihd =>
        intro l
        rw [List.foldl_cons, List.foldl_cons, pyDel_natCast, ihd]
    exact hpd _ _
  rw [hfinal]
  refine ⟨herase.1, ?_⟩
  rw [herase.2, hrlen]
  omega

/-- C2: for every population with at least `n` individuals
(`1 ≤ n ≤ len(pop)`), `selSPEA2(pop, n)` returns exactly `n` individuals,
each drawn from the input population (no reference duplicated beyond its
multiplicity in the input), across the under-full, over-full and
exact-fit branches. -/
theorem selSPEA2_spec {α : Type} (rand : ℕ → ℕ → ℕ) (fit : α → List ℚ)
    (individuals : List α) (n : ℕ) (hn1 : 1 ≤ n)
    (hnN : n ≤ individuals.length) :
    (selSPEA2 rand fit individuals n).length = n ∧
    (selSPEA2 rand fit individuals n).Subperm individuals := by
  match individuals, hnN with
  | [], hnN =>
    rw [List.length_nil] at hnN
    omega
  | i0 :: rest, hnN =>
    set vals := (i0 :: rest).map fit with hvals
    set Lnum := (fit i0).length with hLnum
    set chosen := spea2ChosenIndices vals with hchosen
    set ci := if chosen.length < n then chosen ++ spea2Next rand vals Lnum n
      else if n < chosen.length then spea2Trim vals Lnum chosen n
      else chosen with hci
    have heq : selSPEA2 rand fit (i0 :: rest) n =
        ci.map fun i => (i0 :: rest).getD i i0 := rfl
    have hvlen : vals.length = (i0 :: rest).length := List.length_map _ _
    have hprops : ci.Nodup ∧ (∀ i ∈ ci, i < vals.length) ∧
        ci.length = n := by
      rw [hci]
      by_cases h1 : chosen.length < n
      · rw [if_pos h1]
        obtain ⟨hnnd, hnmem, hnlen⟩ :=
          spea2Next_spec rand vals Lnum n h1 (by omega)
        refine ⟨?_, ?_, ?_⟩
        · rw [List.nodup_append]
          refine ⟨spea2Chosen_nodup vals, hnnd, ?_⟩
          intro a ha hamem
          exact (hnmem a hamem).2 ha
        · intro i hi
          rcases List.mem_append.mp hi with hi | hi
          · exact spea2Chosen_lt hi
          · exact (hnmem i hi).1
        · rw [List.length_append, hnlen, ← hchosen]
          omega
      · rw [if_neg h1]
        by_cases h2 : n < chosen.length
        · rw [if_pos h2]
          obtain ⟨hsub, hlen⟩ := spea2Trim_spec vals Lnum chosen hn1 h2
          refine ⟨hsub.nodup (spea2Chosen_nodup vals), ?_, hlen⟩
          intro i hi
          exact spea2Chosen_lt (hsub.mem hi)
        · rw [if_neg h2]
          exact ⟨spea2Chosen_nodup vals, fun i hi => spea2Chosen_lt hi,
            by omega⟩
    obtain ⟨hnd, hb, hlen⟩ := hprops
    rw [heq]
    constructor
    · rw [List.length_map]
      exact hlen
    · have hsub : ci.Subperm (List.range (i0 :: rest).length) := by
        refine List.Nodup.subperm hnd ?_
        intro x hx
        rw [List.mem_range]
        have := hb x hx
        omega
      have hfinal := subperm_map (fun i => (i0 :: rest).getD i i0) hsub
      rw [map_getD_range] at hfinal
      exact hfinal

/-- Witness for C2: a two-individual population with `n = 1`. -/
theorem selSPEA2_spec_witness :
    (1 ≤ 1 ∧ 1 ≤ ([[(1 : ℚ)], [2]] : List (List ℚ)).length) ∧
    ((selSPEA2 (fun _ _ => 0) (fun v => v) [[(1 : ℚ)], [2]] 1).length = 1 ∧
     (selSPEA2 (fun _ _ => 0) (fun v => v)
       [[(1 : ℚ)], [2]] 1).Subperm [[(1 : ℚ)], [2]]) :=
  ⟨⟨by decide, by decide⟩,
    selSPEA2_spec (fun _ _ => 0) (fun v => v) [[(1 : ℚ)], [2]] 1
      (by decide) (by decide)⟩

end DeapTools
